import Mathlib

/-!
Verification of the Go package `fcavani/tags`.

A shallow embedding of `src/tags.go`.

* A Go `string` is a finite sequence of bytes: `GoString := List Nat`
  (each byte a natural below 256).  Go compares strings byte-wise, and so does
  `strLt`.
* A `Tags` value (`type Tags []string`) is a list of strings.  A method with a
  pointer receiver that assigns `*t` becomes a function returning the new
  contents next to the error (`none` is Go's `nil` error).
* The functions of the Go standard library used by the package
  (`sort.SearchStrings`, `strings.TrimSpace`, `strings.Trim`, `strings.Split`,
  the `range` loop over a string, `unicode.IsDigit`, `unicode.IsSpace`) are
  modelled after their Go implementations.  A loop whose number of iterations
  is bounded by the length of its input takes that bound as fuel; the fuel is
  shown never to run out.
* The letter classifier `u.IsLetter` (package `github.com/fcavani/unicode`), the
  Unicode table of decimal digits above Latin-1 and the two package variables
  `TagStringMax`, `TagStringMin` are the fields of `Env`.
-/

namespace GoTags

/-! ## Strings -/

/-- A Go string: a sequence of bytes. -/
abbrev GoString := List Nat

/-- A Go `rune`. -/
abbrev Rune := Nat

/-- Go's `a < b` on strings: byte-wise lexicographic comparison. -/
def strLt : GoString → GoString → Bool
  | [], [] => false
  | [], _ :: _ => true
  | _ :: _, [] => false
  | a :: as, b :: bs => if a < b then true else if b < a then false else strLt as bs

/-! ## UTF-8 decoding (`unicode/utf8`) -/

/-- Value `utf8.RuneError`. -/
def RuneError : Rune := 0xFFFD

/-- Value `utf8.RuneSelf`. -/
def RuneSelf : Nat := 0x80

/-- Table `first` of `unicode/utf8` together with `acceptRanges`: for a lead
byte of a multi-byte sequence the size of the sequence and the accepted range of
the second byte; `none` for the ASCII bytes and for the invalid lead bytes. -/
def leadInfo (b : Nat) : Option (Nat × Nat × Nat) :=
  if 0xC2 ≤ b ∧ b ≤ 0xDF then some (2, 0x80, 0xBF)
  else if b = 0xE0 then some (3, 0xA0, 0xBF)
  else if 0xE1 ≤ b ∧ b ≤ 0xEC then some (3, 0x80, 0xBF)
  else if b = 0xED then some (3, 0x80, 0x9F)
  else if 0xEE ≤ b ∧ b ≤ 0xEF then some (3, 0x80, 0xBF)
  else if b = 0xF0 then some (4, 0x90, 0xBF)
  else if 0xF1 ≤ b ∧ b ≤ 0xF3 then some (4, 0x80, 0xBF)
  else if b = 0xF4 then some (4, 0x80, 0x8F)
  else none

/-- The rune of a two-byte sequence: `rune(s0&mask2)<<6 | rune(s1&maskx)`. -/
def rune2 (s0 s1 : Nat) : Nat := ((s0 &&& 0x1F) <<< 6) ||| (s1 &&& 0x3F)

/-- The rune of a three-byte sequence:
`rune(s0&mask3)<<12 | rune(s1&maskx)<<6 | rune(s2&maskx)`. -/
def rune3 (s0 s1 s2 : Nat) : Nat :=
  ((s0 &&& 0x0F) <<< 12) ||| ((s1 &&& 0x3F) <<< 6) ||| (s2 &&& 0x3F)

/-- The rune of a four-byte sequence:
`rune(s0&mask4)<<18 | rune(s1&maskx)<<12 | rune(s2&maskx)<<6 | rune(s3&maskx)`. -/
def rune4 (s0 s1 s2 s3 : Nat) : Nat :=
  ((s0 &&& 0x07) <<< 18) ||| ((s1 &&& 0x3F) <<< 12) ||| ((s2 &&& 0x3F) <<< 6) ||| (s3 &&& 0x3F)

/-- Function `utf8.DecodeRuneInString`: the first rune of `s` and its width in
bytes; `(RuneError, 1)` for an invalid encoding, `(RuneError, 0)` for `""`. -/
def DecodeRuneInString (s : GoString) : Rune × Nat :=
  match s with
  | [] => (RuneError, 0)
  | s0 :: _ =>
    if s0 < RuneSelf then (s0, 1)
    else
      match leadInfo s0 with
      | none => (RuneError, 1)
      | some (sz, lo, hi) =>
        if s.length < sz then (RuneError, 1)
        else
          let s1 := s.getD 1 0
          if s1 < lo ∨ hi < s1 then (RuneError, 1)
          else if sz ≤ 2 then (rune2 s0 s1, 2)
          else
            let s2 := s.getD 2 0
            if s2 < 0x80 ∨ 0xBF < s2 then (RuneError, 1)
            else if sz ≤ 3 then (rune3 s0 s1 s2, 3)
            else
              let s3 := s.getD 3 0
              if s3 < 0x80 ∨ 0xBF < s3 then (RuneError, 1)
              else (rune4 s0 s1 s2 s3, 4)

/-- Function `utf8.RuneStart`: the byte is not a continuation byte. -/
def RuneStart (b : Nat) : Bool := b &&& 0xC0 != 0x80

/-- Loop of `utf8.DecodeLastRuneInString` that walks back from `start` to the
closest byte at or after `lim` that can start a rune. -/
def lastRuneStart (s : GoString) (lim : Int) : Nat → Int → Int
  | 0, start => start
  | k + 1, start =>
    if lim ≤ start then
      if RuneStart (s.getD start.toNat 0) then start else lastRuneStart s lim k (start - 1)
    else start

/-- Function `utf8.DecodeLastRuneInString`: the last rune of `s` and its width. -/
def DecodeLastRuneInString (s : GoString) : Rune × Nat :=
  let n : Int := s.length
  if n = 0 then (RuneError, 0)
  else
    let start : Int := n - 1
    let r := s.getD start.toNat 0
    if r < RuneSelf then (r, 1)
    else
      let lim : Int := if n - 4 < 0 then 0 else n - 4
      let start := lastRuneStart s lim 4 (start - 1)
      let start := if start < 0 then 0 else start
      let d := DecodeRuneInString ((s.drop start.toNat).take (n - start).toNat)
      if start + d.2 ≠ n then (RuneError, 1) else d

/-- The values `v` of `for _, v := range s`, in order.  Each iteration consumes
at least one byte, so `fuel = len(s)` iterations are enough. -/
def rangeLoop : Nat → GoString → List Rune
  | 0, _ => []
  | fuel + 1, s =>
    match s with
    | [] => []
    | _ :: _ =>
      let d := DecodeRuneInString s
      d.1 :: rangeLoop fuel (s.drop d.2)

/-- The runes of `s` as a `range` loop sees them. -/
def runes (s : GoString) : List Rune := rangeLoop s.length s

/-! ## Package `unicode` -/

/-- Function `unicode.IsSpace`: the Latin-1 white space characters and the
members of the table `White_Space` above Latin-1. -/
def IsSpace (r : Rune) : Bool :=
  if r ≤ 0xFF then
    r == 0x09 || r == 0x0A || r == 0x0B || r == 0x0C || r == 0x0D || r == 0x20
      || r == 0x85 || r == 0xA0
  else
    r == 0x1680 || (0x2000 ≤ r && r ≤ 0x200A) || r == 0x2028 || r == 0x2029
      || r == 0x202F || r == 0x205F || r == 0x3000

/-- What the package takes from outside: the letter classifier `u.IsLetter`, the
Unicode table of decimal digits (consulted for runes above Latin-1) and the two
package variables (Go `int`). -/
structure Env where
  /-- Function `u.IsLetter` of `github.com/fcavani/unicode`. -/
  IsLetter : Rune → Bool
  /-- Membership in the range table `unicode.Digit`. -/
  digitTable : Rune → Bool
  /-- Package variable `TagStringMax`. -/
  TagStringMax : Int
  /-- Package variable `TagStringMin`. -/
  TagStringMin : Int

/-- Function `unicode.IsDigit`: `'0'..'9'` in Latin-1, the table above it. -/
def IsDigit (env : Env) (r : Rune) : Bool :=
  if r ≤ 0xFF then 0x30 ≤ r && r ≤ 0x39 else env.digitTable r

/-! ## Package `strings` -/

/-- Function `strings.TrimLeftFunc(s, unicode.IsSpace)`: drops leading runes
while they are white space.  Every step drops at least one byte. -/
def trimLeftLoop : Nat → GoString → GoString
  | 0, s => s
  | fuel + 1, s =>
    match s with
    | [] => []
    | _ :: _ =>
      let d := DecodeRuneInString s
      if IsSpace d.1 then trimLeftLoop fuel (s.drop d.2) else s

/-- Function `strings.TrimRightFunc(s, unicode.IsSpace)`: drops trailing runes,
decoded from the end by `DecodeLastRuneInString`, while they are white space. -/
def trimRightLoop : Nat → GoString → GoString
  | 0, s => s
  | fuel + 1, s =>
    match s with
    | [] => []
    | _ :: _ =>
      let d := DecodeLastRuneInString s
      if IsSpace d.1 then trimRightLoop fuel (s.take (s.length - d.2)) else s

/-- Function `strings.TrimSpace`: `s` without its leading and trailing white
space, as defined by Unicode, that is `TrimRightFunc(TrimLeftFunc(s, IsSpace),
IsSpace)`; the ASCII fast path of the Go implementation returns the same
string. -/
def TrimSpace (s : GoString) : GoString :=
  let l := trimLeftLoop s.length s
  trimRightLoop l.length l

/-- Drops the trailing bytes equal to `c` (`trimRightByte` of `strings`). -/
def trimRightByte : GoString → Nat → GoString
  | [], _ => []
  | b :: s, c =>
    match trimRightByte s c with
    | [] => if b = c then [] else [b]
    | r => b :: r

/-- Drops the leading bytes equal to `c` (`trimLeftByte` of `strings`). -/
def trimLeftByte : GoString → Nat → GoString
  | [], _ => []
  | b :: s, c => if b = c then trimLeftByte s c else b :: s

/-- Function `strings.Trim(s, cutset)` for a cutset of one ASCII byte `c`. -/
def Trim (s : GoString) (c : Nat) : GoString :=
  trimLeftByte (trimRightByte s c) c

/-- Function `strings.Split(s, sep)` for a separator of one byte: the pieces of
`s` between the occurrences of `sep` (one more piece than occurrences). -/
def Split : GoString → Nat → List GoString
  | [], _ => [[]]
  | b :: s, sep =>
    if b = sep then [] :: Split s sep
    else
      match Split s sep with
      | [] => [[b]]
      | p :: ps => (b :: p) :: ps

/-! ## Package `sort` -/

/-- Loop of `sort.Search`: invariant `f(i-1) == false`, `f(j) == true`.  The
interval `[i, j)` shrinks at every iteration, so `fuel = j - i` is enough. -/
def searchLoop (f : Nat → Bool) : Nat → Nat → Nat → Nat
  | 0, i, _ => i
  | fuel + 1, i, j =>
    if i < j then
      let h := (i + j) / 2
      if !f h then searchLoop f fuel (h + 1) j else searchLoop f fuel i h
    else i

/-- Function `sort.Search(n, f)`. -/
def Search (n : Nat) (f : Nat → Bool) : Nat := searchLoop f n 0 n

/-- Function `sort.SearchStrings(a, x)`: `Search(len(a), a[i] >= x)`. -/
def SearchStrings (a : List GoString) (x : GoString) : Nat :=
  Search a.length (fun i => !strLt (a.getD i []) x)

/-! ## Package `tags` -/

/-- Type `Tags []string`. -/
abbrev Tags := List GoString

/-- The error conditions the package raises.  `invalidTagChar c` carries the
text built by `string([]byte{byte(v)})` from the offending rune `v`: the one
byte `c`. -/
inductive TagError where
  /-- Error `e.ErrEmptyString`. -/
  | emptyString
  /-- Error `ErrInvalidTagChar`, pushed with the message naming the byte. -/
  | invalidTagChar (c : Nat)
  /-- Error `ErrTagExist`. -/
  | tagExist
  /-- Error `ErrTagNotFound`. -/
  | tagNotFound
  /-- Error `ErrInvalidTagsLength`. -/
  | invalidTagsLength
  deriving DecidableEq, Repr

/-- The default value of `TagStringMax`. -/
def TagStringMax : Int := 3000

/-- The default value of `TagStringMin`. -/
def TagStringMin : Int := 1

/-- Body of the loop of `CheckTag` over the runes of the tag. -/
def checkTagLoop (env : Env) : List Rune → Option TagError
  | [] => none
  | v :: vs =>
    if !env.IsLetter v && !IsDigit env v && v != 0x20 && v != 0x2D && v != 0x5F
        && v != 0x2E && v != 0x2F && v != 0x3A then
      some (.invalidTagChar (v % 256))
    else checkTagLoop env vs

/-- Function `CheckTag`: letters, digits, `' '`, `'-'`, `'_'`, `'.'`, `'/'`
and `':'` only. -/
def CheckTag (env : Env) (tag : GoString) : Option TagError :=
  checkTagLoop env (runes tag)

/-- Body of the loop of `CheckTags` over the runes of the list of tags. -/
def checkTagsLoop (env : Env) : List Rune → Option TagError
  | [] => none
  | v :: vs =>
    if !env.IsLetter v && !IsDigit env v && v != 0x2C && v != 0x20 && v != 0x2D
        && v != 0x5F && v != 0x2E && v != 0x2F && v != 0x3A then
      some (.invalidTagChar (v % 256))
    else checkTagsLoop env vs

/-- Function `CheckTags`. -/
def CheckTags (env : Env) (tags : GoString) : Option TagError :=
  if (tags.length : Int) ≤ env.TagStringMin ∧ (tags.length : Int) ≥ env.TagStringMax then
    some .invalidTagsLength
  else checkTagsLoop env (runes tags)

/-- Method `Tags.Len`. -/
def Len (t : Option Tags) : Nat :=
  match t with
  | none => 0
  | some ts => ts.length

/-- Method `Tags.Add`: the contents of `*t` after the call, and the error. -/
def Add (env : Env) (t : Tags) (tag : GoString) : Tags × Option TagError :=
  let ts := t
  let trim := TrimSpace tag
  if trim = [] then (t, some .emptyString)
  else
    match CheckTag env trim with
    | some err => (t, some err)
    | none =>
      let i := SearchStrings ts trim
      if i ≥ ts.length || ts.getD i [] != trim then
        (ts.take i ++ ([trim] ++ ts.drop i), none)
      else (t, some .tagExist)

/-- Loop of `NewTags` over the pieces of the raw string. -/
def newTagsLoop (env : Env) : List GoString → Tags → Tags × Option TagError
  | [], t => (t, none)
  | tag :: splitted, t =>
    let trim := Trim tag 0x20
    if trim = [] then newTagsLoop env splitted t
    else
      match Add env t tag with
      | (t1, some err) => (t1, some err)
      | (t1, none) => newTagsLoop env splitted t1

/-- Function `NewTags`: the returned pointer (`none` is `nil`) and the error. -/
def NewTags (env : Env) (tags : GoString) : Option Tags × Option TagError :=
  match CheckTags env tags with
  | some err => (none, some err)
  | none =>
    if tags ≠ [] then
      let r := newTagsLoop env (Split tags 0x2C) []
      (some r.1, r.2)
    else (some [], none)

/-- Loop of `Tags.Get`: `k` iterations are left, starting at index `i`. -/
def getLoop (tags : Tags) : Nat → Nat → GoString → GoString
  | 0, _, s => s
  | k + 1, i, s =>
    let s := s ++ tags.getD i []
    let s := if i < tags.length - 1 then s ++ [0x2C, 0x20] else s
    getLoop tags k (i + 1) s

/-- Method `Tags.Get`; the receiver may be `nil` (`none`). -/
def Get (t : Option Tags) : GoString :=
  match t with
  | none => []
  | some tags => getLoop tags tags.length 0 []

/-- Method `Tags.String`. -/
def String (t : Option Tags) : GoString := Get t

/-- Method `Tags.Copy`. -/
def Copy (t : Option Tags) : Option Tags :=
  match t with
  | none => none
  | some ts => some (ts.take ts.length)

/-- Loop of `Tags.Replace` over the pieces of the raw string. -/
def replaceLoop (env : Env) : List GoString → Tags → Tags
  | [], t => t
  | tag :: tags, t =>
    let trim := TrimSpace tag
    if trim = [] then replaceLoop env tags t
    else
      match Add env t tag with
      | (t1, some _) => replaceLoop env tags t1
      | (t1, none) => replaceLoop env tags t1

/-- Method `Tags.Replace`. -/
def Replace (env : Env) (t : Tags) (s : GoString) : Tags × Option TagError :=
  match CheckTags env s with
  | some err => (t, some err)
  | none => (replaceLoop env (Split s 0x2C) [], none)

/-- Loop shared by `Tags.Merge` and `Tags.MergeFromStringSlice`: adds every
string, stops at the first error that is not `ErrTagExist`. -/
def mergeLoop (env : Env) : List GoString → Tags → Tags × Option TagError
  | [], t => (t, none)
  | tag :: rest, t =>
    match Add env t tag with
    | (t1, some err) => if err ≠ .tagExist then (t1, some err) else mergeLoop env rest t1
    | (t1, none) => mergeLoop env rest t1

/-- Method `Tags.Merge`. -/
def Merge (env : Env) (t : Tags) (tags : Tags) : Tags × Option TagError :=
  let a := tags
  mergeLoop env a t

/-- Method `Tags.MergeFromStringSlice`. -/
def MergeFromStringSlice (env : Env) (t : Tags) (slice : List GoString) :
    Tags × Option TagError :=
  mergeLoop env slice t

/-- Method `Tags.Remove`. -/
def Remove (t : Tags) (tag : GoString) : Tags × Option TagError :=
  let ts := t
  let i := SearchStrings ts tag
  if i < ts.length && ts.getD i [] == tag then
    if i + 1 = ts.length then (ts.take i, none)
    else (ts.take i ++ ts.drop (i + 1), none)
  else (t, some .tagNotFound)

/-- Method `Tags.Exist`. -/
def Exist (t : Tags) (target : GoString) : Bool :=
  let ts := t
  let i := SearchStrings ts target
  if i < ts.length && ts.getD i [] == target then true else false

/-- Loop of `Tags.Compare` over the elements of `*t`. -/
def compareLoop (tr : Tags) : List GoString → Nat → Nat
  | [], count => count
  | tag :: rest, count => compareLoop tr rest (if Exist tr tag then count + 1 else count)

/-- Method `Tags.Compare`. -/
def Compare (t : Tags) (tr : Tags) : Nat :=
  let tags := t
  compareLoop tr tags 0

/-- Loop of `Tags.Same` over the indices of `tags1`. -/
def sameLoop (tags2 : Tags) : List GoString → Nat → Bool
  | [], _ => true
  | tag :: rest, i => if tag != tags2.getD i [] then false else sameLoop tags2 rest (i + 1)

/-- Method `Tags.Same`. -/
def Same (t : Tags) (tr : Tags) : Bool :=
  let tags1 := t
  let tags2 := tr
  if tags1.length ≠ tags2.length then false else sameLoop tags2 tags1 0

/-- Method `Tags.Less`. -/
def Less (t : Tags) (i j : Nat) : Bool := strLt (t.getD i []) (t.getD j [])

/-! ## Specification vocabulary -/

/-- Every element is smaller than its successor, as a boolean test. -/
def isStrictAsc : Tags → Bool
  | [] => true
  | [_] => true
  | a :: b :: r => strLt a b && isStrictAsc (b :: r)

/-- Invariant I1: every element is smaller than its successor. -/
def StrictAsc (t : Tags) : Prop := isStrictAsc t = true

instance instDecidableStrictAsc (t : Tags) : Decidable (StrictAsc t) :=
  inferInstanceAs (Decidable (isStrictAsc t = true))

/-- No leading and no trailing white space: neither the first rune of `s` nor
its last rune is white space. -/
def Trimmed (s : GoString) : Prop :=
  IsSpace (DecodeRuneInString s).1 = false ∧ IsSpace (DecodeLastRuneInString s).1 = false

instance instDecidableTrimmed (s : GoString) : Decidable (Trimmed s) :=
  inferInstanceAs (Decidable (IsSpace (DecodeRuneInString s).1 = false ∧
    IsSpace (DecodeLastRuneInString s).1 = false))

/-- Invariant I2 for one element: non-empty, trimmed, accepted by `CheckTag`. -/
def ValidTag (env : Env) (e : GoString) : Prop :=
  e ≠ [] ∧ Trimmed e ∧ CheckTag env e = none

instance instDecidableValidTag (env : Env) (e : GoString) : Decidable (ValidTag env e) :=
  inferInstanceAs (Decidable (e ≠ [] ∧ Trimmed e ∧ CheckTag env e = none))

/-- A valid set: strictly ascending, every element a valid tag. -/
def Valid (env : Env) (t : Tags) : Prop :=
  StrictAsc t ∧ ∀ e ∈ t, ValidTag env e

instance instDecidableValid (env : Env) (t : Tags) : Decidable (Valid env t) :=
  inferInstanceAs (Decidable (StrictAsc t ∧ ∀ e ∈ t, ValidTag env e))

/-- The pieces into which `Split` cuts the rendering of a set: the first element,
and every other element after a space. -/
def renderedPieces : Tags → List GoString
  | [] => [[]]
  | e :: r => e :: r.map (fun x => 0x20 :: x)

/-- The sequence "(elements of `t` below `x`), `x`, (elements of `t` above
`x`)". -/
def splice (x : GoString) (t : Tags) : Tags :=
  t.filter (fun a => strLt a x) ++ x :: t.filter (fun a => strLt x a)

/-- A byte that is not a continuation byte of UTF-8 (`0x80..0xBF`). -/
def NonCont (c : Nat) : Prop := c < 0x80 ∨ 0xBF < c

/-- The white list of `CheckTag`: a letter, a digit, `' '`, `'-'`, `'_'`, `'.'`,
`'/'` or `':'`. -/
def inTagWhitelist (env : Env) (v : Rune) : Bool :=
  env.IsLetter v || IsDigit env v || v == 0x20 || v == 0x2D || v == 0x5F || v == 0x2E
    || v == 0x2F || v == 0x3A

/-- The white list of `CheckTags`: the white list of `CheckTag` and `','`. -/
def inTagsWhitelist (env : Env) (v : Rune) : Bool :=
  v == 0x2C || inTagWhitelist env v

/-- An environment for examples: the letters are the ASCII letters, there is no
digit above Latin-1, and the package variables have their default values. -/
def asciiEnv : Env where
  IsLetter := fun r => (0x41 ≤ r && r ≤ 0x5A) || (0x61 ≤ r && r ≤ 0x7A)
  digitTable := fun _ => false
  TagStringMax := TagStringMax
  TagStringMin := TagStringMin

/-- An environment for examples whose digit table holds the Arabic-Indic digits
`U+0660..U+0669` (decimal digits of Unicode since its first version); the rest
is as in `asciiEnv`. -/
def arabicDigitEnv : Env where
  IsLetter := fun r => (0x41 ≤ r && r ≤ 0x5A) || (0x61 ≤ r && r ≤ 0x7A)
  digitTable := fun r => 0x660 ≤ r && r ≤ 0x669
  TagStringMax := TagStringMax
  TagStringMin := TagStringMin

/-- The white list of a single tag in the words of the specification: a letter,
an ASCII digit, a space, or one of `'-'`, `'_'`, `'.'`, `'/'`, `':'`. -/
def specTagWhitelist (env : Env) (v : Rune) : Bool :=
  env.IsLetter v || (0x30 ≤ v && v ≤ 0x39) || v == 0x20 || v == 0x2D || v == 0x5F
    || v == 0x2E || v == 0x2F || v == 0x3A

/-- The non-empty trimmed comma-separated pieces of a raw string, in order. -/
def trimmedPieces (s : GoString) : List GoString :=
  ((Split s 0x2C).map TrimSpace).filter (fun x => x != [])

/-- The separator `", "` of `Get`. -/
def sep : GoString := [0x2C, 0x20]

/-- The elements of `t` in stored order, joined by `", "`. -/
def joined (t : Tags) : GoString := List.intercalate sep t

/-- A call of one of the mutating methods of a set. -/
inductive Op where
  /-- Call `t.Add(tag)`. -/
  | add (tag : GoString)
  /-- Call `t.Remove(tag)`. -/
  | remove (tag : GoString)
  /-- Call `t.Replace(s)`. -/
  | replace (s : GoString)
  /-- Call `t.Merge(&tags)`. -/
  | merge (tags : Tags)
  /-- Call `t.MergeFromStringSlice(slice)`. -/
  | mergeFromStringSlice (slice : List GoString)

/-- The contents of the set after one call, whether the call fails or not. -/
def applyOp (env : Env) (t : Tags) : Op → Tags
  | .add tag => (Add env t tag).1
  | .remove tag => (Remove t tag).1
  | .replace s => (Replace env t s).1
  | .merge tags => (Merge env t tags).1
  | .mergeFromStringSlice slice => (MergeFromStringSlice env t slice).1

/-- The contents of the set after a sequence of calls on the empty set. -/
def runOps (env : Env) (ops : List Op) : Tags := ops.foldl (applyOp env) []

/-! ## The order on strings -/

theorem strLt_irrefl (a : GoString) : strLt a a = false := by
  induction a with
  | nil => rfl
  | cons x xs ih => simp [strLt, ih]

theorem strLt_trans : ∀ (a b c : GoString), strLt a b = true → strLt b c = true →
    strLt a c = true
  | [], [], _, h, _ => by simp [strLt] at h
  | [], _ :: _, [], _, h => by simp [strLt] at h
  | [], _ :: _, _ :: _, _, _ => by simp [strLt]
  | _ :: _, [], _, h, _ => by simp [strLt] at h
  | _ :: _, _ :: _, [], _, h => by simp [strLt] at h
  | x :: xs, y :: ys, z :: zs, h1, h2 => by
    simp only [strLt] at h1 h2 ⊢
    split at h1
    · split at h2
      · rw [if_pos (by omega)]
      · split at h2
        · simp at h2
        · rw [if_pos (by omega)]
    · split at h1
      · simp at h1
      · split at h2
        · rw [if_pos (by omega)]
        · split at h2
          · simp at h2
          · rw [if_neg (by omega), if_neg (by omega)]
            exact strLt_trans xs ys zs h1 h2

theorem strLt_total : ∀ (a b : GoString), strLt a b = false → strLt b a = false → a = b
  | [], [], _, _ => rfl
  | [], _ :: _, h, _ => by simp [strLt] at h
  | _ :: _, [], _, h => by simp [strLt] at h
  | x :: xs, y :: ys, h1, h2 => by
    simp only [strLt] at h1 h2
    split at h1
    · simp at h1
    · split at h1
      · split at h2
        · simp at h2
        · omega
      · rw [if_neg (by omega), if_neg (by omega)] at h2
        have hxy : x = y := by omega
        rw [hxy, strLt_total xs ys h1 h2]

theorem strLt_asymm (a b : GoString) (h : strLt a b = true) : strLt b a = false := by
  cases hba : strLt b a with
  | false => rfl
  | true =>
    have := strLt_trans a b a h hba
    rw [strLt_irrefl] at this
    exact absurd this (by simp)

theorem strLt_ne (a b : GoString) (h : strLt a b = true) : a ≠ b := by
  intro hab
  rw [hab, strLt_irrefl] at h
  exact absurd h (by simp)

theorem strictAsc_iff_chain (t : Tags) :
    StrictAsc t ↔ List.Chain' (fun a b => strLt a b = true) t := by
  unfold StrictAsc
  induction t with
  | nil => simp [isStrictAsc]
  | cons a t ih =>
    cases t with
    | nil => simp [isStrictAsc]
    | cons b r =>
      simp only [isStrictAsc, Bool.and_eq_true, List.chain'_cons]
      rw [ih]

theorem strictAsc_iff_pairwise (t : Tags) :
    StrictAsc t ↔ t.Pairwise (fun a b => strLt a b = true) := by
  rw [strictAsc_iff_chain]
  haveI : IsTrans GoString (fun a b => strLt a b = true) := ⟨strLt_trans⟩
  exact List.chain'_iff_pairwise

/-! ## Binary search -/

theorem searchLoop_spec (f : Nat → Bool) (n : Nat)
    (hmono : ∀ a b, a ≤ b → b < n → f a = true → f b = true) :
    ∀ (fuel i j : Nat), j - i ≤ fuel → i ≤ j → j ≤ n →
      (∀ k, k < i → f k = false) → (∀ k, j ≤ k → k < n → f k = true) →
      i ≤ searchLoop f fuel i j ∧ searchLoop f fuel i j ≤ j ∧
      (∀ k, k < searchLoop f fuel i j → f k = false) ∧
      (∀ k, searchLoop f fuel i j ≤ k → k < n → f k = true) := by
  intro fuel
  induction fuel with
  | zero =>
    intro i j hf hij hjn hlo hhi
    have : i = j := by omega
    subst this
    simp only [searchLoop]
    exact ⟨le_refl _, le_refl _, hlo, hhi⟩
  | succ fuel ih =>
    intro i j hf hij hjn hlo hhi
    simp only [searchLoop]
    by_cases hlt : i < j
    · rw [if_pos hlt]
      have hh1 : i ≤ (i + j) / 2 := by omega
      have hh2 : (i + j) / 2 < j := by omega
      cases hfh : f ((i + j) / 2) with
      | false =>
        simp only [Bool.not_false, if_true]
        have := ih ((i + j) / 2 + 1) j (by omega) (by omega) hjn
          (by
            intro k hk
            cases hfk : f k with
            | false => rfl
            | true =>
              have := hmono k ((i + j) / 2) (by omega) (by omega) hfk
              rw [hfh] at this
              exact absurd this (by simp))
          hhi
        exact ⟨by omega, this.2.1, this.2.2⟩
      | true =>
        simp only [Bool.not_true, Bool.false_eq_true, if_false]
        have := ih i ((i + j) / 2) (by omega) (by omega) (by omega) hlo
          (by
            intro k hk hkn
            exact hmono ((i + j) / 2) k hk hkn hfh)
        exact ⟨this.1, by omega, this.2.2⟩
    · rw [if_neg hlt]
      have : i = j := by omega
      subst this
      exact ⟨le_refl _, le_refl _, hlo, hhi⟩

/-- The fuel given to `sort.Search` never runs out: more fuel changes nothing. -/
theorem searchLoop_fuel (f : Nat → Bool) :
    ∀ (fuel extra i j : Nat), j - i ≤ fuel →
      searchLoop f (fuel + extra) i j = searchLoop f fuel i j := by
  intro fuel
  induction fuel with
  | zero =>
    intro extra i j hf
    cases extra with
    | zero => rfl
    | succ e =>
      simp only [Nat.zero_add, searchLoop]
      rw [if_neg (by omega)]
  | succ fuel ih =>
    intro extra i j hf
    rw [Nat.add_right_comm]
    simp only [searchLoop]
    by_cases hlt : i < j
    · rw [if_pos hlt, if_pos hlt]
      rw [ih extra _ _ (by omega), ih extra _ _ (by omega)]
    · rw [if_neg hlt, if_neg hlt]

theorem strictAsc_getD_lt (ts : Tags) (h : StrictAsc ts) (a b : Nat) (hab : a < b)
    (hb : b < ts.length) : strLt (ts.getD a []) (ts.getD b []) = true := by
  rw [strictAsc_iff_pairwise, List.pairwise_iff_getElem] at h
  have := h a b (by omega) hb hab
  rw [List.getD_eq_getElem _ _ (by omega : a < ts.length), List.getD_eq_getElem _ _ hb]
  exact this

theorem searchStrings_spec (ts : Tags) (x : GoString) (h : StrictAsc ts) :
    SearchStrings ts x ≤ ts.length ∧
    (∀ k, k < SearchStrings ts x → strLt (ts.getD k []) x = true) ∧
    (∀ k, SearchStrings ts x ≤ k → k < ts.length → strLt (ts.getD k []) x = false) := by
  have hmono : ∀ a b, a ≤ b → b < ts.length →
      (fun i => !strLt (ts.getD i []) x) a = true →
      (fun i => !strLt (ts.getD i []) x) b = true := by
    intro a b hab hb ha
    simp only [Bool.not_eq_true'] at ha ⊢
    rcases Nat.eq_or_lt_of_le hab with heq | hlt
    · rw [← heq]; exact ha
    · cases hbx : strLt (ts.getD b []) x with
      | false => rfl
      | true =>
        have := strLt_trans _ _ _ (strictAsc_getD_lt ts h a b hlt hb) hbx
        rw [ha] at this
        exact absurd this (by simp)
  have := searchLoop_spec _ ts.length hmono ts.length 0 ts.length (by omega) (by omega)
    (le_refl _) (by intro k hk; omega) (by intro k hk hk2; omega)
  refine ⟨this.2.1, ?_, ?_⟩
  · intro k hk
    have := this.2.2.1 k hk
    simpa using this
  · intro k hk hkn
    have := this.2.2.2 k hk hkn
    simpa using this

theorem searchStrings_le (ts : Tags) (x : GoString) (h : StrictAsc ts) :
    SearchStrings ts x ≤ ts.length := (searchStrings_spec ts x h).1

theorem searchStrings_take (ts : Tags) (x : GoString) (h : StrictAsc ts) :
    ∀ a ∈ ts.take (SearchStrings ts x), strLt a x = true := by
  intro a ha
  rw [List.mem_take_iff_getElem] at ha
  obtain ⟨k, hk, rfl⟩ := ha
  have := (searchStrings_spec ts x h).2.1 k (by omega)
  rwa [List.getD_eq_getElem _ _ (by omega)] at this

theorem searchStrings_drop (ts : Tags) (x : GoString) (h : StrictAsc ts) :
    ∀ a ∈ ts.drop (SearchStrings ts x), strLt a x = false := by
  intro a ha
  rw [List.mem_drop_iff_getElem] at ha
  obtain ⟨k, hk, rfl⟩ := ha
  have := (searchStrings_spec ts x h).2.2 (SearchStrings ts x + k) (by omega) (by omega)
  rwa [List.getD_eq_getElem _ _ (by omega)] at this

theorem searchStrings_take_eq (ts : Tags) (x : GoString) (h : StrictAsc ts) :
    ts.take (SearchStrings ts x) = ts.filter (fun a => strLt a x) := by
  conv_rhs => rw [← List.take_append_drop (SearchStrings ts x) ts]
  rw [List.filter_append, List.filter_eq_self.2 (searchStrings_take ts x h),
    List.filter_eq_nil_iff.2 (fun a ha => by simp [searchStrings_drop ts x h a ha]),
    List.append_nil]

theorem searchStrings_drop_eq (ts : Tags) (x : GoString) (h : StrictAsc ts) :
    ts.drop (SearchStrings ts x) = ts.filter (fun a => !strLt a x) := by
  conv_rhs => rw [← List.take_append_drop (SearchStrings ts x) ts]
  rw [List.filter_append,
    List.filter_eq_nil_iff.2 (fun a ha => by simp [searchStrings_take ts x h a ha]),
    List.filter_eq_self.2 (fun a ha => by simp [searchStrings_drop ts x h a ha]),
    List.nil_append]

/-- The test `i < len(ts) && ts[i] == x` after the binary search is membership. -/
theorem found_iff_mem (ts : Tags) (x : GoString) (h : StrictAsc ts) :
    (SearchStrings ts x < ts.length ∧ ts.getD (SearchStrings ts x) [] = x) ↔ x ∈ ts := by
  constructor
  · rintro ⟨hlt, heq⟩
    rw [List.getD_eq_getElem _ _ hlt] at heq
    rw [← heq]
    exact List.getElem_mem hlt
  · intro hx
    rw [List.mem_iff_getElem] at hx
    obtain ⟨k, hk, rfl⟩ := hx
    have hs := searchStrings_spec ts ts[k] h
    have hki : SearchStrings ts ts[k] ≤ k := by
      by_contra hc
      have := hs.2.1 k (by omega)
      rw [List.getD_eq_getElem _ _ hk, strLt_irrefl] at this
      exact absurd this (by simp)
    have hik : SearchStrings ts ts[k] = k := by
      rcases Nat.eq_or_lt_of_le hki with heq | hlt
      · exact heq
      · have h1 := hs.2.2 (SearchStrings ts ts[k]) (le_refl _) (by omega)
        have h2 := strictAsc_getD_lt ts h _ k hlt hk
        rw [List.getD_eq_getElem _ _ hk] at h2
        rw [h1] at h2
        exact absurd h2 (by simp)
    refine ⟨by omega, ?_⟩
    rw [hik, List.getD_eq_getElem _ _ hk]

theorem exist_iff_mem (ts : Tags) (x : GoString) (h : StrictAsc ts) :
    Exist ts x = true ↔ x ∈ ts := by
  rw [← found_iff_mem ts x h]
  simp [Exist]

/-! ## `Add`, `Remove`, `Exist` on a strictly ascending set -/

theorem strictAsc_nil : StrictAsc [] := rfl

theorem mem_splice (x a : GoString) (t : Tags) : a ∈ splice x t ↔ a = x ∨ a ∈ t := by
  simp only [splice, List.mem_append, List.mem_cons, List.mem_filter]
  constructor
  · rintro (⟨h, _⟩ | h | ⟨h, _⟩)
    · exact Or.inr h
    · exact Or.inl h
    · exact Or.inr h
  · rintro (h | h)
    · exact Or.inr (Or.inl h)
    · by_cases hax : a = x
      · exact Or.inr (Or.inl hax)
      · cases h1 : strLt a x with
        | true => exact Or.inl ⟨h, rfl⟩
        | false =>
          cases h2 : strLt x a with
          | true => exact Or.inr (Or.inr ⟨h, rfl⟩)
          | false => exact absurd (strLt_total a x h1 h2) hax

theorem splice_strictAsc (x : GoString) (t : Tags) (ht : StrictAsc t) :
    StrictAsc (splice x t) := by
  rw [strictAsc_iff_pairwise] at ht ⊢
  unfold splice
  rw [List.pairwise_append]
  refine ⟨ht.sublist (List.filter_sublist _), ?_, ?_⟩
  · rw [List.pairwise_cons]
    refine ⟨?_, ht.sublist (List.filter_sublist _)⟩
    intro a ha
    exact (List.mem_filter.1 ha).2
  · intro a ha b hb
    have hax : strLt a x = true := (List.mem_filter.1 ha).2
    rcases List.mem_cons.1 hb with hbx | hb
    · rw [hbx]; exact hax
    · exact strLt_trans a x b hax (List.mem_filter.1 hb).2

theorem splice_length (x : GoString) (t : Tags) (hx : x ∉ t) :
    (splice x t).length = t.length + 1 := by
  induction t with
  | nil => simp [splice]
  | cons a t ih =>
    have hax : a ≠ x := fun h => hx (by simp [h])
    have hxt : x ∉ t := fun h => hx (List.mem_cons_of_mem _ h)
    have ih := ih hxt
    simp only [splice, List.length_append, List.length_cons, List.filter_cons] at ih ⊢
    cases h1 : strLt a x with
    | true =>
      have h2 := strLt_asymm a x h1
      simp only [h2, if_true, List.length_cons, Bool.false_eq_true, if_false]
      omega
    | false =>
      cases h2 : strLt x a with
      | true =>
        simp only [if_true, List.length_cons, Bool.false_eq_true, if_false]
        omega
      | false => exact absurd (strLt_total a x h1 h2) hax

theorem drop_search_eq_above (ts : Tags) (x : GoString) (h : StrictAsc ts) (hx : x ∉ ts) :
    ts.drop (SearchStrings ts x) = ts.filter (fun a => strLt x a) := by
  rw [searchStrings_drop_eq ts x h]
  apply List.filter_congr
  intro a ha
  have hax : a ≠ x := fun h => hx (h ▸ ha)
  cases h1 : strLt a x with
  | true => simp [strLt_asymm a x h1]
  | false =>
    cases h2 : strLt x a with
    | true => rfl
    | false => exact absurd (strLt_total a x h1 h2) hax

/-- The test `i >= ts.Len() || ts[i] != trim` of `Add` is non-membership. -/
theorem add_test_iff (ts : Tags) (x : GoString) (h : StrictAsc ts) :
    (decide (SearchStrings ts x ≥ ts.length) || ts.getD (SearchStrings ts x) [] != x) = true ↔
      x ∉ ts := by
  rw [← found_iff_mem ts x h]
  simp only [ge_iff_le, Bool.or_eq_true, decide_eq_true_eq, bne_iff_ne, ne_eq, not_and]
  constructor
  · rintro (h1 | h1) h2
    · omega
    · exact h1
  · intro h1
    by_cases h2 : SearchStrings ts x < ts.length
    · exact Or.inr (h1 h2)
    · exact Or.inl (by omega)

/-- What `Add` does on a strictly ascending set, case by case. -/
theorem add_eq (env : Env) (t : Tags) (tag : GoString) (ht : StrictAsc t) :
    Add env t tag =
      if TrimSpace tag = [] then (t, some .emptyString)
      else
        match CheckTag env (TrimSpace tag) with
        | some err => (t, some err)
        | none =>
          if TrimSpace tag ∈ t then (t, some .tagExist)
          else (splice (TrimSpace tag) t, none) := by
  unfold Add
  simp only
  by_cases h1 : TrimSpace tag = []
  · rw [if_pos h1, if_pos h1]
  · rw [if_neg h1, if_neg h1]
    cases hck : CheckTag env (TrimSpace tag) with
    | some err => rfl
    | none =>
      simp only
      by_cases hmem : TrimSpace tag ∈ t
      · rw [if_neg (by rw [add_test_iff t _ ht]; exact not_not.2 hmem), if_pos hmem]
      · rw [if_pos ((add_test_iff t _ ht).2 hmem), if_neg hmem]
        rw [drop_search_eq_above t _ ht hmem, searchStrings_take_eq t _ ht]
        rfl

theorem checkTagLoop_err (env : Env) (rs : List Rune) (err : TagError)
    (h : checkTagLoop env rs = some err) : ∃ c, err = .invalidTagChar c := by
  induction rs with
  | nil => simp [checkTagLoop] at h
  | cons v vs ih =>
    simp only [checkTagLoop] at h
    split at h
    · exact ⟨v % 256, by injection h with h; exact h.symm⟩
    · exact ih h

theorem checkTag_err (env : Env) (s : GoString) (err : TagError)
    (h : CheckTag env s = some err) : ∃ c, err = .invalidTagChar c :=
  checkTagLoop_err env _ err h

/-- A failing `Add` leaves the set as it was. -/
theorem add_err_unchanged (env : Env) (t : Tags) (tag : GoString)
    (h : (Add env t tag).2 ≠ none) : (Add env t tag).1 = t := by
  unfold Add at h ⊢
  simp only at h ⊢
  by_cases h1 : TrimSpace tag = []
  · rw [if_pos h1]
  · rw [if_neg h1] at h ⊢
    cases hck : CheckTag env (TrimSpace tag) with
    | some err => rfl
    | none =>
      simp only [hck] at h ⊢
      split
      · rename_i h3
        rw [if_pos h3] at h
        exact absurd rfl h
      · rfl

/-- Method `Remove` on a strictly ascending set. -/
theorem remove_eq (t : Tags) (x : GoString) (ht : StrictAsc t) :
    Remove t x = if x ∈ t then (t.erase x, none) else (t, some .tagNotFound) := by
  unfold Remove
  simp only
  by_cases hmem : x ∈ t
  · rw [if_pos hmem]
    have hf := (found_iff_mem t x ht).2 hmem
    have hf2 := hf.2
    rw [List.getD_eq_getElem _ _ hf.1] at hf2
    have hcond : (decide (SearchStrings t x < t.length) && t.getD (SearchStrings t x) [] == x)
        = true := by simp [hf.1, hf2]
    rw [if_pos hcond]
    have herase : t.erase x = t.take (SearchStrings t x) ++ t.drop (SearchStrings t x + 1) := by
      have hsplit : t = t.take (SearchStrings t x) ++ x :: t.drop (SearchStrings t x + 1) := by
        conv_lhs => rw [← List.take_append_drop (SearchStrings t x) t]
        congr 1
        rw [List.drop_eq_getElem_cons hf.1]
        congr 1
      have hnot : x ∉ t.take (SearchStrings t x) := by
        intro hin
        have := searchStrings_take t x ht x hin
        rw [strLt_irrefl] at this
        exact absurd this (by simp)
      conv_lhs => rw [hsplit]
      rw [List.erase_append_right _ hnot, List.erase_cons_head]
    by_cases hlast : SearchStrings t x + 1 = t.length
    · rw [if_pos hlast, herase, hlast, List.drop_length, List.append_nil]
    · rw [if_neg hlast, herase]
  · rw [if_neg hmem]
    have hcond : ¬ ((decide (SearchStrings t x < t.length) &&
        t.getD (SearchStrings t x) [] == x) = true) := by
      intro hc
      simp only [Bool.and_eq_true, decide_eq_true_eq, beq_iff_eq] at hc
      exact hmem ((found_iff_mem t x ht).1 hc)
    rw [if_neg hcond]

theorem erase_strictAsc (t : Tags) (x : GoString) (ht : StrictAsc t) :
    StrictAsc (t.erase x) := by
  rw [strictAsc_iff_pairwise] at ht ⊢
  exact ht.sublist (List.erase_sublist x t)

/-! ## UTF-8 decoding -/

theorem leadInfo_some (b sz lo hi : Nat) (h : leadInfo b = some (sz, lo, hi)) :
    2 ≤ sz ∧ sz ≤ 4 ∧ 0x80 ≤ lo ∧ hi ≤ 0xBF ∧ 0xC2 ≤ b ∧ b ≤ 0xF4 := by
  unfold leadInfo at h
  repeat' split at h
  all_goals first
    | (simp only [Option.some.injEq, Prod.mk.injEq] at h
       obtain ⟨h1, h2, h3⟩ := h
       subst h1 h2 h3
       omega)
    | exact absurd h (by simp)

theorem decode_width_pos (s : GoString) (hs : s ≠ []) : 1 ≤ (DecodeRuneInString s).2 := by
  cases s with
  | nil => exact absurd rfl hs
  | cons s0 t =>
    unfold DecodeRuneInString
    simp only
    repeat' split
    all_goals simp

theorem decode_width_le (s : GoString) : (DecodeRuneInString s).2 ≤ s.length := by
  cases s with
  | nil => simp [DecodeRuneInString]
  | cons s0 t =>
    unfold DecodeRuneInString
    simp only
    split
    · simp
    · split
      · simp
      · rename_i sz lo hi hl
        have := leadInfo_some _ _ _ _ hl
        repeat' split
        all_goals simp only [List.length_cons] at *
        all_goals omega

/-- Decoding the first rune of `a` is not affected by what follows `a`, when
what follows starts with a byte that is not a continuation byte. -/
theorem decode_append_nonCont (a b : GoString) (c : Nat) (ha : a ≠ []) (hc : NonCont c) :
    DecodeRuneInString (a ++ c :: b) = DecodeRuneInString a := by
  unfold NonCont at hc
  cases a with
  | nil => exact absurd rfl ha
  | cons a0 a1 =>
    unfold DecodeRuneInString
    simp only [List.cons_append]
    by_cases h0 : a0 < RuneSelf
    · rw [if_pos h0, if_pos h0]
    · rw [if_neg h0, if_neg h0]
      cases hl : leadInfo a0 with
      | none => rfl
      | some info =>
        obtain ⟨sz, lo, hi⟩ := info
        have hinfo := leadInfo_some _ _ _ _ hl
        simp only
        rcases a1 with _ | ⟨a1, _ | ⟨a2, _ | ⟨a3, r⟩⟩⟩
        · simp only [List.nil_append, List.length_cons, List.length_nil,
            List.getD_cons_succ, List.getD_cons_zero]
          rw [if_pos (by omega : 0 + 1 < sz)]
          by_cases h1 : b.length + 1 + 1 < sz
          · rw [if_pos h1]
          · rw [if_neg h1, if_pos (by omega)]
        · simp only [List.nil_append, List.cons_append, List.length_cons, List.length_nil,
            List.getD_cons_succ, List.getD_cons_zero]
          by_cases h1 : b.length + 1 + 1 + 1 < sz
          · rw [if_pos h1, if_pos (by omega)]
          · rw [if_neg h1]
            by_cases h2 : a1 < lo ∨ hi < a1
            · rw [if_pos h2]
              by_cases h3 : 0 + 1 + 1 < sz
              · rw [if_pos h3]
              · rw [if_neg h3, if_pos h2]
            · rw [if_neg h2]
              by_cases h3 : sz ≤ 2
              · rw [if_pos h3, if_neg (by omega), if_neg h2, if_pos h3]
              · rw [if_neg h3, if_pos (by omega), if_pos (by omega)]
        · simp only [List.nil_append, List.cons_append, List.length_cons, List.length_nil,
            List.getD_cons_succ, List.getD_cons_zero]
          rw [if_neg (by omega)]
          by_cases h2 : a1 < lo ∨ hi < a1
          · rw [if_pos h2]
            by_cases h3 : 0 + 1 + 1 + 1 < sz
            · rw [if_pos h3]
            · rw [if_neg h3, if_pos h2]
          · rw [if_neg h2]
            by_cases h3 : sz ≤ 2
            · rw [if_pos h3, if_neg (by omega), if_neg h2, if_pos h3]
            · rw [if_neg h3]
              by_cases h4 : a2 < 128 ∨ 191 < a2
              · rw [if_pos h4]
                by_cases h5 : 0 + 1 + 1 + 1 < sz
                · rw [if_pos h5]
                · rw [if_neg h5, if_neg h2, if_neg h3, if_pos h4]
              · rw [if_neg h4]
                by_cases h5 : sz ≤ 3
                · rw [if_pos h5, if_neg (by omega), if_neg h2, if_neg h3, if_neg h4, if_pos h5]
                · rw [if_neg h5, if_pos (by omega), if_pos (by omega)]
        · simp only [List.cons_append, List.length_cons, List.length_append,
            List.getD_cons_succ, List.getD_cons_zero]
          have e1 : ¬ (r.length + (b.length + 1) + 1 + 1 + 1 + 1 < sz) := by omega
          have e2 : ¬ (r.length + 1 + 1 + 1 + 1 < sz) := by omega
          rw [if_neg e1, if_neg e2]

/-- Decoding the first rune of `a` either fails or is not affected by what
follows `a`. -/
theorem decode_append (a m : GoString) (ha : a ≠ []) :
    DecodeRuneInString (a ++ m) = DecodeRuneInString a ∨
      DecodeRuneInString a = (RuneError, 1) := by
  cases a with
  | nil => exact absurd rfl ha
  | cons a0 a1 =>
    unfold DecodeRuneInString
    simp only [List.cons_append]
    by_cases h0 : a0 < RuneSelf
    · rw [if_pos h0, if_pos h0]; exact Or.inl rfl
    · rw [if_neg h0, if_neg h0]
      cases hl : leadInfo a0 with
      | none => exact Or.inl rfl
      | some info =>
        obtain ⟨sz, lo, hi⟩ := info
        have hinfo := leadInfo_some _ _ _ _ hl
        simp only
        rcases a1 with _ | ⟨a1, _ | ⟨a2, _ | ⟨a3, r⟩⟩⟩
        · right
          simp only [List.length_cons, List.length_nil]
          rw [if_pos (by omega)]
        · simp only [List.nil_append, List.cons_append, List.length_cons, List.length_nil,
            List.getD_cons_succ, List.getD_cons_zero]
          by_cases h3 : 0 + 1 + 1 < sz
          · right; rw [if_pos h3]
          · left
            rw [if_neg h3, if_neg (by omega)]
            by_cases h2 : a1 < lo ∨ hi < a1
            · rw [if_pos h2, if_pos h2]
            · rw [if_neg h2, if_neg h2, if_pos (by omega), if_pos (by omega)]
        · simp only [List.nil_append, List.cons_append, List.length_cons, List.length_nil,
            List.getD_cons_succ, List.getD_cons_zero]
          by_cases h3 : 0 + 1 + 1 + 1 < sz
          · right; rw [if_pos h3]
          · left
            rw [if_neg h3, if_neg (by omega)]
            by_cases h2 : a1 < lo ∨ hi < a1
            · rw [if_pos h2, if_pos h2]
            · rw [if_neg h2, if_neg h2]
              by_cases h4 : sz ≤ 2
              · rw [if_pos h4, if_pos h4]
              · rw [if_neg h4, if_neg h4]
                by_cases h5 : a2 < 128 ∨ 191 < a2
                · rw [if_pos h5, if_pos h5]
                · rw [if_neg h5, if_neg h5, if_pos (by omega), if_pos (by omega)]
        · left
          simp only [List.cons_append, List.length_cons, List.length_append,
            List.getD_cons_succ, List.getD_cons_zero]
          have e1 : ¬ (r.length + m.length + 1 + 1 + 1 + 1 < sz) := by omega
          have e2 : ¬ (r.length + 1 + 1 + 1 + 1 < sz) := by omega
          rw [if_neg e1, if_neg e2]

theorem isSpace_ne_runeError (v : Rune) (h : IsSpace v = true) : v ≠ RuneError := by
  intro hv
  rw [hv] at h
  exact absurd h (by decide)

/-- A white-space rune at the start of `a` is also at the start of `a ++ m`. -/
theorem decode_append_of_space (a m : GoString) (ha : a ≠ [])
    (hsp : IsSpace (DecodeRuneInString a).1 = true) :
    DecodeRuneInString (a ++ m) = DecodeRuneInString a := by
  rcases decode_append a m ha with h | h
  · exact h
  · rw [h] at hsp
    exact absurd hsp (by decide)

/-! ## The `range` loop -/

theorem rangeLoop_fuel : ∀ (fuel : Nat) (s : GoString), s.length ≤ fuel →
    rangeLoop fuel s = rangeLoop s.length s := by
  intro fuel
  induction fuel using Nat.strong_induction_on with
  | _ fuel ih =>
    intro s hs
    cases s with
    | nil => cases fuel <;> rfl
    | cons b t =>
      cases fuel with
      | zero => simp at hs
      | succ fuel =>
        simp only [rangeLoop, List.length_cons]
        congr 1
        have hw := decode_width_pos (b :: t) (by simp)
        have hlen : ((b :: t).drop (DecodeRuneInString (b :: t)).2).length ≤ t.length := by
          simp only [List.length_drop, List.length_cons]; omega
        rw [ih fuel (by omega) _ (by simp only [List.length_cons] at hs; omega)]
        rw [ih t.length (by simp only [List.length_cons] at hs; omega) _ hlen]

/-- One iteration of the `range` loop. -/
theorem runes_cons (b : Nat) (t : GoString) :
    runes (b :: t) = (DecodeRuneInString (b :: t)).1 ::
      runes ((b :: t).drop (DecodeRuneInString (b :: t)).2) := by
  unfold runes
  simp only [rangeLoop, List.length_cons]
  congr 1
  have hw := decode_width_pos (b :: t) (by simp)
  exact rangeLoop_fuel _ _ (by simp only [List.length_drop, List.length_cons]; omega)

theorem runes_nil : runes [] = [] := rfl

theorem runes_ascii (b : Nat) (t : GoString) (hb : b < 0x80) : runes (b :: t) = b :: runes t := by
  rw [runes_cons]
  have : DecodeRuneInString (b :: t) = (b, 1) := by
    unfold DecodeRuneInString
    simp only
    rw [if_pos (show b < RuneSelf from hb)]
  rw [this]
  rfl

/-- The runes of a concatenation, when the second string starts with a byte
that is not a continuation byte. -/
theorem runes_append_nonCont (c : Nat) (b : GoString) (hc : NonCont c) :
    ∀ (n : Nat) (a : GoString), a.length ≤ n →
      runes (a ++ c :: b) = runes a ++ runes (c :: b) := by
  intro n
  induction n with
  | zero =>
    intro a ha
    have : a = [] := List.length_eq_zero.1 (by omega)
    subst this
    rfl
  | succ n ih =>
    intro a ha
    cases a with
    | nil => rfl
    | cons a0 a1 =>
      have hd := decode_append_nonCont (a0 :: a1) b c (by simp) hc
      have hw := decode_width_pos (a0 :: a1) (by simp)
      have hle := decode_width_le (a0 :: a1)
      have hdrop : (a0 :: a1 ++ c :: b).drop (DecodeRuneInString (a0 :: a1)).2 =
          (a0 :: a1).drop (DecodeRuneInString (a0 :: a1)).2 ++ c :: b :=
        List.drop_append_of_le_length hle
      have e1 : runes (a0 :: a1 ++ c :: b) = (DecodeRuneInString (a0 :: a1)).1 ::
          runes ((a0 :: a1).drop (DecodeRuneInString (a0 :: a1)).2 ++ c :: b) := by
        rw [← hdrop, ← hd]
        exact runes_cons a0 (a1 ++ c :: b)
      rw [e1, runes_cons a0 a1, List.cons_append]
      congr 1
      exact ih _ (by simp only [List.length_drop, List.length_cons] at ha ⊢; omega)

theorem runes_append (a b : GoString) (hb : b = [] ∨ ∃ c r, b = c :: r ∧ NonCont c) :
    runes (a ++ b) = runes a ++ runes b := by
  rcases hb with hb | ⟨c, r, hb, hc⟩
  · subst hb; simp [runes_nil]
  · subst hb; exact runes_append_nonCont c r hc a.length a (le_refl _)

/-! ## `strings.TrimSpace`: the left side -/

theorem trimLeftLoop_fuel : ∀ (fuel : Nat) (s : GoString), s.length ≤ fuel →
    trimLeftLoop fuel s = trimLeftLoop s.length s := by
  intro fuel
  induction fuel using Nat.strong_induction_on with
  | _ fuel ih =>
    intro s hs
    cases s with
    | nil => cases fuel <;> rfl
    | cons b t =>
      cases fuel with
      | zero => simp at hs
      | succ fuel =>
        simp only [trimLeftLoop, List.length_cons]
        have hw := decode_width_pos (b :: t) (by simp)
        have hlen : ((b :: t).drop (DecodeRuneInString (b :: t)).2).length ≤ t.length := by
          simp only [List.length_drop, List.length_cons]; omega
        rw [ih fuel (by omega) _ (by simp only [List.length_cons] at hs; omega)]
        rw [ih t.length (by simp only [List.length_cons] at hs; omega) _ hlen]

/-- One iteration of the left trimming loop. -/
theorem trimLeft_cons (b : Nat) (t : GoString) :
    trimLeftLoop (b :: t).length (b :: t) =
      if IsSpace (DecodeRuneInString (b :: t)).1 then
        trimLeftLoop ((b :: t).drop (DecodeRuneInString (b :: t)).2).length
          ((b :: t).drop (DecodeRuneInString (b :: t)).2)
      else b :: t := by
  simp only [trimLeftLoop, List.length_cons]
  have hw := decode_width_pos (b :: t) (by simp)
  rw [trimLeftLoop_fuel t.length _ (by simp only [List.length_drop, List.length_cons]; omega)]

/-- What the left trimming returns: a suffix of `s` that is empty or starts with a
rune that is not white space, and whose runes are the last runes of `s`. -/
theorem trimLeft_spec : ∀ (n : Nat) (s : GoString), s.length ≤ n →
    (∃ p, s = p ++ trimLeftLoop s.length s) ∧
    (trimLeftLoop s.length s = [] ∨
      IsSpace (DecodeRuneInString (trimLeftLoop s.length s)).1 = false) ∧
    (∃ q, runes s = q ++ runes (trimLeftLoop s.length s)) := by
  intro n
  induction n with
  | zero =>
    intro s hs
    have : s = [] := List.length_eq_zero.1 (by omega)
    subst this
    exact ⟨⟨[], rfl⟩, Or.inl rfl, ⟨[], rfl⟩⟩
  | succ n ih =>
    intro s hs
    cases s with
    | nil => exact ⟨⟨[], rfl⟩, Or.inl rfl, ⟨[], rfl⟩⟩
    | cons b t =>
      rw [trimLeft_cons]
      have hw := decode_width_pos (b :: t) (by simp)
      by_cases hsp : IsSpace (DecodeRuneInString (b :: t)).1 = true
      · rw [if_pos hsp]
        have := ih ((b :: t).drop (DecodeRuneInString (b :: t)).2)
          (by simp only [List.length_drop, List.length_cons] at hs ⊢; omega)
        obtain ⟨⟨p, hp⟩, h2, ⟨q, hq⟩⟩ := this
        refine ⟨⟨(b :: t).take (DecodeRuneInString (b :: t)).2 ++ p, ?_⟩, h2, ?_⟩
        · rw [List.append_assoc, ← hp, List.take_append_drop]
        · refine ⟨(DecodeRuneInString (b :: t)).1 :: q, ?_⟩
          rw [runes_cons, hq, List.cons_append]
      · rw [if_neg hsp]
        exact ⟨⟨[], rfl⟩, Or.inr (by simpa using hsp), ⟨[], rfl⟩⟩

theorem trimLeft_id (s : GoString) (h : IsSpace (DecodeRuneInString s).1 = false) :
    trimLeftLoop s.length s = s := by
  cases s with
  | nil => rfl
  | cons b t =>
    rw [trimLeft_cons, if_neg (by simp [h])]

theorem decode_ascii (b : Nat) (t : GoString) (hb : b < 0x80) :
    DecodeRuneInString (b :: t) = (b, 1) := by
  unfold DecodeRuneInString
  simp only
  rw [if_pos (show b < RuneSelf from hb)]

theorem trimLeft_space (t : GoString) :
    trimLeftLoop (0x20 :: t).length (0x20 :: t) = trimLeftLoop t.length t := by
  rw [trimLeft_cons, decode_ascii _ _ (by omega)]
  rfl

/-- A string whose first rune is decoded successfully starts with a byte that is
not a continuation byte. -/
theorem decode_head_nonCont (q : GoString) (h : (DecodeRuneInString q).1 ≠ RuneError) :
    ∃ c r, q = c :: r ∧ NonCont c := by
  cases q with
  | nil => exact absurd rfl h
  | cons c r =>
    refine ⟨c, r, rfl, ?_⟩
    unfold DecodeRuneInString at h
    simp only at h
    by_cases h0 : c < RuneSelf
    · exact Or.inl h0
    · rw [if_neg h0] at h
      cases hl : leadInfo c with
      | none => rw [hl] at h; exact absurd rfl h
      | some info =>
        obtain ⟨sz, lo, hi⟩ := info
        have := leadInfo_some _ _ _ _ hl
        exact Or.inr (by omega)

/-! ## `strings.TrimSpace`: the right side -/

/-- The walk back of `DecodeLastRuneInString` never runs out of fuel: it starts
at most three bytes above its limit, and more fuel changes nothing. -/
theorem lastRuneStart_fuel (s : GoString) (lim : Int) : ∀ (k extra : Nat) (start : Int),
    start - lim + 1 ≤ k →
      lastRuneStart s lim (k + extra) start = lastRuneStart s lim k start := by
  intro k
  induction k with
  | zero =>
    intro extra start h
    cases extra with
    | zero => rfl
    | succ e =>
      simp only [Nat.zero_add, lastRuneStart]
      rw [if_neg (by omega)]
  | succ k ih =>
    intro extra start h
    rw [Nat.add_right_comm]
    simp only [lastRuneStart]
    by_cases hl : lim ≤ start
    · rw [if_pos hl, if_pos hl, ih extra (start - 1) (by omega)]
    · rw [if_neg hl, if_neg hl]

/-- A white-space rune found at the end of `s` by `DecodeLastRuneInString`
occupies the last `k` bytes of `s`, `1 ≤ k`, and starts with a byte that is not
a continuation byte. -/
theorem decodeLast_space (s : GoString)
    (hsp : IsSpace (DecodeLastRuneInString s).1 = true) :
    1 ≤ (DecodeLastRuneInString s).2 ∧ (DecodeLastRuneInString s).2 ≤ s.length ∧
    ∃ c r, s.drop (s.length - (DecodeLastRuneInString s).2) = c :: r ∧ NonCont c := by
  unfold DecodeLastRuneInString at hsp ⊢
  simp only at hsp ⊢
  by_cases hn : (s.length : Int) = 0
  · rw [if_pos hn] at hsp
    exact absurd hsp (by decide)
  · rw [if_neg hn] at hsp ⊢
    have hlen : 0 < s.length := by omega
    have hidx : ((s.length : Int) - 1).toNat = s.length - 1 := by omega
    rw [hidx] at hsp ⊢
    by_cases hr : s.getD (s.length - 1) 0 < RuneSelf
    · rw [if_pos hr] at hsp ⊢
      refine ⟨le_refl _, hlen, s.getD (s.length - 1) 0, [], ?_, Or.inl hr⟩
      simp only
      rw [List.drop_eq_getElem_cons (by omega : s.length - 1 < s.length),
        List.getD_eq_getElem _ _ (by omega : s.length - 1 < s.length)]
      congr 1
      rw [List.drop_eq_nil_iff]
      omega
    · rw [if_neg hr] at hsp ⊢
      generalize hX : (if lastRuneStart s (if (s.length : Int) - 4 < 0 then 0
          else (s.length : Int) - 4) 4 ((s.length : Int) - 1 - 1) < 0 then (0 : Int)
        else lastRuneStart s (if (s.length : Int) - 4 < 0 then 0
          else (s.length : Int) - 4) 4 ((s.length : Int) - 1 - 1)) = X at hsp ⊢
      have hX0 : 0 ≤ X := by
        rw [← hX]
        split <;> omega
      generalize hd : DecodeRuneInString
        (List.take ((s.length : Int) - X).toNat (List.drop X.toNat s)) = d at hsp ⊢
      by_cases hne : X + (d.2 : Int) ≠ (s.length : Int)
      · rw [if_pos hne] at hsp
        exact absurd hsp (by decide)
      · rw [if_neg hne] at hsp ⊢
        have heq : X + (d.2 : Int) = (s.length : Int) := not_not.1 hne
        have h1 : X.toNat = s.length - d.2 := by omega
        have h2 : ((s.length : Int) - X).toNat = d.2 := by omega
        have hslice : List.take ((s.length : Int) - X).toNat (List.drop X.toNat s) =
            s.drop (s.length - d.2) := by
          rw [h1, h2]
          apply List.take_of_length_le
          simp only [List.length_drop]
          omega
        rw [hslice] at hd
        have hnr : (DecodeRuneInString (s.drop (s.length - d.2))).1 ≠ RuneError := by
          rw [hd]; exact isSpace_ne_runeError _ hsp
        obtain ⟨c, r, hcr, hc⟩ := decode_head_nonCont _ hnr
        refine ⟨?_, by omega, c, r, hcr, hc⟩
        have := decode_width_pos (s.drop (s.length - d.2)) (by rw [hcr]; simp)
        rwa [hd] at this

theorem trimRightLoop_fuel : ∀ (fuel : Nat) (s : GoString), s.length ≤ fuel →
    trimRightLoop fuel s = trimRightLoop s.length s := by
  intro fuel
  induction fuel using Nat.strong_induction_on with
  | _ fuel ih =>
    intro s hs
    cases s with
    | nil => cases fuel <;> rfl
    | cons b t =>
      cases fuel with
      | zero => simp at hs
      | succ fuel =>
        simp only [trimRightLoop, List.length_cons]
        by_cases hsp : IsSpace (DecodeLastRuneInString (b :: t)).1 = true
        · rw [if_pos hsp, if_pos hsp]
          have hk := decodeLast_space (b :: t) hsp
          have hlen : ((b :: t).take (t.length + 1 - (DecodeLastRuneInString (b :: t)).2)).length
              ≤ t.length := by
            simp only [List.length_take, List.length_cons]; omega
          rw [ih fuel (by omega) _ (by simp only [List.length_cons] at hs; omega)]
          rw [ih t.length (by simp only [List.length_cons] at hs; omega) _ hlen]
        · rw [if_neg hsp, if_neg hsp]

/-- One iteration of the right trimming loop. -/
theorem trimRight_step (s : GoString) (hs : s ≠ []) :
    trimRightLoop s.length s =
      if IsSpace (DecodeLastRuneInString s).1 then
        trimRightLoop (s.take (s.length - (DecodeLastRuneInString s).2)).length
          (s.take (s.length - (DecodeLastRuneInString s).2))
      else s := by
  cases s with
  | nil => exact absurd rfl hs
  | cons b t =>
    simp only [trimRightLoop, List.length_cons]
    by_cases hsp : IsSpace (DecodeLastRuneInString (b :: t)).1 = true
    · rw [if_pos hsp, if_pos hsp]
      have hk := decodeLast_space (b :: t) hsp
      have h := trimRightLoop_fuel t.length
        ((b :: t).take (t.length + 1 - (DecodeLastRuneInString (b :: t)).2))
        (by simp only [List.length_take, List.length_cons]; omega)
      simp only [List.length_cons] at h ⊢
      exact h
    · rw [if_neg hsp, if_neg hsp]

/-- What the right trimming returns: a prefix of `s` that is empty or ends with
a rune that is not white space; the rest of `s` starts at a rune boundary. -/
theorem trimRight_spec : ∀ (n : Nat) (s : GoString), s.length ≤ n →
    (∃ m, s = trimRightLoop s.length s ++ m ∧ (m = [] ∨ ∃ c r, m = c :: r ∧ NonCont c)) ∧
    (trimRightLoop s.length s = [] ∨
      IsSpace (DecodeLastRuneInString (trimRightLoop s.length s)).1 = false) := by
  intro n
  induction n with
  | zero =>
    intro s hs
    have : s = [] := List.length_eq_zero.1 (by omega)
    subst this
    exact ⟨⟨[], rfl, Or.inl rfl⟩, Or.inl rfl⟩
  | succ n ih =>
    intro s hs
    by_cases hnil : s = []
    · subst hnil
      exact ⟨⟨[], rfl, Or.inl rfl⟩, Or.inl rfl⟩
    · rw [trimRight_step s hnil]
      by_cases hsp : IsSpace (DecodeLastRuneInString s).1 = true
      · rw [if_pos hsp]
        obtain ⟨hk1, hk2, c, r, hcr, hc⟩ := decodeLast_space s hsp
        have := ih (s.take (s.length - (DecodeLastRuneInString s).2))
          (by simp only [List.length_take]; omega)
        obtain ⟨⟨m, hm, hm2⟩, h2⟩ := this
        refine ⟨⟨m ++ s.drop (s.length - (DecodeLastRuneInString s).2), ?_, ?_⟩, h2⟩
        · rw [← List.append_assoc, ← hm, List.take_append_drop]
        · right
          rcases hm2 with hm2 | ⟨c2, r2, hm2, hc2⟩
          · rw [hm2, hcr]
            exact ⟨c, r, rfl, hc⟩
          · rw [hm2]
            exact ⟨c2, r2 ++ s.drop (s.length - (DecodeLastRuneInString s).2), rfl, hc2⟩
      · rw [if_neg hsp]
        exact ⟨⟨[], (List.append_nil s).symm, Or.inl rfl⟩, Or.inr (by simpa using hsp)⟩

theorem trimRight_id (s : GoString) (h : IsSpace (DecodeLastRuneInString s).1 = false) :
    trimRightLoop s.length s = s := by
  by_cases hnil : s = []
  · subst hnil; rfl
  · rw [trimRight_step s hnil, if_neg (by simp [h])]

/-! ## `strings.TrimSpace` -/

/-- The result of `TrimSpace` has no leading and no trailing white space. -/
theorem trimSpace_trimmed (s : GoString) : Trimmed (TrimSpace s) := by
  unfold TrimSpace Trimmed
  simp only
  obtain ⟨_, hl, _⟩ := trimLeft_spec s.length s (le_refl _)
  generalize trimLeftLoop s.length s = l at hl ⊢
  obtain ⟨⟨m, hm, _⟩, hr⟩ := trimRight_spec l.length l (le_refl _)
  generalize trimRightLoop l.length l = r at hm hr ⊢
  constructor
  · by_cases hnil : r = []
    · subst hnil; decide
    · cases hsp : IsSpace (DecodeRuneInString r).1 with
      | false => rfl
      | true =>
        have := decode_append_of_space r m hnil hsp
        rw [← hm] at this
        rcases hl with hl | hl
        · rw [hl] at hm
          exact absurd (List.append_eq_nil.1 hm.symm).1 hnil
        · rw [this, hsp] at hl
          exact absurd hl (by simp)
  · rcases hr with hr | hr
    · subst hr; decide
    · exact hr

/-- A trimmed string is a fixed point of `TrimSpace`. -/
theorem trimSpace_of_trimmed (s : GoString) (h : Trimmed s) : TrimSpace s = s := by
  unfold TrimSpace
  simp only
  rw [trimLeft_id s h.1, trimRight_id s h.2]

/-- Every rune of `TrimSpace s` is a rune of `s`. -/
theorem runes_trimSpace (s : GoString) : ∃ p q, runes s = p ++ runes (TrimSpace s) ++ q := by
  unfold TrimSpace
  simp only
  obtain ⟨_, _, ⟨p, hp⟩⟩ := trimLeft_spec s.length s (le_refl _)
  generalize trimLeftLoop s.length s = l at hp ⊢
  obtain ⟨⟨m, hm, hm2⟩, _⟩ := trimRight_spec l.length l (le_refl _)
  generalize trimRightLoop l.length l = r at hm ⊢
  refine ⟨p, runes m, ?_⟩
  rw [hp, List.append_assoc]
  congr 1
  rw [hm]
  exact runes_append r m hm2

theorem trimSpace_space (t : GoString) : TrimSpace (0x20 :: t) = TrimSpace t := by
  unfold TrimSpace
  simp only
  rw [trimLeft_space]

/-! ## The mutating methods keep a set valid -/

theorem valid_nil (env : Env) : Valid env [] :=
  ⟨strictAsc_nil, fun _ h => absurd h (List.not_mem_nil _)⟩

theorem add_valid (env : Env) (t : Tags) (tag : GoString) (h : Valid env t) :
    Valid env (Add env t tag).1 := by
  rw [add_eq env t tag h.1]
  by_cases h1 : TrimSpace tag = []
  · rw [if_pos h1]; exact h
  · rw [if_neg h1]
    cases hck : CheckTag env (TrimSpace tag) with
    | some err => exact h
    | none =>
      simp only
      by_cases hmem : TrimSpace tag ∈ t
      · rw [if_pos hmem]; exact h
      · rw [if_neg hmem]
        refine ⟨splice_strictAsc _ t h.1, ?_⟩
        intro e he
        rcases (mem_splice _ _ _).1 he with he | he
        · rw [he]
          exact ⟨h1, trimSpace_trimmed tag, hck⟩
        · exact h.2 e he

theorem remove_valid (env : Env) (t : Tags) (x : GoString) (h : Valid env t) :
    Valid env (Remove t x).1 := by
  rw [remove_eq t x h.1]
  split
  · exact ⟨erase_strictAsc t x h.1, fun e he => h.2 e (List.mem_of_mem_erase he)⟩
  · exact h

theorem mergeLoop_valid (env : Env) (l : List GoString) :
    ∀ (t : Tags), Valid env t → Valid env (mergeLoop env l t).1 := by
  induction l with
  | nil => intro t h; exact h
  | cons tag rest ih =>
    intro t h
    have hv := add_valid env t tag h
    simp only [mergeLoop]
    rcases hadd : Add env t tag with ⟨t1, _ | err⟩
    · rw [hadd] at hv
      exact ih t1 hv
    · rw [hadd] at hv
      simp only
      split
      · exact hv
      · exact ih t1 hv

theorem replaceLoop_valid (env : Env) (l : List GoString) :
    ∀ (t : Tags), Valid env t → Valid env (replaceLoop env l t) := by
  induction l with
  | nil => intro t h; exact h
  | cons tag rest ih =>
    intro t h
    have hv := add_valid env t tag h
    simp only [replaceLoop]
    split
    · exact ih t h
    · rcases hadd : Add env t tag with ⟨t1, _ | err⟩
      · rw [hadd] at hv
        exact ih t1 hv
      · rw [hadd] at hv
        exact ih t1 hv

theorem replace_valid (env : Env) (t : Tags) (s : GoString) (h : Valid env t) :
    Valid env (Replace env t s).1 := by
  unfold Replace
  split
  · exact h
  · exact replaceLoop_valid env _ [] (valid_nil env)

theorem applyOp_valid (env : Env) (t : Tags) (op : Op) (h : Valid env t) :
    Valid env (applyOp env t op) := by
  cases op with
  | add tag => exact add_valid env t tag h
  | remove tag => exact remove_valid env t tag h
  | replace s => exact replace_valid env t s h
  | merge tags => exact mergeLoop_valid env tags t h
  | mergeFromStringSlice slice => exact mergeLoop_valid env slice t h

theorem foldl_applyOp_valid (env : Env) (ops : List Op) :
    ∀ (t : Tags), Valid env t → Valid env (ops.foldl (applyOp env) t) := by
  induction ops with
  | nil => intro t h; exact h
  | cons op ops ih => intro t h; exact ih _ (applyOp_valid env t op h)

theorem strictAsc_nodup (t : Tags) (h : StrictAsc t) : t.Nodup := by
  rw [strictAsc_iff_pairwise] at h
  exact h.imp (fun hab => strLt_ne _ _ hab)

/-! ## `Get` -/

theorem joined_cons_cons (a b : GoString) (r : Tags) :
    joined (a :: b :: r) = a ++ sep ++ joined (b :: r) := by
  simp [joined, List.intercalate, List.intersperse]

theorem joined_single (a : GoString) : joined [a] = a := by
  simp [joined, List.intercalate, List.intersperse]

theorem getLoop_eq (tags : Tags) : ∀ (k i : Nat) (s : GoString), i + k = tags.length →
    getLoop tags k i s = s ++ joined (tags.drop i) := by
  intro k
  induction k with
  | zero =>
    intro i s h
    simp only [getLoop]
    rw [List.drop_eq_nil_iff.2 (by omega)]
    simp [joined, List.intercalate]
  | succ k ih =>
    intro i s h
    simp only [getLoop]
    rw [ih (i + 1) _ (by omega)]
    have hi : i < tags.length := by omega
    rw [List.drop_eq_getElem_cons hi, List.getD_eq_getElem _ _ hi]
    by_cases hlast : i < tags.length - 1
    · rw [if_pos hlast]
      have hi1 : i + 1 < tags.length := by omega
      rw [List.drop_eq_getElem_cons hi1, joined_cons_cons]
      simp [sep, List.append_assoc]
    · rw [if_neg hlast]
      rw [List.drop_eq_nil_iff.2 (by omega : tags.length ≤ i + 1), joined_single]
      simp [joined, List.intercalate]

theorem get_eq (t : Tags) : Get (some t) = joined t := by
  simp only [Get]
  rw [getLoop_eq t t.length 0 [] (by omega)]
  simp

/-! ## Runes below `RuneSelf` are single bytes -/

theorem lor_lt_left (x y n : Nat) (h : x ||| y < 2 ^ n) : x < 2 ^ n := by
  apply Nat.lt_pow_two_of_testBit
  intro i hi
  have hlt : x ||| y < 2 ^ i := lt_of_lt_of_le h (Nat.pow_le_pow_right (by omega) hi)
  have := Nat.testBit_lt_two_pow hlt
  rw [Nat.testBit_or, Bool.or_eq_false_iff] at this
  exact this.1

theorem lor_lt_right (x y n : Nat) (h : x ||| y < 2 ^ n) : y < 2 ^ n := by
  apply Nat.lt_pow_two_of_testBit
  intro i hi
  have hlt : x ||| y < 2 ^ i := lt_of_lt_of_le h (Nat.pow_le_pow_right (by omega) hi)
  have := Nat.testBit_lt_two_pow hlt
  rw [Nat.testBit_or, Bool.or_eq_false_iff] at this
  exact this.2

theorem leadInfo_fine (b sz lo hi : Nat) (h : leadInfo b = some (sz, lo, hi)) :
    (sz ≤ 2 → 0xC2 ≤ b ∧ b ≤ 0xDF) ∧
    (sz = 3 → 0xE0 ≤ b ∧ b ≤ 0xEF ∧ (b = 0xE0 → lo = 0xA0)) ∧
    (sz = 4 → 0xF0 ≤ b ∧ b ≤ 0xF4 ∧ (b = 0xF0 → lo = 0x90)) := by
  unfold leadInfo at h
  repeat' split at h
  all_goals first
    | (simp only [Option.some.injEq, Prod.mk.injEq] at h
       obtain ⟨h1, h2, h3⟩ := h
       subst h1 h2 h3
       omega)
    | exact absurd h (by simp)

theorem rune2_ge (s0 s1 : Nat) (h0 : 0xC2 ≤ s0) (h1 : s0 ≤ 0xDF) : 0x80 ≤ rune2 s0 s1 := by
  by_contra hc
  have hlt : rune2 s0 s1 < 2 ^ 7 := by omega
  unfold rune2 at hlt
  have ha := lor_lt_left _ _ _ hlt
  have hm : s0 &&& 0x1F = s0 % 2 ^ 5 := Nat.and_pow_two_sub_one_eq_mod s0 5
  rw [hm, Nat.shiftLeft_eq] at ha
  simp only [Nat.reducePow] at ha
  omega

theorem rune3_ge (s0 s1 s2 lo : Nat) (h0 : 0xE0 ≤ s0) (h1 : s0 ≤ 0xEF)
    (hlo : s0 = 0xE0 → lo = 0xA0) (hs1 : lo ≤ s1) (hs1' : s1 ≤ 0xBF) :
    0x80 ≤ rune3 s0 s1 s2 := by
  by_contra hc
  have hlt : rune3 s0 s1 s2 < 2 ^ 7 := by omega
  unfold rune3 at hlt
  have h12 := lor_lt_left _ _ _ hlt
  have ha := lor_lt_left _ _ _ h12
  have hb := lor_lt_right _ _ _ h12
  have hm : s0 &&& 0x0F = s0 % 2 ^ 4 := Nat.and_pow_two_sub_one_eq_mod s0 4
  have hm1 : s1 &&& 0x3F = s1 % 2 ^ 6 := Nat.and_pow_two_sub_one_eq_mod s1 6
  rw [hm, Nat.shiftLeft_eq] at ha
  rw [hm1, Nat.shiftLeft_eq] at hb
  simp only [Nat.reducePow] at ha hb
  have : s0 = 0xE0 := by omega
  have := hlo this
  omega

theorem rune4_ge (s0 s1 s2 s3 lo : Nat) (h0 : 0xF0 ≤ s0) (h1 : s0 ≤ 0xF4)
    (hlo : s0 = 0xF0 → lo = 0x90) (hs1 : lo ≤ s1) (hs1' : s1 ≤ 0xBF) :
    0x80 ≤ rune4 s0 s1 s2 s3 := by
  by_contra hc
  have hlt : rune4 s0 s1 s2 s3 < 2 ^ 7 := by omega
  unfold rune4 at hlt
  have h123 := lor_lt_left _ _ _ hlt
  have h12 := lor_lt_left _ _ _ h123
  have ha := lor_lt_left _ _ _ h12
  have hb := lor_lt_right _ _ _ h12
  have hm : s0 &&& 0x07 = s0 % 2 ^ 3 := Nat.and_pow_two_sub_one_eq_mod s0 3
  have hm1 : s1 &&& 0x3F = s1 % 2 ^ 6 := Nat.and_pow_two_sub_one_eq_mod s1 6
  rw [hm, Nat.shiftLeft_eq] at ha
  rw [hm1, Nat.shiftLeft_eq] at hb
  simp only [Nat.reducePow] at ha hb
  have : s0 = 0xF0 := by omega
  have := hlo this
  omega

/-- A rune below `RuneSelf` decoded at the start of a string is its first byte. -/
theorem decode_lt_runeSelf (c : Nat) (t : GoString)
    (h : (DecodeRuneInString (c :: t)).1 < (0x80 : Nat)) :
    DecodeRuneInString (c :: t) = (c, 1) := by
  unfold DecodeRuneInString at h ⊢
  simp only at h ⊢
  by_cases h0 : c < RuneSelf
  · rw [if_pos h0]
  · rw [if_neg h0] at h
    exfalso
    have hre : ¬ ((RuneError, 1) : Rune × Nat).1 < (0x80 : Nat) := by decide
    cases hl : leadInfo c with
    | none => rw [hl] at h; exact hre h
    | some info =>
      obtain ⟨sz, lo, hi⟩ := info
      have hinfo := leadInfo_some _ _ _ _ hl
      have hfine := leadInfo_fine _ _ _ _ hl
      rw [hl] at h
      simp only at h
      by_cases c1 : (c :: t).length < sz
      · rw [if_pos c1] at h; exact hre h
      · rw [if_neg c1] at h
        by_cases c2 : (c :: t).getD 1 0 < lo ∨ hi < (c :: t).getD 1 0
        · rw [if_pos c2] at h; exact hre h
        · rw [if_neg c2] at h
          by_cases c3 : sz ≤ 2
          · rw [if_pos c3] at h
            have := rune2_ge c ((c :: t).getD 1 0) (hfine.1 c3).1 (hfine.1 c3).2
            have h' : rune2 c ((c :: t).getD 1 0) < 0x80 := h
            omega
          · rw [if_neg c3] at h
            by_cases c4 : (c :: t).getD 2 0 < 128 ∨ 191 < (c :: t).getD 2 0
            · rw [if_pos c4] at h; exact hre h
            · rw [if_neg c4] at h
              by_cases c5 : sz ≤ 3
              · rw [if_pos c5] at h
                have h3 := hfine.2.1 (by omega)
                have := rune3_ge c ((c :: t).getD 1 0) ((c :: t).getD 2 0) lo h3.1 h3.2.1
                  h3.2.2 (by omega) (by omega)
                have h' : rune3 c ((c :: t).getD 1 0) ((c :: t).getD 2 0) < 0x80 := h
                omega
              · rw [if_neg c5] at h
                by_cases c6 : (c :: t).getD 3 0 < 128 ∨ 191 < (c :: t).getD 3 0
                · rw [if_pos c6] at h; exact hre h
                · rw [if_neg c6] at h
                  have h4 := hfine.2.2 (by omega)
                  have := rune4_ge c ((c :: t).getD 1 0) ((c :: t).getD 2 0)
                    ((c :: t).getD 3 0) lo h4.1 h4.2.1 h4.2.2 (by omega) (by omega)
                  have h' : rune4 c ((c :: t).getD 1 0) ((c :: t).getD 2 0)
                    ((c :: t).getD 3 0) < 0x80 := h
                  omega

/-- A rune below `RuneSelf` seen by the `range` loop is a byte of the string. -/
theorem runes_lt_runeSelf_mem : ∀ (n : Nat) (s : GoString), s.length ≤ n →
    ∀ v, v ∈ runes s → v < (0x80 : Nat) → v ∈ s := by
  intro n
  induction n with
  | zero =>
    intro s hs v hv _
    have : s = [] := List.length_eq_zero.1 (by omega)
    subst this
    exact absurd hv (List.not_mem_nil _)
  | succ n ih =>
    intro s hs v hv hlt
    cases s with
    | nil => exact absurd hv (List.not_mem_nil _)
    | cons c t =>
      rw [runes_cons] at hv
      rcases List.mem_cons.1 hv with hv | hv
      · have := decode_lt_runeSelf c t (by rw [← hv]; exact hlt)
        rw [this] at hv
        rw [hv]
        exact List.mem_cons_self _ _
      · have hw := decode_width_pos (c :: t) (by simp)
        have := ih _ (by simp only [List.length_drop, List.length_cons] at hs ⊢; omega)
          v hv hlt
        exact List.mem_of_mem_drop this

/-- An ASCII byte of the string is seen as a rune by the `range` loop. -/
theorem mem_runes_of_ascii (s : GoString) (c : Nat) (hc : c < 0x80) (h : c ∈ s) :
    c ∈ runes s := by
  obtain ⟨a, b, hab⟩ := List.append_of_mem h
  rw [hab, runes_append_nonCont c b (Or.inl hc) a.length a (le_refl _), runes_ascii c b hc]
  simp

theorem nonCont_comma : NonCont 0x2C := Or.inl (by decide)

/-! ## The white lists -/

theorem not_and8 : ∀ (a b c d e f g h : Bool),
    (!a && !b && !c && !d && !e && !f && !g && !h) = !(a || b || c || d || e || f || g || h) := by
  decide

theorem not_and9 : ∀ (a b c d e f g h i : Bool),
    (!a && !b && !c && !d && !e && !f && !g && !h && !i) =
      !(c || (a || b || d || e || f || g || h || i)) := by
  decide

theorem checkTagLoop_none (env : Env) (rs : List Rune) :
    checkTagLoop env rs = none ↔ ∀ v ∈ rs, inTagWhitelist env v = true := by
  induction rs with
  | nil => simp [checkTagLoop]
  | cons v vs ih =>
    simp only [checkTagLoop, List.mem_cons, forall_eq_or_imp]
    have hcond : (!env.IsLetter v && !IsDigit env v && v != 0x20 && v != 0x2D && v != 0x5F
        && v != 0x2E && v != 0x2F && v != 0x3A) = !inTagWhitelist env v := by
      unfold inTagWhitelist
      exact not_and8 _ _ _ _ _ _ _ _
    rw [hcond]
    cases hv : inTagWhitelist env v with
    | true => simp [ih]
    | false => simp

theorem checkTagsLoop_none (env : Env) (rs : List Rune) :
    checkTagsLoop env rs = none ↔ ∀ v ∈ rs, inTagsWhitelist env v = true := by
  induction rs with
  | nil => simp [checkTagsLoop]
  | cons v vs ih =>
    simp only [checkTagsLoop, List.mem_cons, forall_eq_or_imp]
    have hcond : (!env.IsLetter v && !IsDigit env v && v != 0x2C && v != 0x20 && v != 0x2D
        && v != 0x5F && v != 0x2E && v != 0x2F && v != 0x3A) = !inTagsWhitelist env v := by
      unfold inTagsWhitelist inTagWhitelist
      exact not_and9 _ _ _ _ _ _ _ _ _
    rw [hcond]
    cases hv : inTagsWhitelist env v with
    | true => simp [ih]
    | false => simp

theorem checkTag_none (env : Env) (s : GoString) :
    CheckTag env s = none ↔ ∀ v ∈ runes s, inTagWhitelist env v = true :=
  checkTagLoop_none env _

/-! ## `strings.Split` -/

theorem split_of_not_mem (c : Nat) : ∀ (a : GoString), c ∉ a → Split a c = [a] := by
  intro a
  induction a with
  | nil => intro _; rfl
  | cons b a ih =>
    intro h
    have hb : b ≠ c := fun e => h (by simp [e])
    have ha : c ∉ a := fun e => h (List.mem_cons_of_mem _ e)
    simp only [Split]
    rw [if_neg hb, ih ha]

theorem split_append_sep (c : Nat) (b : GoString) :
    ∀ (a : GoString), c ∉ a → Split (a ++ c :: b) c = a :: Split b c := by
  intro a
  induction a with
  | nil => intro _; simp [Split]
  | cons x a ih =>
    intro h
    have hx : x ≠ c := fun e => h (by simp [e])
    have ha : c ∉ a := fun e => h (List.mem_cons_of_mem _ e)
    have e : Split (x :: a ++ c :: b) c =
        (if x = c then [] :: Split (a ++ c :: b) c
          else match Split (a ++ c :: b) c with
            | [] => [[x]]
            | p :: ps => (x :: p) :: ps) := rfl
    rw [e, if_neg hx, ih ha]

theorem exists_first_occurrence (c : Nat) : ∀ (s : GoString), c ∈ s →
    ∃ a b, s = a ++ c :: b ∧ c ∉ a := by
  intro s
  induction s with
  | nil => intro h; exact absurd h (List.not_mem_nil _)
  | cons x s ih =>
    intro h
    by_cases hx : x = c
    · exact ⟨[], s, by simp [hx], List.not_mem_nil _⟩
    · rcases List.mem_cons.1 h with h | h
      · exact absurd h.symm hx
      · obtain ⟨a, b, hab, hca⟩ := ih h
        refine ⟨x :: a, b, by simp [hab], ?_⟩
        intro hmem
        rcases List.mem_cons.1 hmem with h1 | h1
        · exact hx h1.symm
        · exact hca h1

/-- A piece of `Split s c` lies in `s` between two separators (or the ends of
`s`) and holds no separator. -/
theorem split_mem_decomp (c : Nat) : ∀ (n : Nat) (s : GoString), s.length ≤ n →
    ∀ p ∈ Split s c, c ∉ p ∧ ∃ pre post, s = pre ++ p ++ post ∧
      (pre = [] ∨ ∃ x, pre = x ++ [c]) ∧ (post = [] ∨ ∃ y, post = c :: y) := by
  intro n
  induction n with
  | zero =>
    intro s hs p hp
    have : s = [] := List.length_eq_zero.1 (by omega)
    subst this
    simp only [Split, List.mem_singleton] at hp
    subst hp
    exact ⟨List.not_mem_nil _, [], [], rfl, Or.inl rfl, Or.inl rfl⟩
  | succ n ih =>
    intro s hs p hp
    by_cases hc : c ∈ s
    · obtain ⟨a, b, hab, hca⟩ := exists_first_occurrence c s hc
      rw [hab, split_append_sep c b a hca] at hp
      rcases List.mem_cons.1 hp with hp | hp
      · subst hp
        exact ⟨hca, [], c :: b, by simp [hab], Or.inl rfl, Or.inr ⟨b, rfl⟩⟩
      · have hlen : b.length ≤ n := by
          rw [hab] at hs
          simp only [List.length_append, List.length_cons] at hs
          omega
        obtain ⟨h1, pre, post, h2, h3, h4⟩ := ih b hlen p hp
        refine ⟨h1, a ++ c :: pre, post, by simp [hab, h2], Or.inr ?_, h4⟩
        rcases h3 with h3 | ⟨x, h3⟩
        · exact ⟨a, by simp [h3]⟩
        · exact ⟨a ++ c :: x, by simp [h3]⟩
    · rw [split_of_not_mem c s hc] at hp
      simp only [List.mem_singleton] at hp
      subst hp
      exact ⟨hc, [], [], by simp, Or.inl rfl, Or.inl rfl⟩

/-- The runes of a piece of `Split s ","` are runes of `s`. -/
theorem runes_piece (s p : GoString) (hp : p ∈ Split s 0x2C) :
    ∀ v ∈ runes p, v ∈ runes s ∧ v ≠ 0x2C := by
  obtain ⟨hc, pre, post, hs, hpre, hpost⟩ := split_mem_decomp 0x2C s.length s (le_refl _) p hp
  intro v hv
  constructor
  · have h1 : runes s = runes (pre ++ p) ++ runes post := by
      rw [hs]
      apply runes_append
      rcases hpost with h | ⟨y, h⟩
      · exact Or.inl h
      · exact Or.inr ⟨0x2C, y, h, nonCont_comma⟩
    have h2 : v ∈ runes (pre ++ p) := by
      rcases hpre with h | ⟨x, h⟩
      · rw [h]; exact hv
      · rw [h, List.append_assoc, List.singleton_append,
          runes_append_nonCont 0x2C p nonCont_comma x.length x (le_refl _),
          runes_ascii 0x2C p (by decide)]
        simp [hv]
    rw [h1]
    exact List.mem_append_left _ h2
  · intro hvc
    rw [hvc] at hv
    exact hc (runes_lt_runeSelf_mem p.length p (le_refl _) 0x2C hv (by decide))

/-- Every piece of a raw string accepted by `CheckTags` is, once trimmed,
accepted by `CheckTag`. -/
theorem checkTag_piece (env : Env) (s p : GoString) (hs : checkTagsLoop env (runes s) = none)
    (hp : p ∈ Split s 0x2C) : CheckTag env (TrimSpace p) = none := by
  rw [checkTag_none]
  intro v hv
  obtain ⟨a, b, hab⟩ := runes_trimSpace p
  have hvp : v ∈ runes p := by rw [hab]; simp [hv]
  obtain ⟨h1, h2⟩ := runes_piece s p hp v hvp
  have := (checkTagsLoop_none env _).1 hs v h1
  simp only [inTagsWhitelist, Bool.or_eq_true, beq_iff_eq] at this
  rcases this with h | h
  · exact absurd h h2
  · exact h

theorem checkTags_loop_of_none (env : Env) (s : GoString) (h : CheckTags env s = none) :
    checkTagsLoop env (runes s) = none := by
  unfold CheckTags at h
  split at h
  · exact absurd h (by simp)
  · exact h

/-! ## `strings.Trim` with the cutset `" "` -/

theorem trimRightByte_mem (c : Nat) : ∀ (s : GoString) (b : Nat),
    b ∈ trimRightByte s c → b ∈ s := by
  intro s
  induction s with
  | nil => intro b h; exact absurd h (List.not_mem_nil _)
  | cons x s ih =>
    intro b h
    simp only [trimRightByte] at h
    split at h
    · split at h
      · exact absurd h (List.not_mem_nil _)
      · rw [List.mem_singleton] at h
        rw [h]; exact List.mem_cons_self _ _
    · rcases List.mem_cons.1 h with h | h
      · rw [h]; exact List.mem_cons_self _ _
      · exact List.mem_cons_of_mem _ (ih b h)

theorem trimRightByte_nil_iff (c : Nat) : ∀ (s : GoString),
    trimRightByte s c = [] ↔ ∀ b ∈ s, b = c := by
  intro s
  induction s with
  | nil => simp [trimRightByte]
  | cons x s ih =>
    simp only [trimRightByte, List.mem_cons, forall_eq_or_imp]
    cases h : trimRightByte s c with
    | nil =>
      simp only
      rw [h] at ih
      have := ih.1 rfl
      by_cases hx : x = c
      · rw [if_pos hx]; simp only [hx, true_and, true_iff]; exact this
      · rw [if_neg hx]; simp [hx]
    | cons y r =>
      simp only
      rw [h] at ih
      constructor
      · intro e; exact absurd e (by simp)
      · intro e; exact absurd (ih.2 e.2) (by simp)

theorem trimLeftByte_nil_iff (c : Nat) : ∀ (s : GoString),
    trimLeftByte s c = [] ↔ ∀ b ∈ s, b = c := by
  intro s
  induction s with
  | nil => simp [trimLeftByte]
  | cons x s ih =>
    simp only [trimLeftByte, List.mem_cons, forall_eq_or_imp]
    by_cases hx : x = c
    · rw [if_pos hx, ih]; simp [hx]
    · rw [if_neg hx]; simp [hx]

/-- The last byte kept by `trimRightByte` is not the cut byte. -/
theorem trimRightByte_exists_ne (c : Nat) : ∀ (s : GoString),
    trimRightByte s c ≠ [] → ∃ b ∈ trimRightByte s c, b ≠ c := by
  intro s
  induction s with
  | nil => intro h; exact absurd rfl h
  | cons x s ih =>
    intro _
    simp only [trimRightByte]
    cases h : trimRightByte s c with
    | nil =>
      simp only
      by_cases hx : x = c
      · rename_i hne
        simp only [trimRightByte, h, if_pos hx] at hne
        exact absurd rfl hne
      · rw [if_neg hx]
        exact ⟨x, List.mem_singleton.2 rfl, hx⟩
    | cons y r =>
      simp only
      rw [h] at ih
      obtain ⟨b, hb, hbc⟩ := ih (by simp)
      exact ⟨b, List.mem_cons_of_mem _ hb, hbc⟩

/-- The result `strings.Trim(s, " ")` is empty iff `s` holds spaces only. -/
theorem trim_nil_iff (c : Nat) (s : GoString) : Trim s c = [] ↔ ∀ b ∈ s, b = c := by
  unfold Trim
  rw [trimLeftByte_nil_iff]
  constructor
  · intro h
    by_cases hnil : trimRightByte s c = []
    · exact (trimRightByte_nil_iff c s).1 hnil
    · obtain ⟨b, hb, hbc⟩ := trimRightByte_exists_ne c s hnil
      exact absurd (h b hb) hbc
  · intro h b hb
    exact h b (trimRightByte_mem c s b hb)

theorem trimLeft_all_space : ∀ (s : GoString), (∀ b ∈ s, b = 0x20) →
    trimLeftLoop s.length s = [] := by
  intro s
  induction s with
  | nil => intro _; rfl
  | cons x s ih =>
    intro h
    have hx : x = 0x20 := h x (List.mem_cons_self _ _)
    subst hx
    rw [trimLeft_space]
    exact ih (fun b hb => h b (List.mem_cons_of_mem _ hb))

/-- A piece skipped by `NewTags` (only spaces) is also empty for `TrimSpace`. -/
theorem trimSpace_of_trim_nil (s : GoString) (h : Trim s 0x20 = []) : TrimSpace s = [] := by
  unfold TrimSpace
  simp only
  rw [trimLeft_all_space s ((trim_nil_iff 0x20 s).1 h)]
  rfl

theorem trimmed_head_ne_space (c : Nat) (r : GoString) (h : Trimmed (c :: r)) : c ≠ 0x20 := by
  intro hc
  have := h.1
  rw [hc, decode_ascii _ _ (by decide)] at this
  exact absurd this (by decide)

/-! ## Strictly ascending sequences are determined by their elements -/

theorem strictAsc_ext (a b : Tags) (ha : StrictAsc a) (hb : StrictAsc b)
    (h : ∀ x, x ∈ a ↔ x ∈ b) : a = b := by
  haveI : IsAntisymm GoString (fun a b => strLt a b = true) :=
    ⟨fun a b h1 h2 => by
      have := strLt_asymm a b h1
      rw [h2] at this
      exact absurd this (by simp)⟩
  have hp : a.Perm b := (List.perm_ext_iff_of_nodup (strictAsc_nodup a ha)
    (strictAsc_nodup b hb)).2 h
  exact List.eq_of_perm_of_sorted hp ((strictAsc_iff_pairwise a).1 ha)
    ((strictAsc_iff_pairwise b).1 hb)

/-! ## The loops of `Merge`, `Replace` and `NewTags` -/

/-- The three outcomes of `Add` for a tag whose trimmed form passes `CheckTag`. -/
theorem add_cases (env : Env) (t : Tags) (p : GoString) (ht : StrictAsc t)
    (hck : CheckTag env (TrimSpace p) = none) :
    (TrimSpace p = [] ∧ Add env t p = (t, some .emptyString)) ∨
    (TrimSpace p ≠ [] ∧ TrimSpace p ∈ t ∧ Add env t p = (t, some .tagExist)) ∨
    (TrimSpace p ≠ [] ∧ TrimSpace p ∉ t ∧ Add env t p = (splice (TrimSpace p) t, none)) := by
  rw [add_eq env t p ht]
  by_cases h1 : TrimSpace p = []
  · left; rw [if_pos h1]; exact ⟨h1, rfl⟩
  · right
    rw [if_neg h1, hck]
    simp only
    by_cases h2 : TrimSpace p ∈ t
    · left; rw [if_pos h2]; exact ⟨h1, h2, rfl⟩
    · right; rw [if_neg h2]; exact ⟨h1, h2, rfl⟩

/-- Merging valid tags: no error, and the sorted union. -/
theorem mergeLoop_validTags (env : Env) : ∀ (l : List GoString) (t : Tags), StrictAsc t →
    (∀ e ∈ l, ValidTag env e) →
    (mergeLoop env l t).2 = none ∧ StrictAsc (mergeLoop env l t).1 ∧
      ∀ x, x ∈ (mergeLoop env l t).1 ↔ x ∈ t ∨ x ∈ l := by
  intro l
  induction l with
  | nil => intro t ht _; exact ⟨rfl, ht, fun x => by simp [mergeLoop]⟩
  | cons e l ih =>
    intro t ht hl
    have he := hl e (List.mem_cons_self _ _)
    have hl' : ∀ e ∈ l, ValidTag env e := fun x hx => hl x (List.mem_cons_of_mem _ hx)
    have htrim : TrimSpace e = e := trimSpace_of_trimmed e he.2.1
    have hck : CheckTag env (TrimSpace e) = none := by rw [htrim]; exact he.2.2
    simp only [mergeLoop]
    rcases add_cases env t e ht hck with ⟨h1, _⟩ | ⟨_, h2, h3⟩ | ⟨_, h2, h3⟩
    · rw [htrim] at h1; exact absurd h1 he.1
    · rw [h3]
      simp only [ne_eq, not_true_eq_false, if_false]
      obtain ⟨i1, i2, i3⟩ := ih t ht hl'
      refine ⟨i1, i2, fun x => ?_⟩
      rw [i3 x, List.mem_cons]
      rw [htrim] at h2
      constructor
      · rintro (h | h)
        · exact Or.inl h
        · exact Or.inr (Or.inr h)
      · rintro (h | h | h)
        · exact Or.inl h
        · rw [h]; exact Or.inl h2
        · exact Or.inr h
    · rw [h3]
      simp only
      obtain ⟨i1, i2, i3⟩ := ih _ (splice_strictAsc (TrimSpace e) t ht) hl'
      refine ⟨i1, i2, fun x => ?_⟩
      rw [i3 x, mem_splice, htrim, List.mem_cons]
      constructor
      · rintro ((h | h) | h)
        · exact Or.inr (Or.inl h)
        · exact Or.inl h
        · exact Or.inr (Or.inr h)
      · rintro (h | h | h)
        · exact Or.inl (Or.inr h)
        · exact Or.inl (Or.inl h)
        · exact Or.inr h

/-- The loop of `Replace` over pieces whose trimmed forms pass `CheckTag`: the
result holds the non-empty trimmed pieces next to what the set held. -/
theorem replaceLoop_spec (env : Env) : ∀ (P : List GoString) (t : Tags), StrictAsc t →
    (∀ p ∈ P, CheckTag env (TrimSpace p) = none) →
    StrictAsc (replaceLoop env P t) ∧
      ∀ x, x ∈ replaceLoop env P t ↔ x ∈ t ∨ (x ≠ [] ∧ x ∈ P.map TrimSpace) := by
  intro P
  induction P with
  | nil => intro t ht _; exact ⟨ht, fun x => by simp [replaceLoop]⟩
  | cons p P ih =>
    intro t ht hP
    have hck := hP p (List.mem_cons_self _ _)
    have hP' : ∀ q ∈ P, CheckTag env (TrimSpace q) = none :=
      fun q hq => hP q (List.mem_cons_of_mem _ hq)
    simp only [replaceLoop, List.map_cons, List.mem_cons]
    rcases add_cases env t p ht hck with ⟨h1, _⟩ | ⟨h1, h2, h3⟩ | ⟨h1, h2, h3⟩
    · rw [if_pos h1]
      obtain ⟨i1, i2⟩ := ih t ht hP'
      refine ⟨i1, fun x => ?_⟩
      rw [i2 x, h1]
      constructor
      · rintro (h | ⟨h, h'⟩)
        · exact Or.inl h
        · exact Or.inr ⟨h, Or.inr h'⟩
      · rintro (h | ⟨h, h' | h'⟩)
        · exact Or.inl h
        · exact absurd h' h
        · exact Or.inr ⟨h, h'⟩
    · rw [if_neg h1, h3]
      simp only
      obtain ⟨i1, i2⟩ := ih t ht hP'
      refine ⟨i1, fun x => ?_⟩
      rw [i2 x]
      constructor
      · rintro (h | ⟨h, h'⟩)
        · exact Or.inl h
        · exact Or.inr ⟨h, Or.inr h'⟩
      · rintro (h | ⟨h, h' | h'⟩)
        · exact Or.inl h
        · rw [h']; exact Or.inl h2
        · exact Or.inr ⟨h, h'⟩
    · rw [if_neg h1, h3]
      simp only
      obtain ⟨i1, i2⟩ := ih _ (splice_strictAsc (TrimSpace p) t ht) hP'
      refine ⟨i1, fun x => ?_⟩
      rw [i2 x, mem_splice]
      constructor
      · rintro ((h | h) | ⟨h, h'⟩)
        · exact Or.inr ⟨by rw [h]; exact h1, Or.inl h⟩
        · exact Or.inl h
        · exact Or.inr ⟨h, Or.inr h'⟩
      · rintro (h | ⟨h, h' | h'⟩)
        · exact Or.inl (Or.inr h)
        · exact Or.inl (Or.inl h')
        · exact Or.inr ⟨h, h'⟩

/-- The loop of `NewTags` over pieces whose trimmed forms pass `CheckTag`: it
handles the first `k` pieces and either reaches the end without error, or stops
at piece `k`, which is not made of spaces only and whose trimmed form is empty
(empty-string error) or already in the set (tag-exists error). -/
theorem newTagsLoop_spec (env : Env) : ∀ (P : List GoString) (t : Tags), StrictAsc t →
    (∀ p ∈ P, CheckTag env (TrimSpace p) = none) →
    ∃ k, k ≤ P.length ∧ StrictAsc (newTagsLoop env P t).1 ∧
      (∀ x, x ∈ (newTagsLoop env P t).1 ↔
        x ∈ t ∨ (x ≠ [] ∧ x ∈ (P.take k).map TrimSpace)) ∧
      (((newTagsLoop env P t).2 = none ∧ k = P.length) ∨
        ∃ p, P[k]? = some p ∧ Trim p 0x20 ≠ [] ∧
          ((TrimSpace p = [] ∧ (newTagsLoop env P t).2 = some .emptyString) ∨
            (TrimSpace p ≠ [] ∧ TrimSpace p ∈ (newTagsLoop env P t).1 ∧
              (newTagsLoop env P t).2 = some .tagExist))) := by
  intro P
  induction P with
  | nil =>
    intro t ht _
    exact ⟨0, le_refl _, ht, fun x => by simp [newTagsLoop], Or.inl ⟨rfl, rfl⟩⟩
  | cons p P ih =>
    intro t ht hP
    have hck := hP p (List.mem_cons_self _ _)
    have hP' : ∀ q ∈ P, CheckTag env (TrimSpace q) = none :=
      fun q hq => hP q (List.mem_cons_of_mem _ hq)
    simp only [newTagsLoop]
    by_cases htr : Trim p 0x20 = []
    · rw [if_pos htr]
      have h1 := trimSpace_of_trim_nil p htr
      obtain ⟨k, hk, i1, i2, i3⟩ := ih t ht hP'
      refine ⟨k + 1, by simp only [List.length_cons]; omega, i1, fun x => ?_, ?_⟩
      · rw [i2 x, List.take_succ_cons, List.map_cons, List.mem_cons, h1]
        constructor
        · rintro (h | ⟨h, h'⟩)
          · exact Or.inl h
          · exact Or.inr ⟨h, Or.inr h'⟩
        · rintro (h | ⟨h, h' | h'⟩)
          · exact Or.inl h
          · exact absurd h' h
          · exact Or.inr ⟨h, h'⟩
      · rcases i3 with ⟨h, h'⟩ | ⟨q, hq, h⟩
        · exact Or.inl ⟨h, by simp [h']⟩
        · exact Or.inr ⟨q, by simpa using hq, h⟩
    · rw [if_neg htr]
      rcases add_cases env t p ht hck with ⟨h1, h3⟩ | ⟨h1, h2, h3⟩ | ⟨h1, h2, h3⟩
      · rw [h3]
        simp only
        exact ⟨0, Nat.zero_le _, ht, fun x => by simp,
          Or.inr ⟨p, by simp, htr, Or.inl ⟨h1, trivial⟩⟩⟩
      · rw [h3]
        simp only
        exact ⟨0, Nat.zero_le _, ht, fun x => by simp,
          Or.inr ⟨p, by simp, htr, Or.inr ⟨h1, h2, trivial⟩⟩⟩
      · rw [h3]
        simp only
        obtain ⟨k, hk, i1, i2, i3⟩ := ih _ (splice_strictAsc (TrimSpace p) t ht) hP'
        refine ⟨k + 1, by simp only [List.length_cons]; omega, i1, fun x => ?_, ?_⟩
        · rw [i2 x, mem_splice, List.take_succ_cons, List.map_cons, List.mem_cons]
          constructor
          · rintro ((h | h) | ⟨h, h'⟩)
            · exact Or.inr ⟨by rw [h]; exact h1, Or.inl h⟩
            · exact Or.inl h
            · exact Or.inr ⟨h, Or.inr h'⟩
          · rintro (h | ⟨h, h' | h'⟩)
            · exact Or.inl (Or.inr h)
            · exact Or.inl (Or.inl h')
            · exact Or.inr ⟨h, h'⟩
        · rcases i3 with ⟨h, h'⟩ | ⟨q, hq, h⟩
          · exact Or.inl ⟨h, by simp [h']⟩
          · exact Or.inr ⟨q, by simpa using hq, h⟩

/-! ## Parsing the rendering of a valid set -/

theorem isDigit_comma (env : Env) : IsDigit env 0x2C = false := by
  unfold IsDigit
  rw [if_pos (by decide)]
  decide

/-- A tag accepted by `CheckTag` holds no comma, when the comma is no letter. -/
theorem comma_not_mem (env : Env) (e : GoString) (hcomma : env.IsLetter 0x2C = false)
    (h : CheckTag env e = none) : 0x2C ∉ e := by
  intro hmem
  have := (checkTag_none env e).1 h 0x2C (mem_runes_of_ascii e 0x2C (by decide) hmem)
  unfold inTagWhitelist at this
  rw [hcomma, isDigit_comma] at this
  exact absurd this (by decide)

theorem joined_nil : joined [] = [] := rfl

theorem split_joined : ∀ (r : Tags) (e pre : GoString), 0x2C ∉ pre ++ e →
    (∀ x ∈ r, 0x2C ∉ x) →
    Split (pre ++ joined (e :: r)) 0x2C = (pre ++ e) :: r.map (fun x => 0x20 :: x) := by
  intro r
  induction r with
  | nil =>
    intro e pre h _
    rw [joined_single, split_of_not_mem _ _ h]
    rfl
  | cons e' r ih =>
    intro e pre h hr
    have h1 : pre ++ joined (e :: e' :: r) = (pre ++ e) ++ 0x2C :: ([0x20] ++ joined (e' :: r)) := by
      rw [joined_cons_cons]
      simp [sep]
    rw [h1, split_append_sep _ _ _ h, ih e' [0x20]
      (by
        intro hmem
        rcases List.mem_append.1 hmem with h2 | h2
        · simp at h2
        · exact hr e' (List.mem_cons_self _ _) h2)
      (fun x hx => hr x (List.mem_cons_of_mem _ hx))]
    rfl

theorem split_rendered (t : Tags) (h : ∀ e ∈ t, 0x2C ∉ e) :
    Split (joined t) 0x2C = renderedPieces t := by
  cases t with
  | nil => rfl
  | cons e r =>
    have := split_joined r e [] (by simpa using h e (List.mem_cons_self _ _))
      (fun x hx => h x (List.mem_cons_of_mem _ hx))
    simpa [renderedPieces] using this

theorem inTagsWhitelist_of_tag (env : Env) (v : Rune) (h : inTagWhitelist env v = true) :
    inTagsWhitelist env v = true := by
  unfold inTagsWhitelist
  rw [h]
  simp

theorem runes_joined (env : Env) : ∀ (t : Tags), (∀ e ∈ t, CheckTag env e = none) →
    ∀ v ∈ runes (joined t), inTagsWhitelist env v = true := by
  intro t
  induction t with
  | nil => intro _ v hv; exact absurd hv (List.not_mem_nil _)
  | cons e r ih =>
    intro h v hv
    have he := (checkTag_none env e).1 (h e (List.mem_cons_self _ _))
    cases r with
    | nil =>
      rw [joined_single] at hv
      exact inTagsWhitelist_of_tag env v (he v hv)
    | cons e' r =>
      have h1 : joined (e :: e' :: r) = e ++ 0x2C :: (0x20 :: joined (e' :: r)) := by
        rw [joined_cons_cons]
        simp [sep]
      rw [h1, runes_append_nonCont 0x2C _ nonCont_comma e.length e (le_refl _),
        runes_ascii 0x2C _ (by decide), runes_ascii 0x20 _ (by decide)] at hv
      rcases List.mem_append.1 hv with hv | hv
      · exact inTagsWhitelist_of_tag env v (he v hv)
      · rcases List.mem_cons.1 hv with hv | hv
        · rw [hv]; unfold inTagsWhitelist; simp
        · rcases List.mem_cons.1 hv with hv | hv
          · rw [hv]; unfold inTagsWhitelist inTagWhitelist; simp
          · exact ih (fun x hx => h x (List.mem_cons_of_mem _ hx)) v hv

/-- The rendering of a valid set passes `CheckTags`, when the configured minimum
is below the configured maximum. -/
theorem checkTags_joined (env : Env) (t : Tags) (h : ∀ e ∈ t, CheckTag env e = none)
    (hcfg : env.TagStringMin < env.TagStringMax) : CheckTags env (joined t) = none := by
  unfold CheckTags
  rw [if_neg (by omega)]
  exact (checkTagsLoop_none env _).2 (runes_joined env t h)

theorem map_trimSpace_rendered (env : Env) (t : Tags) (h : ∀ e ∈ t, ValidTag env e)
    (hne : t ≠ []) : (renderedPieces t).map TrimSpace = t := by
  cases t with
  | nil => exact absurd rfl hne
  | cons e r =>
    simp only [renderedPieces, List.map_cons, List.map_map]
    rw [trimSpace_of_trimmed e (h e (List.mem_cons_self _ _)).2.1]
    congr 1
    have : ∀ x ∈ r, (TrimSpace ∘ fun x => 0x20 :: x) x = id x := by
      intro x hx
      simp only [Function.comp, id]
      rw [trimSpace_space, trimSpace_of_trimmed x (h x (List.mem_cons_of_mem _ hx)).2.1]
    rw [List.map_congr_left this, List.map_id]

theorem nodup_getElem_not_mem_take {α : Type} (M : List α) (hM : M.Nodup) (k : Nat) (x : α)
    (hk : M[k]? = some x) : x ∉ M.take k := by
  intro hmem
  obtain ⟨hlt, hx⟩ := List.getElem?_eq_some_iff.1 hk
  have hsplit := List.take_append_drop k M
  rw [List.drop_eq_getElem_cons hlt, hx] at hsplit
  rw [← hsplit] at hM
  have := (List.nodup_append.1 hM).2.2
  exact this hmem (List.mem_cons_self _ _)

/-- Parsing the rendering of a valid, non-empty set gives the set back. -/
theorem newTagsLoop_rendered (env : Env) (t : Tags) (ht : Valid env t) (hne : t ≠ []) :
    newTagsLoop env (renderedPieces t) [] = (t, none) := by
  have hmap := map_trimSpace_rendered env t ht.2 hne
  have hck : ∀ p ∈ renderedPieces t, CheckTag env (TrimSpace p) = none := by
    intro p hp
    have : TrimSpace p ∈ (renderedPieces t).map TrimSpace := List.mem_map_of_mem _ hp
    rw [hmap] at this
    exact (ht.2 _ this).2.2
  obtain ⟨k, hk, h1, h2, h3⟩ := newTagsLoop_spec env (renderedPieces t) [] strictAsc_nil hck
  have hnd := strictAsc_nodup t ht.1
  rcases h3 with ⟨herr, hkl⟩ | ⟨p, hp, _, hfail⟩
  · have hres : (newTagsLoop env (renderedPieces t) []).1 = t := by
      apply strictAsc_ext _ _ h1 ht.1
      intro x
      rw [h2 x, hkl, List.take_length, hmap]
      constructor
      · rintro (h | ⟨_, h⟩)
        · exact absurd h (List.not_mem_nil _)
        · exact h
      · intro h
        exact Or.inr ⟨(ht.2 x h).1, h⟩
    exact Prod.ext hres herr
  · exfalso
    have hpk : t[k]? = some (TrimSpace p) := by
      rw [← hmap, List.getElem?_map, hp]
      rfl
    have hpt : TrimSpace p ∈ t := List.getElem?_mem hpk
    rcases hfail with ⟨h, _⟩ | ⟨_, h, _⟩
    · exact (ht.2 _ hpt).1 h
    · rw [h2] at h
      rcases h with h | ⟨_, h⟩
      · exact absurd h (List.not_mem_nil _)
      · rw [List.map_take, hmap] at h
        exact nodup_getElem_not_mem_take t hnd k _ hpk h

/-- Function `NewTags` on the rendering of a valid set. -/
theorem newTags_joined (env : Env) (t : Tags) (ht : Valid env t)
    (hcomma : env.IsLetter 0x2C = false) (hcfg : env.TagStringMin < env.TagStringMax) :
    NewTags env (joined t) = (some t, none) := by
  unfold NewTags
  rw [checkTags_joined env t (fun e he => (ht.2 e he).2.2) hcfg]
  simp only
  by_cases hne : t = []
  · subst hne
    rw [if_neg (by simp [joined_nil])]
  · have hj : joined t ≠ [] := by
      cases t with
      | nil => exact absurd rfl hne
      | cons e r =>
        have he := (ht.2 e (List.mem_cons_self _ _)).1
        cases r with
        | nil => rw [joined_single]; exact he
        | cons e' r =>
          rw [joined_cons_cons]
          intro hnil
          have := List.append_eq_nil.1 hnil
          exact he (List.append_eq_nil.1 this.1).1
    rw [if_pos hj, split_rendered t (fun e he => comma_not_mem env e hcomma (ht.2 e he).2.2),
      newTagsLoop_rendered env t ht hne]

/-- Function `NewTags` on an accepted raw string is its loop over the pieces. -/
theorem newTags_eq_loop (env : Env) (s : GoString) (hs : CheckTags env s = none) :
    NewTags env s =
      (some (newTagsLoop env (Split s 0x2C) []).1, (newTagsLoop env (Split s 0x2C) []).2) := by
  unfold NewTags
  rw [hs]
  simp only
  by_cases hne : s = []
  · subst hne
    rw [if_neg (by simp)]
    rfl
  · rw [if_pos hne]

/-! ## `Same` -/

theorem sameLoop_iff (tags2 : Tags) : ∀ (l : List GoString) (i : Nat),
    sameLoop tags2 l i = true ↔ ∀ j, j < l.length → l.getD j [] = tags2.getD (i + j) [] := by
  intro l
  induction l with
  | nil => intro i; simp [sameLoop]
  | cons x l ih =>
    intro i
    simp only [sameLoop]
    by_cases hx : x = tags2.getD i []
    · rw [if_neg (by simp [hx]), ih]
      constructor
      · intro h j hj
        cases j with
        | zero => simpa using hx
        | succ j =>
          have := h j (by simp only [List.length_cons] at hj; omega)
          simp only [List.getD_cons_succ]
          rw [this]
          congr 1
          omega
      · intro h j hj
        have := h (j + 1) (by simp only [List.length_cons]; omega)
        simp only [List.getD_cons_succ] at this
        rw [this]
        congr 1
        omega
    · rw [if_pos (by simpa using hx)]
      constructor
      · intro h; exact absurd h (by simp)
      · intro h
        have := h 0 (by simp)
        simp only [List.getD_cons_zero, Nat.add_zero] at this
        exact absurd this hx

/-- Method `Same` is equality of the two sequences. -/
theorem same_iff_eq (a b : Tags) : Same a b = true ↔ a = b := by
  unfold Same
  simp only
  by_cases hlen : a.length = b.length
  · rw [if_neg (by simpa using hlen), sameLoop_iff]
    constructor
    · intro h
      apply List.ext_getElem hlen
      intro j h1 h2
      have := h j h1
      rw [List.getD_eq_getElem _ _ h1, Nat.zero_add, List.getD_eq_getElem _ _ h2] at this
      exact this
    · intro h j _
      rw [h, Nat.zero_add]
  · rw [if_pos (by simpa using hlen)]
    constructor
    · intro h; exact absurd h (by simp)
    · intro h; exact absurd (by rw [h]) hlen

/-! ## `Compare` and `Copy` -/

theorem compareLoop_eq (tr : Tags) : ∀ (l : List GoString) (count : Nat),
    compareLoop tr l count = count + l.countP (fun x => Exist tr x) := by
  intro l
  induction l with
  | nil => intro count; simp [compareLoop]
  | cons x l ih =>
    intro count
    simp only [compareLoop, List.countP_cons]
    rw [ih]
    cases Exist tr x
    · simp
    · simp; omega

/-- Method `Compare` counts the positions of `a` whose element is in `b`. -/
theorem compare_eq_countP (a b : Tags) (hb : StrictAsc b) :
    Compare a b = a.countP (fun x => decide (x ∈ b)) := by
  unfold Compare
  simp only
  rw [compareLoop_eq, Nat.zero_add]
  apply List.countP_congr
  intro x _
  simp only [decide_eq_true_eq]
  exact exist_iff_mem b x hb

/-- On strictly ascending sets `Compare` is the number of common elements. -/
theorem compare_eq_card (a b : Tags) (ha : StrictAsc a) (hb : StrictAsc b) :
    Compare a b = (a.toFinset ∩ b.toFinset).card := by
  rw [compare_eq_countP a b hb, List.countP_eq_length_filter,
    ← List.toFinset_card_of_nodup ((strictAsc_nodup a ha).filter _)]
  congr 1
  ext x
  simp [List.mem_filter]

theorem copy_some (t : Tags) : Copy (some t) = some t := by
  simp [Copy]

/-! ## When `TrimSpace` leaves something -/

/-- A white-space rune found at the end of `s` is what the forward decoder reads
at the start of the last `k` bytes. -/
theorem decodeLast_space_decode (s : GoString)
    (hsp : IsSpace (DecodeLastRuneInString s).1 = true) :
    DecodeRuneInString (s.drop (s.length - (DecodeLastRuneInString s).2)) =
      DecodeLastRuneInString s := by
  unfold DecodeLastRuneInString at hsp ⊢
  simp only at hsp ⊢
  by_cases hn : (s.length : Int) = 0
  · rw [if_pos hn] at hsp
    exact absurd hsp (by decide)
  · rw [if_neg hn] at hsp ⊢
    have hlen : 0 < s.length := by omega
    have hidx : ((s.length : Int) - 1).toNat = s.length - 1 := by omega
    rw [hidx] at hsp ⊢
    by_cases hr : s.getD (s.length - 1) 0 < RuneSelf
    · rw [if_pos hr] at hsp ⊢
      simp only
      have hd : s.drop (s.length - 1) = [s.getD (s.length - 1) 0] := by
        rw [List.drop_eq_getElem_cons (by omega : s.length - 1 < s.length),
          List.getD_eq_getElem _ _ (by omega : s.length - 1 < s.length)]
        congr 1
        rw [List.drop_eq_nil_iff]
        omega
      rw [hd]
      exact decode_ascii _ _ hr
    · rw [if_neg hr] at hsp ⊢
      generalize hX : (if lastRuneStart s (if (s.length : Int) - 4 < 0 then 0
          else (s.length : Int) - 4) 4 ((s.length : Int) - 1 - 1) < 0 then (0 : Int)
        else lastRuneStart s (if (s.length : Int) - 4 < 0 then 0
          else (s.length : Int) - 4) 4 ((s.length : Int) - 1 - 1)) = X at hsp ⊢
      have hX0 : 0 ≤ X := by
        rw [← hX]
        split <;> omega
      generalize hd : DecodeRuneInString
        (List.take ((s.length : Int) - X).toNat (List.drop X.toNat s)) = d at hsp ⊢
      by_cases hne : X + (d.2 : Int) ≠ (s.length : Int)
      · rw [if_pos hne] at hsp
        exact absurd hsp (by decide)
      · rw [if_neg hne] at hsp ⊢
        have heq : X + (d.2 : Int) = (s.length : Int) := not_not.1 hne
        have h1 : X.toNat = s.length - d.2 := by omega
        have h2 : ((s.length : Int) - X).toNat = d.2 := by omega
        have hslice : List.take ((s.length : Int) - X).toNat (List.drop X.toNat s) =
            s.drop (s.length - d.2) := by
          rw [h1, h2]
          apply List.take_of_length_le
          simp only [List.length_drop]
          omega
        rw [hslice] at hd
        exact hd

/-- If the right trimming drops everything, the string starts with white space. -/
theorem trimRight_nil_first : ∀ (n : Nat) (s : GoString), s.length ≤ n → s ≠ [] →
    trimRightLoop s.length s = [] → IsSpace (DecodeRuneInString s).1 = true := by
  intro n
  induction n with
  | zero =>
    intro s hs hne _
    exact absurd (List.length_eq_zero.1 (by omega)) hne
  | succ n ih =>
    intro s hs hne h
    rw [trimRight_step s hne] at h
    by_cases hsp : IsSpace (DecodeLastRuneInString s).1 = true
    · rw [if_pos hsp] at h
      obtain ⟨hk1, hk2, _⟩ := decodeLast_space s hsp
      have hdec := decodeLast_space_decode s hsp
      have hsplit := List.take_append_drop (s.length - (DecodeLastRuneInString s).2) s
      by_cases hpre : s.take (s.length - (DecodeLastRuneInString s).2) = []
      · rw [hpre, List.nil_append] at hsplit
        rw [hsplit] at hdec
        rw [hdec]
        exact hsp
      · have := ih _ (by simp only [List.length_take]; omega) hpre h
        have happ := decode_append_of_space _
          (s.drop (s.length - (DecodeLastRuneInString s).2)) hpre this
        rw [hsplit] at happ
        rw [happ]
        exact this
    · rw [if_neg hsp] at h
      exact absurd h hne

/-- The left trimming leaves something when the only white space among the runes
of the string is the space and some byte is not a space. -/
theorem trimLeft_ne_nil : ∀ (n : Nat) (s : GoString), s.length ≤ n →
    (∀ v ∈ runes s, IsSpace v = true → v = 0x20) → (∃ b ∈ s, b ≠ 0x20) →
    trimLeftLoop s.length s ≠ [] := by
  intro n
  induction n with
  | zero =>
    intro s hs _ hb
    have : s = [] := List.length_eq_zero.1 (by omega)
    subst this
    obtain ⟨b, hb, _⟩ := hb
    exact absurd hb (List.not_mem_nil _)
  | succ n ih =>
    intro s hs hws hb
    cases s with
    | nil =>
      obtain ⟨b, hb, _⟩ := hb
      exact absurd hb (List.not_mem_nil _)
    | cons c t =>
      rw [trimLeft_cons]
      by_cases hsp : IsSpace (DecodeRuneInString (c :: t)).1 = true
      · rw [if_pos hsp]
        have hv : (DecodeRuneInString (c :: t)).1 = 0x20 :=
          hws _ (by rw [runes_cons]; exact List.mem_cons_self _ _) hsp
        have hdec := decode_lt_runeSelf c t (by rw [hv]; decide)
        have hc : c = 0x20 := by
          rw [hdec] at hv
          exact hv
        rw [hdec]
        simp only [List.drop_succ_cons, List.drop_zero]
        apply ih t (by simp only [List.length_cons] at hs; omega)
        · intro v hvt
          apply hws v
          rw [runes_cons, hdec]
          exact List.mem_cons_of_mem _ hvt
        · obtain ⟨b, hbm, hbne⟩ := hb
          rcases List.mem_cons.1 hbm with h | h
          · rw [h, hc] at hbne
            exact absurd rfl hbne
          · exact ⟨b, h, hbne⟩
      · rw [if_neg hsp]
        exact List.cons_ne_nil _ _

/-- A string that is not made of spaces only keeps something under `TrimSpace`,
when the only white space among its runes is the space. -/
theorem trimSpace_ne_nil (s : GoString) (hws : ∀ v ∈ runes s, IsSpace v = true → v = 0x20)
    (htr : Trim s 0x20 ≠ []) : TrimSpace s ≠ [] := by
  have hb : ∃ b ∈ s, b ≠ 0x20 := by
    by_contra hc
    apply htr
    rw [trim_nil_iff]
    intro b hb
    by_contra hne
    exact hc ⟨b, hb, hne⟩
  have hl := trimLeft_ne_nil s.length s (le_refl _) hws hb
  obtain ⟨_, hfirst, _⟩ := trimLeft_spec s.length s (le_refl _)
  unfold TrimSpace
  simp only
  generalize trimLeftLoop s.length s = l at hl hfirst ⊢
  intro hnil
  have := trimRight_nil_first l.length l (le_refl _) hl hnil
  rcases hfirst with h | h
  · exact hl h
  · rw [this] at h
    exact absurd h (by simp)

/-- In a raw string accepted by `CheckTags` a piece that is not made of spaces
only keeps something under `TrimSpace`, when the white list holds no other white
space than the space. -/
theorem piece_trimSpace_ne_nil (env : Env) (s p : GoString)
    (hws : ∀ v, inTagWhitelist env v = true → IsSpace v = true → v = 0x20)
    (hs : checkTagsLoop env (runes s) = none) (hp : p ∈ Split s 0x2C)
    (htr : Trim p 0x20 ≠ []) : TrimSpace p ≠ [] := by
  apply trimSpace_ne_nil p _ htr
  intro v hv hsp
  obtain ⟨h1, h2⟩ := runes_piece s p hp v hv
  have := (checkTagsLoop_none env _).1 hs v h1
  simp only [inTagsWhitelist, Bool.or_eq_true, beq_iff_eq] at this
  rcases this with h | h
  · exact absurd h h2
  · exact hws v h hsp

/-! ## `NewTags` in terms of the non-empty trimmed pieces -/

theorem exists_first_repeat {α : Type} [DecidableEq α] : ∀ (L acc : List α), acc.Nodup →
    ¬ (acc ++ L).Nodup → ∃ pre x post, acc ++ L = pre ++ x :: post ∧ pre.Nodup ∧ x ∈ pre := by
  intro L
  induction L with
  | nil => intro acc h1 h2; rw [List.append_nil] at h2; exact absurd h1 h2
  | cons a L ih =>
    intro acc h1 h2
    by_cases ha : a ∈ acc
    · exact ⟨acc, a, L, rfl, h1, ha⟩
    · have h3 : (acc ++ [a]).Nodup := by
        rw [List.nodup_append]
        refine ⟨h1, List.nodup_singleton a, ?_⟩
        intro x hx hx'
        rw [List.mem_singleton] at hx'
        rw [hx'] at hx
        exact ha hx
      have := ih (acc ++ [a]) h3 (by simpa using h2)
      simpa using this

/-- The loop of `NewTags`, read on the list of the non-empty trimmed pieces: it
adds them in order and stops with the tag-exists error at the first one that is
already in the set. -/
theorem newTagsLoop_pieces (env : Env) : ∀ (P : List GoString) (t : Tags), StrictAsc t →
    (∀ p ∈ P, CheckTag env (TrimSpace p) = none) →
    (∀ p ∈ P, Trim p 0x20 ≠ [] → TrimSpace p ≠ []) →
    (∀ pre x post, (P.map TrimSpace).filter (fun x => x != []) = pre ++ x :: post →
      (∀ y ∈ pre, y ∉ t) → pre.Nodup → (x ∈ pre ∨ x ∈ t) →
      (newTagsLoop env P t).2 = some .tagExist ∧ StrictAsc (newTagsLoop env P t).1 ∧
        ∀ y, y ∈ (newTagsLoop env P t).1 ↔ y ∈ t ∨ y ∈ pre) ∧
    (((P.map TrimSpace).filter (fun x => x != [])).Nodup →
      (∀ y ∈ (P.map TrimSpace).filter (fun x => x != []), y ∉ t) →
      (newTagsLoop env P t).2 = none ∧ StrictAsc (newTagsLoop env P t).1 ∧
        ∀ y, y ∈ (newTagsLoop env P t).1 ↔
          y ∈ t ∨ y ∈ (P.map TrimSpace).filter (fun x => x != [])) := by
  intro P
  induction P with
  | nil =>
    intro t ht _ _
    refine ⟨?_, ?_⟩
    · intro pre x post h
      simp at h
    · intro _ _
      exact ⟨rfl, ht, fun y => by simp [newTagsLoop]⟩
  | cons p P ih =>
    intro t ht hck hne
    have hck' : ∀ q ∈ P, CheckTag env (TrimSpace q) = none :=
      fun q hq => hck q (List.mem_cons_of_mem _ hq)
    have hne' : ∀ q ∈ P, Trim q 0x20 ≠ [] → TrimSpace q ≠ [] :=
      fun q hq => hne q (List.mem_cons_of_mem _ hq)
    simp only [newTagsLoop, List.map_cons]
    by_cases htr : Trim p 0x20 = []
    · have h0 := trimSpace_of_trim_nil p htr
      have hL : List.filter (fun x => x != []) (TrimSpace p :: List.map TrimSpace P) =
          List.filter (fun x => x != []) (List.map TrimSpace P) := by
        rw [List.filter_cons, h0]
        simp
      rw [if_pos htr, hL]
      exact ih t ht hck' hne'
    · have h0 := hne p (List.mem_cons_self _ _) htr
      have hL : List.filter (fun x => x != []) (TrimSpace p :: List.map TrimSpace P) =
          TrimSpace p :: List.filter (fun x => x != []) (List.map TrimSpace P) := by
        rw [List.filter_cons]
        simp [h0]
      rw [if_neg htr, hL]
      rcases add_cases env t p ht (hck p (List.mem_cons_self _ _)) with
        ⟨h1, _⟩ | ⟨_, h2, h3⟩ | ⟨_, h2, h3⟩
      · exact absurd h1 h0
      · rw [h3]
        simp only
        refine ⟨?_, ?_⟩
        · intro pre x post hdec hpre _ _
          cases pre with
          | nil => exact ⟨trivial, ht, fun y => by simp⟩
          | cons a pre =>
            simp only [List.cons_append, List.cons.injEq] at hdec
            have := hpre a (List.mem_cons_self _ _)
            rw [← hdec.1] at this
            exact absurd h2 this
        · intro _ hall
          exact absurd h2 (hall _ (List.mem_cons_self _ _))
      · rw [h3]
        simp only
        have ht1 := splice_strictAsc (TrimSpace p) t ht
        obtain ⟨ih1, ih2⟩ := ih (splice (TrimSpace p) t) ht1 hck' hne'
        refine ⟨?_, ?_⟩
        · intro pre x post hdec hpre hnd hx
          cases pre with
          | nil =>
            simp only [List.nil_append, List.cons.injEq] at hdec
            rw [← hdec.1] at hx
            rcases hx with hx | hx
            · exact absurd hx (List.not_mem_nil _)
            · exact absurd hx h2
          | cons a pre =>
            simp only [List.cons_append, List.cons.injEq] at hdec
            obtain ⟨ha, hdec⟩ := hdec
            have hnd' := List.nodup_cons.1 hnd
            have := ih1 pre x post hdec
              (by
                intro y hy hy1
                rcases (mem_splice _ _ _).1 hy1 with h | h
                · rw [h, ha] at hy
                  exact hnd'.1 hy
                · exact hpre y (List.mem_cons_of_mem _ hy) h)
              hnd'.2
              (by
                rcases hx with hx | hx
                · rcases List.mem_cons.1 hx with h | h
                  · right
                    rw [h, ← ha]
                    exact (mem_splice _ _ _).2 (Or.inl rfl)
                  · exact Or.inl h
                · exact Or.inr ((mem_splice _ _ _).2 (Or.inr hx)))
            refine ⟨this.1, this.2.1, fun y => ?_⟩
            rw [this.2.2 y, mem_splice, List.mem_cons, ha]
            constructor
            · rintro ((h | h) | h)
              · exact Or.inr (Or.inl h)
              · exact Or.inl h
              · exact Or.inr (Or.inr h)
            · rintro (h | h | h)
              · exact Or.inl (Or.inr h)
              · exact Or.inl (Or.inl h)
              · exact Or.inr h
        · intro hnd hall
          have hnd' := List.nodup_cons.1 hnd
          have := ih2 hnd'.2
            (by
              intro y hy hy1
              rcases (mem_splice _ _ _).1 hy1 with h | h
              · rw [h] at hy
                exact hnd'.1 hy
              · exact hall y (List.mem_cons_of_mem _ hy) h)
          refine ⟨this.1, this.2.1, fun y => ?_⟩
          rw [this.2.2 y, mem_splice, List.mem_cons]
          constructor
          · rintro ((h | h) | h)
            · exact Or.inr (Or.inl h)
            · exact Or.inl h
            · exact Or.inr (Or.inr h)
          · rintro (h | h | h)
            · exact Or.inl (Or.inr h)
            · exact Or.inl (Or.inl h)
            · exact Or.inr h

/-- Function `NewTags` fails as soon as `CheckTags` does, and returns no set. -/
theorem newTags_of_checkTags_err (env : Env) (s : GoString) (h : CheckTags env s ≠ none) :
    NewTags env s = (none, CheckTags env s) := by
  unfold NewTags
  cases hc : CheckTags env s with
  | none => exact absurd hc h
  | some err => rfl

/-! ## `MergeFromStringSlice` -/

/-- Merging items that all trim to an acceptable tag: no error, and the set
holds what it held and the trimmed items. -/
theorem mergeLoop_ok (env : Env) : ∀ (l : List GoString) (t : Tags), StrictAsc t →
    (∀ x ∈ l, TrimSpace x ≠ [] ∧ CheckTag env (TrimSpace x) = none) →
    (mergeLoop env l t).2 = none ∧ StrictAsc (mergeLoop env l t).1 ∧
      ∀ y, y ∈ (mergeLoop env l t).1 ↔ y ∈ t ∨ y ∈ l.map TrimSpace := by
  intro l
  induction l with
  | nil => intro t ht _; exact ⟨rfl, ht, fun y => by simp [mergeLoop]⟩
  | cons e l ih =>
    intro t ht hl
    have he := hl e (List.mem_cons_self _ _)
    have hl' : ∀ x ∈ l, TrimSpace x ≠ [] ∧ CheckTag env (TrimSpace x) = none :=
      fun x hx => hl x (List.mem_cons_of_mem _ hx)
    simp only [mergeLoop, List.map_cons, List.mem_cons]
    rcases add_cases env t e ht he.2 with ⟨h1, _⟩ | ⟨_, h2, h3⟩ | ⟨_, h2, h3⟩
    · exact absurd h1 he.1
    · rw [h3]
      simp only [ne_eq, not_true_eq_false, if_false]
      obtain ⟨i1, i2, i3⟩ := ih t ht hl'
      refine ⟨i1, i2, fun y => ?_⟩
      rw [i3 y]
      constructor
      · rintro (h | h)
        · exact Or.inl h
        · exact Or.inr (Or.inr h)
      · rintro (h | h | h)
        · exact Or.inl h
        · rw [h]; exact Or.inl h2
        · exact Or.inr h
    · rw [h3]
      simp only
      obtain ⟨i1, i2, i3⟩ := ih _ (splice_strictAsc (TrimSpace e) t ht) hl'
      refine ⟨i1, i2, fun y => ?_⟩
      rw [i3 y, mem_splice]
      constructor
      · rintro ((h | h) | h)
        · exact Or.inr (Or.inl h)
        · exact Or.inl h
        · exact Or.inr (Or.inr h)
      · rintro (h | h | h)
        · exact Or.inl (Or.inr h)
        · exact Or.inl (Or.inl h)
        · exact Or.inr h

/-- The loop over a concatenation, when the first part raises no error. -/
theorem mergeLoop_append (env : Env) (rest : List GoString) : ∀ (pre : List GoString)
    (t : Tags), (mergeLoop env pre t).2 = none →
    mergeLoop env (pre ++ rest) t = mergeLoop env rest (mergeLoop env pre t).1 := by
  intro pre
  induction pre with
  | nil => intro t _; rfl
  | cons e pre ih =>
    intro t h
    simp only [List.cons_append, mergeLoop] at h ⊢
    rcases hadd : Add env t e with ⟨t1, _ | err⟩
    · rw [hadd] at h
      simp only at h ⊢
      exact ih t1 h
    · rw [hadd] at h
      simp only at h ⊢
      by_cases herr : err ≠ .tagExist
      · rw [if_pos herr] at h
        exact absurd h (by simp)
      · rw [if_neg herr] at h
        rw [if_neg herr, if_neg herr]
        exact ih t1 h

/-- The loop stops at an item that trims to nothing or fails `CheckTag`. -/
theorem mergeLoop_offending (env : Env) (t : Tags) (x : GoString) (post : List GoString)
    (hx : TrimSpace x = [] ∨ CheckTag env (TrimSpace x) ≠ none) :
    mergeLoop env (x :: post) t =
      (t, if TrimSpace x = [] then some .emptyString else CheckTag env (TrimSpace x)) := by
  have hadd : Add env t x =
      (t, if TrimSpace x = [] then some .emptyString else CheckTag env (TrimSpace x)) := by
    unfold Add
    simp only
    by_cases h1 : TrimSpace x = []
    · rw [if_pos h1, if_pos h1]
    · rw [if_neg h1, if_neg h1]
      rcases hx with hx | hx
      · exact absurd hx h1
      · cases hck : CheckTag env (TrimSpace x) with
        | none => exact absurd hck hx
        | some err => rfl
  simp only [mergeLoop]
  rw [hadd]
  by_cases h1 : TrimSpace x = []
  · simp [h1]
  · rcases hx with hx | hx
    · exact absurd hx h1
    · cases hck : CheckTag env (TrimSpace x) with
      | none => exact absurd hck hx
      | some err =>
        obtain ⟨c, hc⟩ := checkTag_err env _ err hck
        simp [h1, hc]

/-! ## The character carried by the invalid-tag-character error -/

/-- The loop of `CheckTag` fails at the first rune outside the white list and
carries its low byte. -/
theorem checkTagLoop_some (env : Env) : ∀ (rs : List Rune) (c : Nat),
    checkTagLoop env rs = some (.invalidTagChar c) ↔
      ∃ pre v post, rs = pre ++ v :: post ∧ (∀ u ∈ pre, inTagWhitelist env u = true) ∧
        inTagWhitelist env v = false ∧ c = v % 256 := by
  intro rs
  induction rs with
  | nil => intro c; simp [checkTagLoop]
  | cons r rs ih =>
    intro c
    simp only [checkTagLoop]
    have hcond : (!env.IsLetter r && !IsDigit env r && r != 0x20 && r != 0x2D && r != 0x5F
        && r != 0x2E && r != 0x2F && r != 0x3A) = !inTagWhitelist env r := by
      unfold inTagWhitelist
      exact not_and8 _ _ _ _ _ _ _ _
    rw [hcond]
    cases hr : inTagWhitelist env r with
    | true =>
      simp only [Bool.not_true, Bool.false_eq_true, if_false]
      rw [ih]
      constructor
      · rintro ⟨pre, v, post, h1, h2, h3, h4⟩
        refine ⟨r :: pre, v, post, by rw [h1]; rfl, ?_, h3, h4⟩
        intro u hu
        rcases List.mem_cons.1 hu with h | h
        · rw [h]; exact hr
        · exact h2 u h
      · rintro ⟨pre, v, post, h1, h2, h3, h4⟩
        cases pre with
        | nil =>
          simp only [List.nil_append, List.cons.injEq] at h1
          rw [h1.1, h3] at hr
          exact absurd hr (by simp)
        | cons a pre =>
          simp only [List.cons_append, List.cons.injEq] at h1
          exact ⟨pre, v, post, h1.2, fun u hu => h2 u (List.mem_cons_of_mem _ hu), h3, h4⟩
    | false =>
      simp only [Bool.not_false, if_true, Option.some.injEq, TagError.invalidTagChar.injEq]
      constructor
      · intro h
        exact ⟨[], r, rs, rfl, fun u hu => absurd hu (List.not_mem_nil _), hr, h.symm⟩
      · rintro ⟨pre, v, post, h1, h2, h3, h4⟩
        cases pre with
        | nil =>
          simp only [List.nil_append, List.cons.injEq] at h1
          rw [h4, h1.1]
        | cons a pre =>
          simp only [List.cons_append, List.cons.injEq] at h1
          have := h2 a (List.mem_cons_self _ _)
          rw [← h1.1, hr] at this
          exact absurd this (by simp)

/-! ## `CheckTags` -/

theorem checkTagsLoop_err (env : Env) (rs : List Rune) (err : TagError)
    (h : checkTagsLoop env rs = some err) : ∃ c, err = .invalidTagChar c := by
  induction rs with
  | nil => simp [checkTagsLoop] at h
  | cons v vs ih =>
    simp only [checkTagsLoop] at h
    split at h
    · exact ⟨v % 256, by injection h with h; exact h.symm⟩
    · exact ih h

theorem inTagsWhitelist_false (env : Env) (v : Rune) :
    inTagsWhitelist env v = false ↔ v ≠ 0x2C ∧ inTagWhitelist env v = false := by
  unfold inTagsWhitelist
  simp [Bool.or_eq_false_iff]

/-- The loop of `CheckTags` fails iff some rune is neither a comma nor on the
white list of `CheckTag`. -/
theorem checkTagsLoop_ne_none (env : Env) (rs : List Rune) :
    checkTagsLoop env rs ≠ none ↔ ∃ v ∈ rs, v ≠ 0x2C ∧ inTagWhitelist env v = false := by
  rw [Ne, checkTagsLoop_none]
  constructor
  · intro h
    by_contra hc
    apply h
    intro v hv
    cases hw : inTagsWhitelist env v with
    | true => rfl
    | false => exact absurd ⟨v, hv, (inTagsWhitelist_false env v).1 hw⟩ hc
  · rintro ⟨v, hv, h1⟩ hall
    have := (inTagsWhitelist_false env v).2 h1
    rw [hall v hv] at this
    exact absurd this (by simp)

/-- The length test of `CheckTags`, then its loop. -/
theorem checkTags_eq (env : Env) (raw : GoString) :
    CheckTags env raw =
      if (raw.length : Int) ≤ env.TagStringMin ∧ (raw.length : Int) ≥ env.TagStringMax then
        some .invalidTagsLength
      else checkTagsLoop env (runes raw) := rfl

/-! ## The example environment -/

/-- In `asciiEnv` the only white space on the white list is the space. -/
theorem asciiEnv_ws : ∀ v, inTagWhitelist asciiEnv v = true → IsSpace v = true → v = 0x20 := by
  intro v h1 h2
  unfold IsSpace at h2
  unfold inTagWhitelist IsDigit at h1
  simp only [asciiEnv] at h1
  unfold Rune at *
  split at h2
  · rename_i hle
    rw [if_pos hle] at h1
    simp only [Bool.or_eq_true, Bool.and_eq_true, decide_eq_true_eq, beq_iff_eq,
      Bool.false_eq_true, or_false] at h1 h2
    omega
  · rename_i hle
    rw [if_neg hle] at h1
    simp only [Bool.or_eq_true, Bool.and_eq_true, decide_eq_true_eq, beq_iff_eq,
      Bool.false_eq_true, or_false] at h1 h2
    omega

/-! ## The white list of `CheckTag`, spelled out -/

theorem inTagWhitelist_iff (env : Env) (v : Rune) :
    inTagWhitelist env v = true ↔
      env.IsLetter v = true ∨ IsDigit env v = true ∨ v = 0x20 ∨ v = 0x2D ∨ v = 0x5F ∨
        v = 0x2E ∨ v = 0x2F ∨ v = 0x3A := by
  unfold inTagWhitelist
  simp only [Bool.or_eq_true, beq_iff_eq]
  tauto

theorem isDigit_iff (env : Env) (v : Rune) :
    IsDigit env v = true ↔
      (0x30 ≤ v ∧ v ≤ 0x39) ∨ (0xFF < v ∧ env.digitTable v = true) := by
  unfold IsDigit
  unfold Rune at *
  split
  · rename_i h
    simp only [Bool.and_eq_true, decide_eq_true_eq]
    constructor
    · intro h1; exact Or.inl h1
    · rintro (h1 | h1)
      · exact h1
      · omega
  · rename_i h
    constructor
    · intro h1; exact Or.inr ⟨by omega, h1⟩
    · rintro (h1 | h1)
      · omega
      · exact h1.2

/-- In Latin-1 the white list of `CheckTag` is the one with the ASCII digits. -/
theorem specTagWhitelist_latin1 (env : Env) (v : Rune) (h : v ≤ 0xFF) :
    inTagWhitelist env v = specTagWhitelist env v := by
  unfold inTagWhitelist specTagWhitelist IsDigit
  rw [if_pos h]

theorem runes_single_ascii (c : Nat) (h : c < 0x80) : runes [c] = [c] := by
  rw [runes_ascii c [] h, runes_nil]

/-! ## Where the loop of `NewTags` stops -/

/-- The loop of `NewTags` over pieces whose trimmed forms pass `CheckTag` stops
at the first piece `k` that is not made of spaces only and whose trimmed form is
empty (empty-string error) or is already in the set or among the earlier
trimmed pieces (tag-exists error); no piece before `k` is such a piece, and
without such a piece the loop reaches the end with no error.  The result holds
what the set held and the non-empty trimmed pieces before `k`. -/
theorem newTagsLoop_stop (env : Env) : ∀ (P : List GoString) (t : Tags), StrictAsc t →
    (∀ p ∈ P, CheckTag env (TrimSpace p) = none) →
    ∃ k, k ≤ P.length ∧ StrictAsc (newTagsLoop env P t).1 ∧
      (∀ x, x ∈ (newTagsLoop env P t).1 ↔
        x ∈ t ∨ (x ≠ [] ∧ x ∈ (P.take k).map TrimSpace)) ∧
      (∀ i p, i < k → P[i]? = some p → Trim p 0x20 ≠ [] →
        TrimSpace p ≠ [] ∧ TrimSpace p ∉ t ∧ TrimSpace p ∉ (P.take i).map TrimSpace) ∧
      (((newTagsLoop env P t).2 = none ∧ k = P.length) ∨
        ∃ p, P[k]? = some p ∧ Trim p 0x20 ≠ [] ∧
          ((TrimSpace p = [] ∧ (newTagsLoop env P t).2 = some .emptyString) ∨
            (TrimSpace p ≠ [] ∧
              (TrimSpace p ∈ t ∨ TrimSpace p ∈ (P.take k).map TrimSpace) ∧
              (newTagsLoop env P t).2 = some .tagExist))) := by
  intro P
  induction P with
  | nil =>
    intro t ht _
    refine ⟨0, le_refl _, ht, fun x => by simp [newTagsLoop], ?_, Or.inl ⟨rfl, rfl⟩⟩
    intro i p hi
    exact absurd hi (Nat.not_lt_zero _)
  | cons p P ih =>
    intro t ht hP
    have hck := hP p (List.mem_cons_self _ _)
    have hP' : ∀ q ∈ P, CheckTag env (TrimSpace q) = none :=
      fun q hq => hP q (List.mem_cons_of_mem _ hq)
    simp only [newTagsLoop]
    by_cases htr : Trim p 0x20 = []
    · rw [if_pos htr]
      have h1 := trimSpace_of_trim_nil p htr
      obtain ⟨k, hk, i1, i2, i3, i4⟩ := ih t ht hP'
      refine ⟨k + 1, by simp only [List.length_cons]; omega, i1, fun x => ?_, ?_, ?_⟩
      · rw [i2 x, List.take_succ_cons, List.map_cons, List.mem_cons, h1]
        constructor
        · rintro (h | ⟨h, h'⟩)
          · exact Or.inl h
          · exact Or.inr ⟨h, Or.inr h'⟩
        · rintro (h | ⟨h, h' | h'⟩)
          · exact Or.inl h
          · exact absurd h' h
          · exact Or.inr ⟨h, h'⟩
      · intro i q hi hq hqtr
        cases i with
        | zero =>
          simp only [List.getElem?_cons_zero, Option.some.injEq] at hq
          rw [← hq] at hqtr
          exact absurd htr hqtr
        | succ j =>
          simp only [List.getElem?_cons_succ] at hq
          obtain ⟨g1, g2, g3⟩ := i3 j q (by omega) hq hqtr
          refine ⟨g1, g2, ?_⟩
          rw [List.take_succ_cons, List.map_cons, List.mem_cons, h1]
          rintro (h | h)
          · exact g1 h
          · exact g3 h
      · rcases i4 with ⟨h, h'⟩ | ⟨q, hq, hqtr, h⟩
        · exact Or.inl ⟨h, by simp [h']⟩
        · refine Or.inr ⟨q, by simpa using hq, hqtr, ?_⟩
          rcases h with h | ⟨g1, g2, g3⟩
          · exact Or.inl h
          · refine Or.inr ⟨g1, ?_, g3⟩
            rw [List.take_succ_cons, List.map_cons, List.mem_cons]
            rcases g2 with g2 | g2
            · exact Or.inl g2
            · exact Or.inr (Or.inr g2)
    · rw [if_neg htr]
      rcases add_cases env t p ht hck with ⟨h1, h3⟩ | ⟨h1, h2, h3⟩ | ⟨h1, h2, h3⟩
      · rw [h3]
        simp only
        refine ⟨0, Nat.zero_le _, ht, fun x => by simp, ?_,
          Or.inr ⟨p, by simp, htr, Or.inl ⟨h1, trivial⟩⟩⟩
        intro i q hi
        exact absurd hi (Nat.not_lt_zero _)
      · rw [h3]
        simp only
        refine ⟨0, Nat.zero_le _, ht, fun x => by simp, ?_,
          Or.inr ⟨p, by simp, htr, Or.inr ⟨h1, Or.inl h2, trivial⟩⟩⟩
        intro i q hi
        exact absurd hi (Nat.not_lt_zero _)
      · rw [h3]
        simp only
        obtain ⟨k, hk, i1, i2, i3, i4⟩ :=
          ih _ (splice_strictAsc (TrimSpace p) t ht) hP'
        refine ⟨k + 1, by simp only [List.length_cons]; omega, i1, fun x => ?_, ?_, ?_⟩
        · rw [i2 x, mem_splice, List.take_succ_cons, List.map_cons, List.mem_cons]
          constructor
          · rintro ((h | h) | ⟨h, h'⟩)
            · exact Or.inr ⟨by rw [h]; exact h1, Or.inl h⟩
            · exact Or.inl h
            · exact Or.inr ⟨h, Or.inr h'⟩
          · rintro (h | ⟨h, h' | h'⟩)
            · exact Or.inl (Or.inr h)
            · exact Or.inl (Or.inl h')
            · exact Or.inr ⟨h, h'⟩
        · intro i q hi hq hqtr
          cases i with
          | zero =>
            simp only [List.getElem?_cons_zero, Option.some.injEq] at hq
            rw [← hq]
            exact ⟨h1, h2, by simp⟩
          | succ j =>
            simp only [List.getElem?_cons_succ] at hq
            obtain ⟨g1, g2, g3⟩ := i3 j q (by omega) hq hqtr
            refine ⟨g1, fun h => g2 ((mem_splice _ _ _).2 (Or.inr h)), ?_⟩
            rw [List.take_succ_cons, List.map_cons, List.mem_cons]
            rintro (h | h)
            · exact g2 ((mem_splice _ _ _).2 (Or.inl h))
            · exact g3 h
        · rcases i4 with ⟨h, h'⟩ | ⟨q, hq, hqtr, h⟩
          · exact Or.inl ⟨h, by simp [h']⟩
          · refine Or.inr ⟨q, by simpa using hq, hqtr, ?_⟩
            rcases h with h | ⟨g1, g2, g3⟩
            · exact Or.inl h
            · refine Or.inr ⟨g1, ?_, g3⟩
              rw [List.take_succ_cons, List.map_cons, List.mem_cons]
              rcases g2 with g2 | g2
              · rcases (mem_splice _ _ _).1 g2 with g | g
                · exact Or.inr (Or.inl g)
                · exact Or.inl g
              · exact Or.inr (Or.inr g2)

/-! ## Claims C1 to C6 -/

/-- C1 (sort invariant): starting from the empty set, after any finite sequence
of `Add`, `Remove`, `Replace`, `Merge` and `MergeFromStringSlice` calls with
arbitrary arguments, failed calls included, the stored elements are strictly
ascending in byte-wise order, hence without duplicates, and every element is
non-empty, has no leading or trailing white space and passes `CheckTag`. -/
theorem C1_sort_invariant (env : Env) (ops : List Op) :
    StrictAsc (runOps env ops) ∧ (runOps env ops).Nodup ∧
      ∀ e ∈ runOps env ops, e ≠ [] ∧ Trimmed e ∧ CheckTag env e = none := by
  have h := foldl_applyOp_valid env ops [] (valid_nil env)
  exact ⟨h.1, strictAsc_nodup _ h.1, h.2⟩

/-- C2 (`Add` success): on a strictly ascending set `t`, for a tag whose trimmed
form `x` is non-empty, passes `CheckTag` and is not in `t`, `Add` returns no
error and the new sequence is (elements of `t` below `x`), `x`, (elements of `t`
above `x`): `x` stands at the first position whose element is `>= x`, the old
elements are kept in their order and the length grows by one.  Adding
`"zz z"`, `"cc c"`, `"ii i"`, `"aa a"` to the empty set renders as
`"aa a, cc c, ii i, zz z"`. -/
theorem C2_add_success (env : Env) (t : Tags) (tag : GoString) (ht : StrictAsc t)
    (hne : TrimSpace tag ≠ []) (hck : CheckTag env (TrimSpace tag) = none)
    (hnot : TrimSpace tag ∉ t) :
    Add env t tag =
      (t.filter (fun a => strLt a (TrimSpace tag)) ++ [TrimSpace tag] ++
        t.filter (fun a => strLt (TrimSpace tag) a), none) ∧
    (∃ i, i ≤ t.length ∧ (∀ k, k < i → strLt (t.getD k []) (TrimSpace tag) = true) ∧
      (∀ k, i ≤ k → k < t.length → strLt (t.getD k []) (TrimSpace tag) = false) ∧
      (Add env t tag).1 = t.take i ++ TrimSpace tag :: t.drop i) ∧
    List.Sublist t (Add env t tag).1 ∧
    (Add env t tag).1.length = t.length + 1 ∧
    StrictAsc (Add env t tag).1 ∧
    ((∀ r, 0x61 ≤ r → r ≤ 0x7A → env.IsLetter r = true) →
      Get (some (Add env (Add env (Add env (Add env [] [0x7A, 0x7A, 0x20, 0x7A]).1
        [0x63, 0x63, 0x20, 0x63]).1 [0x69, 0x69, 0x20, 0x69]).1 [0x61, 0x61, 0x20, 0x61]).1) =
      [0x61, 0x61, 0x20, 0x61, 0x2C, 0x20, 0x63, 0x63, 0x20, 0x63, 0x2C, 0x20,
        0x69, 0x69, 0x20, 0x69, 0x2C, 0x20, 0x7A, 0x7A, 0x20, 0x7A]) := by
  have hadd : Add env t tag = (splice (TrimSpace tag) t, none) := by
    rw [add_eq env t tag ht, if_neg hne, hck]
    simp only
    rw [if_neg hnot]
  refine ⟨?_, ?_, ?_, ?_, ?_, ?_⟩
  · rw [hadd]; simp [splice]
  · refine ⟨SearchStrings t (TrimSpace tag), (searchStrings_spec t _ ht).1,
      (searchStrings_spec t _ ht).2.1, (searchStrings_spec t _ ht).2.2, ?_⟩
    rw [hadd]
    simp only [splice]
    rw [drop_search_eq_above t _ ht hnot, searchStrings_take_eq t _ ht]
  · rw [hadd]
    simp only
    conv_lhs => rw [← List.take_append_drop (SearchStrings t (TrimSpace tag)) t]
    simp only [splice]
    rw [← drop_search_eq_above t _ ht hnot, ← searchStrings_take_eq t _ ht]
    exact List.Sublist.append (List.Sublist.refl _) (List.sublist_cons_self _ _)
  · rw [hadd]; exact splice_length _ t hnot
  · rw [hadd]; exact splice_strictAsc _ t ht
  · intro hl
    have hz := hl 0x7A (by decide) (by decide)
    have hc := hl 0x63 (by decide) (by decide)
    have hi := hl 0x69 (by decide) (by decide)
    have ha := hl 0x61 (by decide) (by decide)
    have e1 : Add env [] [0x7A, 0x7A, 0x20, 0x7A] = ([[0x7A, 0x7A, 0x20, 0x7A]], none) := by
      rw [add_eq env _ _ (by decide)]
      have ht : TrimSpace [0x7A, 0x7A, 0x20, 0x7A] = [0x7A, 0x7A, 0x20, 0x7A] := by decide
      have hr : runes [0x7A, 0x7A, 0x20, 0x7A] = [0x7A, 0x7A, 0x20, 0x7A] := by decide
      have hk : CheckTag env [0x7A, 0x7A, 0x20, 0x7A] = none := by
        unfold CheckTag
        rw [hr]
        simp [checkTagLoop, hz]
      rw [ht, if_neg (by decide), hk]
      decide
    have e2 : Add env [[0x7A, 0x7A, 0x20, 0x7A]] [0x63, 0x63, 0x20, 0x63] =
        ([[0x63, 0x63, 0x20, 0x63], [0x7A, 0x7A, 0x20, 0x7A]], none) := by
      rw [add_eq env _ _ (by decide)]
      have ht : TrimSpace [0x63, 0x63, 0x20, 0x63] = [0x63, 0x63, 0x20, 0x63] := by decide
      have hr : runes [0x63, 0x63, 0x20, 0x63] = [0x63, 0x63, 0x20, 0x63] := by decide
      have hk : CheckTag env [0x63, 0x63, 0x20, 0x63] = none := by
        unfold CheckTag
        rw [hr]
        simp [checkTagLoop, hc]
      rw [ht, if_neg (by decide), hk]
      decide
    have e3 : Add env [[0x63, 0x63, 0x20, 0x63], [0x7A, 0x7A, 0x20, 0x7A]]
        [0x69, 0x69, 0x20, 0x69] =
        ([[0x63, 0x63, 0x20, 0x63], [0x69, 0x69, 0x20, 0x69], [0x7A, 0x7A, 0x20, 0x7A]],
          none) := by
      rw [add_eq env _ _ (by decide)]
      have ht : TrimSpace [0x69, 0x69, 0x20, 0x69] = [0x69, 0x69, 0x20, 0x69] := by decide
      have hr : runes [0x69, 0x69, 0x20, 0x69] = [0x69, 0x69, 0x20, 0x69] := by decide
      have hk : CheckTag env [0x69, 0x69, 0x20, 0x69] = none := by
        unfold CheckTag
        rw [hr]
        simp [checkTagLoop, hi]
      rw [ht, if_neg (by decide), hk]
      decide
    have e4 : Add env [[0x63, 0x63, 0x20, 0x63], [0x69, 0x69, 0x20, 0x69],
        [0x7A, 0x7A, 0x20, 0x7A]] [0x61, 0x61, 0x20, 0x61] =
        ([[0x61, 0x61, 0x20, 0x61], [0x63, 0x63, 0x20, 0x63], [0x69, 0x69, 0x20, 0x69],
          [0x7A, 0x7A, 0x20, 0x7A]], none) := by
      rw [add_eq env _ _ (by decide)]
      have ht : TrimSpace [0x61, 0x61, 0x20, 0x61] = [0x61, 0x61, 0x20, 0x61] := by decide
      have hr : runes [0x61, 0x61, 0x20, 0x61] = [0x61, 0x61, 0x20, 0x61] := by decide
      have hk : CheckTag env [0x61, 0x61, 0x20, 0x61] = none := by
        unfold CheckTag
        rw [hr]
        simp [checkTagLoop, ha]
      rw [ht, if_neg (by decide), hk]
      decide
    rw [e1, e2, e3, e4]
    decide

/-- Witness of C2: adding `" b "` to the set `a, c` under `asciiEnv`. -/
theorem C2_add_success_witness :
    Add asciiEnv [[0x61], [0x63]] [0x20, 0x62, 0x20] =
      ([[0x61], [0x63]].filter (fun a => strLt a (TrimSpace [0x20, 0x62, 0x20])) ++
        [TrimSpace [0x20, 0x62, 0x20]] ++
        [[0x61], [0x63]].filter (fun a => strLt (TrimSpace [0x20, 0x62, 0x20]) a), none) :=
  (C2_add_success asciiEnv [[0x61], [0x63]] [0x20, 0x62, 0x20] (by decide) (by decide)
    (by decide) (by decide)).1

/-- C3 (`Add` failure): on a strictly ascending set, `Add` fails with the
empty-string error iff the trimmed tag is empty; otherwise it fails with the
invalid-tag-character error iff the trimmed tag fails `CheckTag` (and the error
is the one of `CheckTag`); otherwise it fails with the tag-exists error iff the
trimmed tag is an element of the set; a failing call leaves the set as it was. -/
theorem C3_add_failure (env : Env) (t : Tags) (tag : GoString) (ht : StrictAsc t) :
    ((Add env t tag).2 = some .emptyString ↔ TrimSpace tag = []) ∧
    (TrimSpace tag ≠ [] →
      (((∃ c, (Add env t tag).2 = some (.invalidTagChar c)) ↔
          CheckTag env (TrimSpace tag) ≠ none) ∧
        (CheckTag env (TrimSpace tag) ≠ none →
          (Add env t tag).2 = CheckTag env (TrimSpace tag)))) ∧
    (TrimSpace tag ≠ [] → CheckTag env (TrimSpace tag) = none →
      ((Add env t tag).2 = some .tagExist ↔ TrimSpace tag ∈ t)) ∧
    ((Add env t tag).2 ≠ none → (Add env t tag).1 = t) := by
  refine ⟨?_, ?_, ?_, add_err_unchanged env t tag⟩
  · rw [add_eq env t tag ht]
    by_cases h1 : TrimSpace tag = []
    · rw [if_pos h1]; simp [h1]
    · rw [if_neg h1]
      cases hck : CheckTag env (TrimSpace tag) with
      | some err =>
        obtain ⟨c, hc⟩ := checkTag_err env _ err hck
        simp [hc, h1]
      | none =>
        simp only
        split <;> simp [h1]
  · intro h1
    rw [add_eq env t tag ht, if_neg h1]
    cases hck : CheckTag env (TrimSpace tag) with
    | some err =>
      obtain ⟨c, hc⟩ := checkTag_err env _ err hck
      simp [hc]
    | none =>
      simp only
      split <;> simp
  · intro h1 hck
    rw [add_eq env t tag ht, if_neg h1, hck]
    simp only
    split
    · rename_i hmem; simp [hmem]
    · rename_i hmem; simp [hmem]

/-- Witness of C3: adding `"a"` to the set `a, c` under `asciiEnv`. -/
theorem C3_add_failure_witness :
    (Add asciiEnv [[0x61], [0x63]] [0x61]).2 = some .tagExist ↔
      TrimSpace [0x61] ∈ [[0x61], [0x63]] :=
  (C3_add_failure asciiEnv [[0x61], [0x63]] [0x61] (by decide)).2.2.1 (by decide) (by decide)

/-- C4 (`Exist` is membership): on a strictly ascending set `t`, `Exist(x)` is
true iff `x` is, byte for byte and without trimming, an element of `t`; on the
empty set it is false for every `x`. -/
theorem C4_exist_mem (t : Tags) (x : GoString) (ht : StrictAsc t) :
    (Exist t x = true ↔ x ∈ t) ∧ Exist [] x = false := by
  refine ⟨exist_iff_mem t x ht, ?_⟩
  cases h : Exist [] x with
  | false => rfl
  | true =>
    have := (exist_iff_mem [] x strictAsc_nil).1 h
    exact absurd this (List.not_mem_nil _)

/-- Witness of C4: looking for `"c"` in the set `a, c`. -/
theorem C4_exist_mem_witness :
    (Exist [[0x61], [0x63]] [0x63] = true ↔ [0x63] ∈ [[0x61], [0x63]]) ∧
      Exist [] [0x63] = false :=
  C4_exist_mem [[0x61], [0x63]] [0x63] (by decide)

/-- C5 (`Remove`): on a strictly ascending set `t`, if `x` is an element of `t`
then `Remove(x)` returns no error and the new sequence is `t` with that one
element deleted and all other elements in their order; if `x` is not an element
of `t` (for instance `t` is empty) it fails with the tag-not-found error and
leaves `t` as it was. -/
theorem C5_remove (t : Tags) (x : GoString) (ht : StrictAsc t) :
    (x ∈ t → ∃ l₁ l₂, t = l₁ ++ x :: l₂ ∧ x ∉ l₁ ∧ x ∉ l₂ ∧
      Remove t x = (l₁ ++ l₂, none)) ∧
    (x ∉ t → Remove t x = (t, some .tagNotFound)) ∧
    Remove [] x = ([], some .tagNotFound) := by
  refine ⟨?_, ?_, ?_⟩
  · intro hx
    obtain ⟨l₁, l₂, h1, h2, h3⟩ := List.exists_erase_eq hx
    refine ⟨l₁, l₂, h2, h1, ?_, ?_⟩
    · have hnd := strictAsc_nodup t ht
      rw [h2] at hnd
      have := (List.nodup_append.1 hnd).2.1
      exact (List.nodup_cons.1 this).1
    · rw [remove_eq t x ht, if_pos hx, h3]
  · intro hx
    rw [remove_eq t x ht, if_neg hx]
  · rw [remove_eq [] x strictAsc_nil, if_neg (List.not_mem_nil _)]

/-- Witness of C5: removing `"c"` from the set `a, c`. -/
theorem C5_remove_witness :
    ∃ l₁ l₂, [[0x61], [0x63]] = l₁ ++ [0x63] :: l₂ ∧ [0x63] ∉ l₁ ∧ [0x63] ∉ l₂ ∧
      Remove [[0x61], [0x63]] [0x63] = (l₁ ++ l₂, none) :=
  (C5_remove [[0x61], [0x63]] [0x63] (by decide)).1 (by decide)

/-- C6 (`Get` rendering): `Get()` is the elements in stored order joined by the
two bytes `", "`, with no leading or trailing separator; the empty set and the
nil set render to the empty string, a one-element set renders to that element,
and `String()` returns what `Get()` returns. -/
theorem C6_get_rendering (t : Tags) :
    Get (some t) = List.intercalate [0x2C, 0x20] t ∧
    Get none = [] ∧ Get (some []) = [] ∧ (∀ e, Get (some [e]) = e) ∧
    (∀ a b r, Get (some (a :: b :: r)) = a ++ [0x2C, 0x20] ++ Get (some (b :: r))) ∧
    (∀ o, String o = Get o) := by
  refine ⟨get_eq t, rfl, rfl, ?_, ?_, fun _ => rfl⟩
  · intro e
    rw [get_eq, joined_single]
  · intro a b r
    rw [get_eq, get_eq, joined_cons_cons]
    rfl

/-! ## Claims C7 to C10 -/

/-- C7 (idempotent re-serialization): for every valid set `t` (strictly
ascending, every element non-empty, trimmed and passing `CheckTag`),
`NewTags(Get(t))` returns no error and a set that is `Same` as `t`, so rendering
it gives `Get(t)` again; `NewTags("a, b, c, d").Get()` is `"a, b, c, d"`.  The
comma is taken not to be a letter and the configured minimum to be below the
configured maximum, as with the default values. -/
theorem C7_reserialization (env : Env) (t : Tags) (ht : Valid env t)
    (hcomma : env.IsLetter 0x2C = false) (hcfg : env.TagStringMin < env.TagStringMax) :
    (∃ t', NewTags env (Get (some t)) = (some t', none) ∧ Same t' t = true) ∧
    Get (NewTags env (Get (some t))).1 = Get (some t) ∧
    Get (NewTags asciiEnv [0x61, 0x2C, 0x20, 0x62, 0x2C, 0x20, 0x63, 0x2C, 0x20, 0x64]).1 = [0x61, 0x2C, 0x20, 0x62, 0x2C, 0x20, 0x63, 0x2C, 0x20, 0x64] := by
  have h := newTags_joined env t ht hcomma hcfg
  rw [get_eq]
  refine ⟨⟨t, h, (same_iff_eq t t).2 rfl⟩, ?_, by decide⟩
  rw [h, get_eq]

/-- Witness of C7: the set `a, b` under `asciiEnv`. -/
theorem C7_reserialization_witness :
    Get (NewTags asciiEnv (Get (some [[0x61], [0x62]]))).1 = Get (some [[0x61], [0x62]]) :=
  (C7_reserialization asciiEnv [[0x61], [0x62]] (by decide) (by decide) (by decide)).2.1

/-- C8, as stated, fails on `"b,b,a"`: the raw string is accepted by
`CheckTags`, the ascending list of its trimmed pieces without repetition is
`a, b`, yet `NewTags` stops at the second `b` and the returned set renders
as `"b"`. -/
theorem C8_counterexample :
    CheckTags asciiEnv [0x62, 0x2C, 0x62, 0x2C, 0x61] = none ∧
    ¬ ∃ c : Tags, StrictAsc c ∧
      (∀ x, x ∈ c ↔ x ≠ [] ∧ x ∈ (Split [0x62, 0x2C, 0x62, 0x2C, 0x61] 0x2C).map TrimSpace) ∧
      Get (NewTags asciiEnv [0x62, 0x2C, 0x62, 0x2C, 0x61]).1 = List.intercalate [0x2C, 0x20] c := by
  refine ⟨by decide, ?_⟩
  rintro ⟨c, hc, hm, hg⟩
  have hpieces : (Split [0x62, 0x2C, 0x62, 0x2C, 0x61] 0x2C).map TrimSpace = [[0x62], [0x62], [0x61]] := by decide
  have hcab : c = [[0x61], [0x62]] := by
    apply strictAsc_ext c _ hc (by decide)
    intro x
    rw [hm, hpieces]
    simp only [List.mem_cons, List.mem_singleton, List.not_mem_nil, or_false]
    constructor
    · rintro ⟨_, h | h | h⟩
      · exact Or.inr h
      · exact Or.inr h
      · exact Or.inl h
    · rintro (h | h)
      · exact ⟨by rw [h]; simp, Or.inr (Or.inr h)⟩
      · exact ⟨by rw [h]; simp, Or.inl h⟩
  rw [hcab] at hg
  exact absurd hg (by decide)

/-- C8 (canonical form after `NewTags`), amended: for a raw string `s` accepted
by `CheckTags`, `NewTags(s)` returns a set.  It handles the comma-separated
pieces of `s` in order, skipping the pieces made of spaces only, and stops at
the first other piece whose trimmed form equals the trimmed form of an earlier
piece, with the tag-exists error (or whose trimmed form is empty, with the
empty-string error); no piece before that one is such a piece, and without such
a piece it handles all the pieces and returns no error.  `Get` of the returned
set is the `", "`-join of the ascending list of the non-empty trimmed pieces
before the stop.  So `"tag3, tag1, tag2"` gives `"tag1, tag2, tag3"` and no
error, `"tag1, tag2, tag2"` gives `"tag1, tag2"` and the tag-exists error,
`"tag1, tag2, tag3, "` gives `"tag1, tag2, tag3"`, `","` gives `""`, and
`"b,b,a"` gives `"b"` and the tag-exists error. -/
theorem C8_newTags_canonical (env : Env) (s : GoString) (hs : CheckTags env s = none) :
    (∃ t k, (NewTags env s).1 = some t ∧ k ≤ (Split s 0x2C).length ∧ StrictAsc t ∧
      (∀ x, x ∈ t ↔ x ≠ [] ∧ x ∈ ((Split s 0x2C).take k).map TrimSpace) ∧
      Get (NewTags env s).1 = List.intercalate [0x2C, 0x20] t ∧
      (∀ i p, i < k → (Split s 0x2C)[i]? = some p → Trim p 0x20 ≠ [] →
        TrimSpace p ≠ [] ∧ TrimSpace p ∉ ((Split s 0x2C).take i).map TrimSpace) ∧
      (((NewTags env s).2 = none ∧ k = (Split s 0x2C).length) ∨
        ∃ p, (Split s 0x2C)[k]? = some p ∧ Trim p 0x20 ≠ [] ∧
          ((TrimSpace p = [] ∧ (NewTags env s).2 = some .emptyString) ∨
            (TrimSpace p ≠ [] ∧ TrimSpace p ∈ ((Split s 0x2C).take k).map TrimSpace ∧
              (NewTags env s).2 = some .tagExist)))) ∧
    NewTags asciiEnv [0x74, 0x61, 0x67, 0x33, 0x2C, 0x20, 0x74, 0x61, 0x67, 0x31, 0x2C, 0x20, 0x74, 0x61, 0x67, 0x32] =
      (some [[0x74, 0x61, 0x67, 0x31], [0x74, 0x61, 0x67, 0x32], [0x74, 0x61, 0x67, 0x33]], none) ∧
    NewTags asciiEnv [0x74, 0x61, 0x67, 0x31, 0x2C, 0x20, 0x74, 0x61, 0x67, 0x32, 0x2C, 0x20, 0x74, 0x61, 0x67, 0x32] =
      (some [[0x74, 0x61, 0x67, 0x31], [0x74, 0x61, 0x67, 0x32]], some .tagExist) ∧
    NewTags asciiEnv [0x74, 0x61, 0x67, 0x31, 0x2C, 0x20, 0x74, 0x61, 0x67, 0x32, 0x2C, 0x20, 0x74, 0x61, 0x67, 0x33, 0x2C, 0x20] =
      (some [[0x74, 0x61, 0x67, 0x31], [0x74, 0x61, 0x67, 0x32], [0x74, 0x61, 0x67, 0x33]], none) ∧
    NewTags asciiEnv [0x2C] =
      (some [], none) ∧
    NewTags asciiEnv [0x62, 0x2C, 0x62, 0x2C, 0x61] =
      (some [[0x62]], some .tagExist) ∧
    Get (NewTags asciiEnv [0x74, 0x61, 0x67, 0x33, 0x2C, 0x20, 0x74, 0x61, 0x67, 0x31, 0x2C, 0x20, 0x74, 0x61, 0x67, 0x32]).1 =
      [0x74, 0x61, 0x67, 0x31, 0x2C, 0x20, 0x74, 0x61, 0x67, 0x32, 0x2C, 0x20, 0x74, 0x61, 0x67, 0x33] ∧
    Get (NewTags asciiEnv [0x74, 0x61, 0x67, 0x31, 0x2C, 0x20, 0x74, 0x61, 0x67, 0x32, 0x2C, 0x20, 0x74, 0x61, 0x67, 0x32]).1 =
      [0x74, 0x61, 0x67, 0x31, 0x2C, 0x20, 0x74, 0x61, 0x67, 0x32] ∧
    Get (NewTags asciiEnv [0x74, 0x61, 0x67, 0x31, 0x2C, 0x20, 0x74, 0x61, 0x67, 0x32, 0x2C, 0x20, 0x74, 0x61, 0x67, 0x33, 0x2C, 0x20]).1 =
      [0x74, 0x61, 0x67, 0x31, 0x2C, 0x20, 0x74, 0x61, 0x67, 0x32, 0x2C, 0x20, 0x74, 0x61, 0x67, 0x33] ∧
    Get (NewTags asciiEnv [0x2C]).1 =
      [] := by
  refine ⟨?_, by decide, by decide, by decide, by decide, by decide, by decide, by decide,
    by decide, by decide⟩
  rw [newTags_eq_loop env s hs]
  have hck : ∀ p ∈ Split s 0x2C, CheckTag env (TrimSpace p) = none :=
    fun p hp => checkTag_piece env s p (checkTags_loop_of_none env s hs) hp
  obtain ⟨k, hk, h1, h2, h3, h4⟩ := newTagsLoop_stop env (Split s 0x2C) [] strictAsc_nil hck
  refine ⟨(newTagsLoop env (Split s 0x2C) []).1, k, rfl, hk, h1, ?_, get_eq _, ?_, ?_⟩
  · intro x
    rw [h2 x]
    constructor
    · rintro (h | h)
      · exact absurd h (List.not_mem_nil _)
      · exact h
    · intro h; exact Or.inr h
  · intro i p hi hp htr
    obtain ⟨g1, _, g3⟩ := h3 i p hi hp htr
    exact ⟨g1, g3⟩
  · rcases h4 with h | ⟨p, hp, htr, h⟩
    · exact Or.inl h
    · refine Or.inr ⟨p, hp, htr, ?_⟩
      rcases h with h | ⟨g1, g2, g3⟩
      · exact Or.inl h
      · refine Or.inr ⟨g1, ?_, g3⟩
        rcases g2 with g2 | g2
        · exact absurd g2 (List.not_mem_nil _)
        · exact g2

/-- Witness of C8: the raw string `"b,b,a"` under `asciiEnv`. -/
theorem C8_newTags_canonical_witness :
    ∃ t k, (NewTags asciiEnv [0x62, 0x2C, 0x62, 0x2C, 0x61]).1 = some t ∧ k ≤ (Split [0x62, 0x2C, 0x62, 0x2C, 0x61] 0x2C).length ∧
      StrictAsc t ∧
      (∀ x, x ∈ t ↔ x ≠ [] ∧ x ∈ ((Split [0x62, 0x2C, 0x62, 0x2C, 0x61] 0x2C).take k).map TrimSpace) ∧
      Get (NewTags asciiEnv [0x62, 0x2C, 0x62, 0x2C, 0x61]).1 = List.intercalate [0x2C, 0x20] t ∧
      (∀ i p, i < k → (Split [0x62, 0x2C, 0x62, 0x2C, 0x61] 0x2C)[i]? = some p → Trim p 0x20 ≠ [] →
        TrimSpace p ≠ [] ∧ TrimSpace p ∉ ((Split [0x62, 0x2C, 0x62, 0x2C, 0x61] 0x2C).take i).map TrimSpace) ∧
      (((NewTags asciiEnv [0x62, 0x2C, 0x62, 0x2C, 0x61]).2 = none ∧ k = (Split [0x62, 0x2C, 0x62, 0x2C, 0x61] 0x2C).length) ∨
        ∃ p, (Split [0x62, 0x2C, 0x62, 0x2C, 0x61] 0x2C)[k]? = some p ∧ Trim p 0x20 ≠ [] ∧
          ((TrimSpace p = [] ∧ (NewTags asciiEnv [0x62, 0x2C, 0x62, 0x2C, 0x61]).2 = some .emptyString) ∨
            (TrimSpace p ≠ [] ∧
              TrimSpace p ∈ ((Split [0x62, 0x2C, 0x62, 0x2C, 0x61] 0x2C).take k).map TrimSpace ∧
              (NewTags asciiEnv [0x62, 0x2C, 0x62, 0x2C, 0x61]).2 = some .tagExist))) :=
  (C8_newTags_canonical asciiEnv [0x62, 0x2C, 0x62, 0x2C, 0x61] (by decide)).1

/-- C9 (`Replace` canonicalisation): for every set `t`, whatever it held, and
every raw string `s` accepted by `CheckTags`, `Replace(s)` returns no error and
afterwards `t` holds exactly the ascending list, without repetition, of the
non-empty trimmed comma-separated pieces of `s`; repeated and empty pieces are
skipped.  `Get` then yields the results of the table `Tests`. -/
theorem C9_replace_canonical (env : Env) (t : Tags) (s : GoString)
    (hs : CheckTags env s = none) :
    (Replace env t s).2 = none ∧ StrictAsc (Replace env t s).1 ∧
    (∀ x, x ∈ (Replace env t s).1 ↔ x ≠ [] ∧ x ∈ (Split s 0x2C).map TrimSpace) ∧
    Get (some (Replace env t s).1) = List.intercalate [0x2C, 0x20] (Replace env t s).1 ∧
    Get (some (Replace asciiEnv [[0x6F, 0x6C, 0x64]] []).1) =
      [] ∧
    Get (some (Replace asciiEnv [[0x6F, 0x6C, 0x64]] [0x74, 0x61, 0x67, 0x31]).1) =
      [0x74, 0x61, 0x67, 0x31] ∧
    Get (some (Replace asciiEnv [[0x6F, 0x6C, 0x64]] [0x74, 0x61, 0x67, 0x31, 0x2C, 0x20, 0x74, 0x61, 0x67, 0x32]).1) =
      [0x74, 0x61, 0x67, 0x31, 0x2C, 0x20, 0x74, 0x61, 0x67, 0x32] ∧
    Get (some (Replace asciiEnv [[0x6F, 0x6C, 0x64]] [0x74, 0x61, 0x67, 0x33, 0x2C, 0x20, 0x74, 0x61, 0x67, 0x31, 0x2C, 0x20, 0x74, 0x61, 0x67, 0x32]).1) =
      [0x74, 0x61, 0x67, 0x31, 0x2C, 0x20, 0x74, 0x61, 0x67, 0x32, 0x2C, 0x20, 0x74, 0x61, 0x67, 0x33] ∧
    Get (some (Replace asciiEnv [[0x6F, 0x6C, 0x64]] [0x74, 0x61, 0x67, 0x31, 0x2C, 0x20, 0x74, 0x61, 0x67, 0x32, 0x2C, 0x20, 0x74, 0x61, 0x67, 0x32]).1) =
      [0x74, 0x61, 0x67, 0x31, 0x2C, 0x20, 0x74, 0x61, 0x67, 0x32] ∧
    Get (some (Replace asciiEnv [[0x6F, 0x6C, 0x64]] [0x74, 0x61, 0x67, 0x31, 0x2C]).1) =
      [0x74, 0x61, 0x67, 0x31] ∧
    Get (some (Replace asciiEnv [[0x6F, 0x6C, 0x64]] [0x2C, 0x74, 0x61, 0x67, 0x31]).1) =
      [0x74, 0x61, 0x67, 0x31] ∧
    Get (some (Replace asciiEnv [[0x6F, 0x6C, 0x64]] [0x2C, 0x74, 0x61, 0x67, 0x31, 0x2C]).1) =
      [0x74, 0x61, 0x67, 0x31] ∧
    Get (some (Replace asciiEnv [[0x6F, 0x6C, 0x64]] [0x2C, 0x74, 0x61, 0x67, 0x31, 0x2C, 0x20, 0x74, 0x61, 0x67, 0x32]).1) =
      [0x74, 0x61, 0x67, 0x31, 0x2C, 0x20, 0x74, 0x61, 0x67, 0x32] ∧
    Get (some (Replace asciiEnv [[0x6F, 0x6C, 0x64]] [0x2C]).1) =
      [] := by
  refine ⟨?_, ?_, ?_, get_eq _, by decide, by decide, by decide, by decide, by decide,
    by decide, by decide, by decide, by decide, by decide⟩
  · unfold Replace; rw [hs]
  · unfold Replace; rw [hs]
    exact (replaceLoop_spec env _ [] strictAsc_nil
      (fun p hp => checkTag_piece env s p (checkTags_loop_of_none env s hs) hp)).1
  · intro x
    unfold Replace; rw [hs]
    simp only
    rw [(replaceLoop_spec env _ [] strictAsc_nil
      (fun p hp => checkTag_piece env s p (checkTags_loop_of_none env s hs) hp)).2 x]
    constructor
    · rintro (h | h)
      · exact absurd h (List.not_mem_nil _)
      · exact h
    · intro h; exact Or.inr h

/-- Witness of C9: replacing the set `old` by `"b,a,b"` under `asciiEnv`. -/
theorem C9_replace_canonical_witness :
    (Replace asciiEnv [[0x6F, 0x6C, 0x64]] [0x62, 0x2C, 0x61, 0x2C, 0x62]).2 = none ∧ StrictAsc (Replace asciiEnv [[0x6F, 0x6C, 0x64]] [0x62, 0x2C, 0x61, 0x2C, 0x62]).1 :=
  ⟨(C9_replace_canonical asciiEnv [[0x6F, 0x6C, 0x64]] [0x62, 0x2C, 0x61, 0x2C, 0x62] (by decide)).1,
    (C9_replace_canonical asciiEnv [[0x6F, 0x6C, 0x64]] [0x62, 0x2C, 0x61, 0x2C, 0x62] (by decide)).2.1⟩

/-- C10 (`Merge` is the sorted union): for valid sets `t` and `other`,
`t.Merge(other)` returns no error even when the sets overlap, and afterwards `t`
is strictly ascending and holds exactly the elements of the old `t` and of
`other`.  `Merge` only reads `other`; when `other` is `t` itself nothing
changes.  The set `tag1, tag2, tag3` merged with `tag4, tag8, tag9` renders as
`"tag1, tag2, tag3, tag4, tag8, tag9"`. -/
theorem C10_merge_union (env : Env) (t other : Tags) (ht : Valid env t)
    (ho : Valid env other) :
    (Merge env t other).2 = none ∧ StrictAsc (Merge env t other).1 ∧
    (∀ x, x ∈ (Merge env t other).1 ↔ x ∈ t ∨ x ∈ other) ∧
    Valid env (Merge env t other).1 ∧
    Merge env t t = (t, none) ∧
    Get (some (Merge asciiEnv [[0x74, 0x61, 0x67, 0x31], [0x74, 0x61, 0x67, 0x32], [0x74, 0x61, 0x67, 0x33]] [[0x74, 0x61, 0x67, 0x34], [0x74, 0x61, 0x67, 0x38], [0x74, 0x61, 0x67, 0x39]]).1) = [0x74, 0x61, 0x67, 0x31, 0x2C, 0x20, 0x74, 0x61, 0x67, 0x32, 0x2C, 0x20, 0x74, 0x61, 0x67, 0x33, 0x2C, 0x20, 0x74, 0x61, 0x67, 0x34, 0x2C, 0x20, 0x74, 0x61, 0x67, 0x38, 0x2C, 0x20, 0x74, 0x61, 0x67, 0x39] := by
  have h := mergeLoop_validTags env other t ht.1 ho.2
  refine ⟨h.1, h.2.1, h.2.2, mergeLoop_valid env other t ht, ?_, by decide⟩
  have hs := mergeLoop_validTags env t t ht.1 ht.2
  apply Prod.ext
  · exact strictAsc_ext _ _ hs.2.1 ht.1 (fun x => by
      show x ∈ (mergeLoop env t t).1 ↔ x ∈ t
      rw [hs.2.2 x]; simp)
  · exact hs.1

/-- Witness of C10: merging the sets `a, b` and `b, c` under `asciiEnv`. -/
theorem C10_merge_union_witness :
    (Merge asciiEnv [[0x61], [0x62]] [[0x62], [0x63]]).2 = none ∧ StrictAsc (Merge asciiEnv [[0x61], [0x62]] [[0x62], [0x63]]).1 :=
  ⟨(C10_merge_union asciiEnv [[0x61], [0x62]] [[0x62], [0x63]] (by decide) (by decide)).1,
    (C10_merge_union asciiEnv [[0x61], [0x62]] [[0x62], [0x63]] (by decide) (by decide)).2.1⟩

/-! ## Claims C11 to C16 -/

/-- C11 (`Compare` counts matches): for every set `a` and every strictly
ascending set `b`, `a.Compare(b)` is the number of positions of `a` whose
element is an element of `b`; `Compare` of two empty sets is 0, `Compare` of any
set against the empty set is 0, and `Compare` of `aaa` against `0, aaa` is 1. -/
theorem C11_compare_counts (a b : Tags) (hb : StrictAsc b) :
    Compare a b = a.countP (fun x => decide (x ∈ b)) ∧
    Compare [] [] = 0 ∧ Compare a [] = 0 ∧
    Compare [[0x61, 0x61, 0x61]] [[0x30], [0x61, 0x61, 0x61]] = 1 := by
  refine ⟨compare_eq_countP a b hb, rfl, ?_, by decide⟩
  rw [compare_eq_countP a [] strictAsc_nil]
  simp

/-- Witness of C11: comparing `b, a, b` with the set `b, c`. -/
theorem C11_compare_counts_witness :
    Compare [[0x62], [0x61], [0x62]] [[0x62], [0x63]] = List.countP (fun x => decide (x ∈ [[0x62], [0x63]])) [[0x62], [0x61], [0x62]] :=
  (C11_compare_counts [[0x62], [0x61], [0x62]] [[0x62], [0x63]] (by decide)).1

/-- C12 (`Same`): `a.Same(b)` is true iff the two sequences have equal length
and equal elements at every index; when both are strictly ascending this holds
iff they have the same members, that is `a.Exist(x) == b.Exist(x)` for every
`x`.  A `Copy` of a set is `Same` as its source. -/
theorem C12_same_equality (a b : Tags) :
    (Same a b = true ↔
      a.length = b.length ∧ ∀ i, i < a.length → a.getD i [] = b.getD i []) ∧
    (StrictAsc a → StrictAsc b → (Same a b = true ↔ ∀ x, Exist a x = Exist b x)) ∧
    (∃ c, Copy (some a) = some c ∧ Same c a = true ∧ Same a c = true) ∧
    Copy none = none := by
  refine ⟨?_, ?_, ⟨a, copy_some a, (same_iff_eq a a).2 rfl, (same_iff_eq a a).2 rfl⟩, rfl⟩
  · rw [same_iff_eq]
    constructor
    · intro h; rw [h]; exact ⟨rfl, fun _ _ => rfl⟩
    · rintro ⟨hlen, h⟩
      apply List.ext_getElem hlen
      intro i h1 h2
      have := h i h1
      rwa [List.getD_eq_getElem _ _ h1, List.getD_eq_getElem _ _ h2] at this
  · intro ha hb
    rw [same_iff_eq]
    constructor
    · intro h x; rw [h]
    · intro h
      apply strictAsc_ext a b ha hb
      intro x
      rw [← exist_iff_mem a x ha, ← exist_iff_mem b x hb, h x]

/-- C13, as stated, fails on the tag `"٣"` (the Arabic-Indic digit three,
`U+0663`, bytes `D9 A3`): `CheckTag` accepts it through `unicode.IsDigit`,
though the code point is neither a letter, nor an ASCII digit, nor one of the
listed characters. -/
theorem C13_counterexample :
    runes [0xD9, 0xA3] = [0x663] ∧
    CheckTag arabicDigitEnv [0xD9, 0xA3] = none ∧
    ¬ (∀ v ∈ runes [0xD9, 0xA3], specTagWhitelist arabicDigitEnv v = true) := by
  decide

/-- C13 (white list of `CheckTag`), amended: `CheckTag(tag)` returns no error
iff every code point of `tag`, as the `range` loop decodes it, is a letter (per
the external letter predicate), a digit per `unicode.IsDigit` (an ASCII digit
or, above Latin-1, a member of the Unicode table of decimal digits), a space, or
one of `'-'`, `'_'`, `'.'`, `'/'`, `':'`; otherwise it fails with the
invalid-tag-character error.  The empty string is accepted; `','`, `'@'`, `'!'`
are rejected unless the letter predicate takes them for letters.  For a tag
whose code points all lie in Latin-1 the digits are the ASCII digits. -/
theorem C13_checkTag_whitelist (env : Env) (tag : GoString) :
    (CheckTag env tag = none ↔
      ∀ v ∈ runes tag, env.IsLetter v = true ∨ IsDigit env v = true ∨ v = 0x20 ∨
        v = 0x2D ∨ v = 0x5F ∨ v = 0x2E ∨ v = 0x2F ∨ v = 0x3A) ∧
    (∀ v, IsDigit env v = true ↔
      (0x30 ≤ v ∧ v ≤ 0x39) ∨ (0xFF < v ∧ env.digitTable v = true)) ∧
    (CheckTag env tag ≠ none → ∃ c, CheckTag env tag = some (.invalidTagChar c)) ∧
    CheckTag env [] = none ∧
    (∀ c, c = 0x2C ∨ c = 0x40 ∨ c = 0x21 → env.IsLetter c = false →
      CheckTag env [c] = some (.invalidTagChar c)) ∧
    ((∀ v ∈ runes tag, v ≤ 0xFF) →
      (CheckTag env tag = none ↔ ∀ v ∈ runes tag, specTagWhitelist env v = true)) := by
  refine ⟨?_, isDigit_iff env, ?_, rfl, ?_, ?_⟩
  · rw [checkTag_none]
    constructor
    · intro h v hv; exact (inTagWhitelist_iff env v).1 (h v hv)
    · intro h v hv; exact (inTagWhitelist_iff env v).2 (h v hv)
  · intro h
    cases hc : CheckTag env tag with
    | none => exact absurd hc h
    | some err =>
      obtain ⟨c, hc'⟩ := checkTag_err env tag err hc
      exact ⟨c, by rw [hc']⟩
  · intro c hc hl
    have hlt : c < 0x80 := by
      rcases hc with h | h | h <;> rw [h] <;> decide
    have hw : inTagWhitelist env c = false := by
      unfold inTagWhitelist IsDigit
      rw [hl]
      rcases hc with h | h | h <;> rw [h] <;> simp
    have hm : c % 256 = c := Nat.mod_eq_of_lt (Nat.lt_trans hlt (by decide))
    unfold CheckTag
    rw [runes_single_ascii c hlt, checkTagLoop_some]
    exact ⟨[], c, [], rfl, fun u hu => absurd hu (List.not_mem_nil _), hw, hm.symm⟩
  · intro hlat
    rw [checkTag_none]
    constructor
    · intro h v hv
      rw [← specTagWhitelist_latin1 env v (hlat v hv)]
      exact h v hv
    · intro h v hv
      rw [specTagWhitelist_latin1 env v (hlat v hv)]
      exact h v hv

/-- C14 (rule of `CheckTags`): for every raw string and every configuration,
`CheckTags(raw)` fails with the invalid-tags-length error iff `len(raw) <=
TagStringMin` and `len(raw) >= TagStringMax`, which needs `TagStringMin >=
TagStringMax` and never happens under the defaults 1 and 3000; otherwise it
fails with the invalid-tag-character error iff some code point of `raw` is
neither `','` nor accepted by the white list of `CheckTag`; otherwise it returns
no error. -/
theorem C14_checkTags_rule (env : Env) (raw : GoString) :
    (CheckTags env raw = some .invalidTagsLength ↔
      (raw.length : Int) ≤ env.TagStringMin ∧ (raw.length : Int) ≥ env.TagStringMax) ∧
    (CheckTags env raw = some .invalidTagsLength → env.TagStringMin ≥ env.TagStringMax) ∧
    (env.TagStringMin = TagStringMin → env.TagStringMax = TagStringMax →
      CheckTags env raw ≠ some .invalidTagsLength) ∧
    (¬ ((raw.length : Int) ≤ env.TagStringMin ∧ (raw.length : Int) ≥ env.TagStringMax) →
      (((∃ c, CheckTags env raw = some (.invalidTagChar c)) ↔
          ∃ v ∈ runes raw, v ≠ 0x2C ∧ inTagWhitelist env v = false) ∧
        ((¬ ∃ v ∈ runes raw, v ≠ 0x2C ∧ inTagWhitelist env v = false) →
          CheckTags env raw = none))) ∧
    (∀ s, CheckTag env s = none ↔ ∀ v ∈ runes s, inTagWhitelist env v = true) := by
  have hlen : CheckTags env raw = some .invalidTagsLength ↔
      (raw.length : Int) ≤ env.TagStringMin ∧ (raw.length : Int) ≥ env.TagStringMax := by
    rw [checkTags_eq]
    split
    · rename_i h; simp [h]
    · rename_i h
      constructor
      · intro h1
        obtain ⟨c, hc⟩ := checkTagsLoop_err env _ _ h1
        exact absurd hc (by simp)
      · intro h1; exact absurd h1 h
  refine ⟨hlen, ?_, ?_, ?_, fun s => checkTag_none env s⟩
  · intro h
    have := hlen.1 h
    omega
  · intro h1 h2 h
    have := hlen.1 h
    rw [h1, h2] at this
    unfold TagStringMin TagStringMax at this
    omega
  · intro hn
    rw [checkTags_eq, if_neg hn]
    constructor
    · rw [← checkTagsLoop_ne_none]
      constructor
      · rintro ⟨c, hc⟩; rw [hc]; simp
      · intro h
        cases hc : checkTagsLoop env (runes raw) with
        | none => exact absurd hc h
        | some err =>
          obtain ⟨c, hc'⟩ := checkTagsLoop_err env _ err hc
          exact ⟨c, by rw [hc']⟩
    · intro h
      rw [← checkTagsLoop_ne_none] at h
      exact not_not.1 h

/-- C15, as stated, fails on the empty raw string: under the default
configuration `CheckTags` accepts it, and its length 0 is below
`TagStringMin`. -/
theorem C15_counterexample :
    asciiEnv.TagStringMin = 1 ∧ asciiEnv.TagStringMax = 3000 ∧
    CheckTags asciiEnv [] = none ∧
    ¬ (asciiEnv.TagStringMin ≤ (([] : GoString).length : Int) ∧
      (([] : GoString).length : Int) < asciiEnv.TagStringMax) := by
  decide

/-- C15 (length of an accepted raw string), amended: under the default
configuration (`TagStringMin = 1`, `TagStringMax = 3000`) `CheckTags` does not
enforce the lower bound: it accepts the empty raw string, of length 0, and
`NewTags` and `Replace` build the empty set from it without error. -/
theorem C15_empty_accepted (env : Env) (t : Tags) (hmin : env.TagStringMin = 1)
    (hmax : env.TagStringMax = 3000) :
    CheckTags env [] = none ∧ NewTags env [] = (some [], none) ∧
      Replace env t [] = ([], none) := by
  have h : CheckTags env [] = none := by
    rw [checkTags_eq, if_neg (by rw [hmin, hmax]; simp)]
    rfl
  refine ⟨h, ?_, ?_⟩
  · unfold NewTags
    rw [h]
    rfl
  · unfold Replace
    rw [h]
    rfl

/-- Witness of C15: the environment `asciiEnv` and the set `a`. -/
theorem C15_empty_accepted_witness :
    CheckTags asciiEnv [] = none ∧ NewTags asciiEnv [] = (some [], none) ∧
      Replace asciiEnv [[0x61]] [] = ([], none) :=
  C15_empty_accepted asciiEnv [[0x61]] rfl rfl

/-- C16, as stated, fails on the tag made of a tab and `a`: the tab is outside
the white list, yet `Add` trims it away and stores `a` without error; and for
the tag made of a tab only the error is the empty-string error. -/
theorem C16_counterexample :
    0x09 ∈ runes [0x09, 0x61] ∧ inTagWhitelist asciiEnv 0x09 = false ∧
    Add asciiEnv [] [0x09, 0x61] = ([[0x61]], none) ∧
    Add asciiEnv [] [0x09] = ([], some .emptyString) := by
  decide

/-- C16 (character validation on `Add`), amended: for every set `t` and every
tag whose trimmed form holds a code point outside the white list of a single tag
(letter, digit, space, `'-'`, `'_'`, `'.'`, `'/'`, `':'`), `Add(tag)` fails
with the invalid-tag-character error and leaves the set as it was; so do the
tags `"a@b"` and `"hi!"`.  White space at the ends of the tag is trimmed before
the check. -/
theorem C16_add_invalid_char (env : Env) (t : Tags) (tag : GoString)
    (hbad : ∃ v ∈ runes (TrimSpace tag), inTagWhitelist env v = false) :
    (∃ c, Add env t tag = (t, some (.invalidTagChar c))) ∧
    Add env t tag = (t, CheckTag env (TrimSpace tag)) ∧
    Add asciiEnv [[0x61]] [0x61, 0x40, 0x62] = ([[0x61]], some (.invalidTagChar 0x40)) ∧
    Add asciiEnv [[0x61]] [0x68, 0x69, 0x21] = ([[0x61]], some (.invalidTagChar 0x21)) := by
  have hne : TrimSpace tag ≠ [] := by
    intro h
    obtain ⟨v, hv, _⟩ := hbad
    rw [h, runes_nil] at hv
    exact absurd hv (List.not_mem_nil _)
  have hck : CheckTag env (TrimSpace tag) ≠ none := by
    intro h
    obtain ⟨v, hv, hw⟩ := hbad
    rw [(checkTag_none env _).1 h v hv] at hw
    exact absurd hw (by simp)
  have hadd : Add env t tag = (t, CheckTag env (TrimSpace tag)) := by
    unfold Add
    simp only
    rw [if_neg hne]
    cases hc : CheckTag env (TrimSpace tag) with
    | none => exact absurd hc hck
    | some err => rfl
  refine ⟨?_, hadd, by decide, by decide⟩
  cases hc : CheckTag env (TrimSpace tag) with
  | none => exact absurd hc hck
  | some err =>
    obtain ⟨c, hc'⟩ := checkTag_err env _ err hc
    exact ⟨c, by rw [hadd, hc, hc']⟩

/-- Witness of C16: adding `"a@b"` to the set `a` under `asciiEnv`. -/
theorem C16_add_invalid_char_witness :
    ∃ c, Add asciiEnv [[0x61]] [0x61, 0x40, 0x62] = ([[0x61]], some (.invalidTagChar c)) :=
  (C16_add_invalid_char asciiEnv [[0x61]] [0x61, 0x40, 0x62] ⟨0x40, by decide, by decide⟩).1

/-! ## Claims C17 to C20 -/

/-- C17 (failure of `NewTags`): `NewTags(s)` returns an error iff `CheckTags(s)`
fails or some non-empty trimmed comma-separated piece of `s` equals an earlier
one.  When `CheckTags` fails no set is returned; when a piece repeats, the
error is the tag-exists error, raised at the first repeated piece, and the
returned set holds exactly the pieces before it, sorted; when no piece repeats
the set holds all of them.  The empty string gives no error and the empty set.
The white list is taken to hold no other white space than the space (no letter
and no digit is white space), and, for the empty string, the configured minimum
to be below the configured maximum. -/
theorem C17_newTags_failure (env : Env) (s : GoString)
    (hws : ∀ v, inTagWhitelist env v = true → IsSpace v = true → v = 0x20) :
    ((NewTags env s).2 ≠ none ↔ CheckTags env s ≠ none ∨ ¬ (trimmedPieces s).Nodup) ∧
    (CheckTags env s ≠ none → NewTags env s = (none, CheckTags env s)) ∧
    (CheckTags env s = none → ∀ pre x post, trimmedPieces s = pre ++ x :: post →
      pre.Nodup → x ∈ pre →
      ∃ t, NewTags env s = (some t, some .tagExist) ∧ StrictAsc t ∧ ∀ y, y ∈ t ↔ y ∈ pre) ∧
    (CheckTags env s = none → (trimmedPieces s).Nodup →
      ∃ t, NewTags env s = (some t, none) ∧ StrictAsc t ∧
        ∀ y, y ∈ t ↔ y ∈ trimmedPieces s) ∧
    (env.TagStringMin < env.TagStringMax → NewTags env [] = (some [], none)) ∧
    NewTags asciiEnv [0x61, 0x2C, 0x62, 0x2C, 0x61, 0x2C, 0x63] = (some [[0x61], [0x62]], some .tagExist) ∧
    NewTags asciiEnv [0x61, 0x40] = (none, some (.invalidTagChar 0x40)) ∧
    NewTags asciiEnv [] = (some [], none) := by
  have hloop : CheckTags env s = none →
      (∀ pre x post, trimmedPieces s = pre ++ x :: post → pre.Nodup → x ∈ pre →
        ∃ t, NewTags env s = (some t, some .tagExist) ∧ StrictAsc t ∧
          ∀ y, y ∈ t ↔ y ∈ pre) ∧
      ((trimmedPieces s).Nodup →
        ∃ t, NewTags env s = (some t, none) ∧ StrictAsc t ∧
          ∀ y, y ∈ t ↔ y ∈ trimmedPieces s) := by
    intro hs
    have hl := checkTags_loop_of_none env s hs
    obtain ⟨h1, h2⟩ := newTagsLoop_pieces env (Split s 0x2C) [] strictAsc_nil
      (fun p hp => checkTag_piece env s p hl hp)
      (fun p hp htr => piece_trimSpace_ne_nil env s p hws hl hp htr)
    rw [newTags_eq_loop env s hs]
    refine ⟨?_, ?_⟩
    · intro pre x post hdec hnd hx
      obtain ⟨e1, e2, e3⟩ := h1 pre x post hdec
        (fun y _ => List.not_mem_nil y) hnd (Or.inl hx)
      refine ⟨_, Prod.ext rfl e1, e2, fun y => ?_⟩
      rw [e3 y]
      simp
    · intro hnd
      obtain ⟨e1, e2, e3⟩ := h2 hnd (fun y _ => List.not_mem_nil y)
      refine ⟨_, Prod.ext rfl e1, e2, fun y => ?_⟩
      rw [e3 y]
      simp [trimmedPieces]
  refine ⟨?_, newTags_of_checkTags_err env s, fun hs => (hloop hs).1,
    fun hs => (hloop hs).2, ?_, by decide, by decide, by decide⟩
  · by_cases hs : CheckTags env s = none
    · constructor
      · intro herr
        right
        intro hnd
        obtain ⟨t, ht, _⟩ := (hloop hs).2 hnd
        rw [ht] at herr
        exact herr rfl
      · rintro (h | h)
        · exact absurd hs h
        · obtain ⟨pre, x, post, hdec, hnd, hx⟩ :=
            exists_first_repeat (trimmedPieces s) [] List.nodup_nil (by simpa using h)
          obtain ⟨t, ht, _⟩ := (hloop hs).1 pre x post (by simpa using hdec) hnd hx
          rw [ht]
          simp
    · constructor
      · intro _; exact Or.inl hs
      · intro _
        rw [newTags_of_checkTags_err env s hs]
        exact hs
  · intro hcfg
    have h : CheckTags env [] = none := by
      rw [checkTags_eq, if_neg (by simp only [List.length_nil, Nat.cast_zero]; omega)]
      rfl
    unfold NewTags
    rw [h]
    rfl

/-- Witness of C17: the raw string `"b,b,a"` under `asciiEnv`. -/
theorem C17_newTags_failure_witness :
    (NewTags asciiEnv [0x62, 0x2C, 0x62, 0x2C, 0x61]).2 ≠ none ↔
      CheckTags asciiEnv [0x62, 0x2C, 0x62, 0x2C, 0x61] ≠ none ∨ ¬ (trimmedPieces [0x62, 0x2C, 0x62, 0x2C, 0x61]).Nodup :=
  (C17_newTags_failure asciiEnv [0x62, 0x2C, 0x62, 0x2C, 0x61] asciiEnv_ws).1

/-- C18 (`MergeFromStringSlice`): for a valid set `t` and a list of items, if
every item trims to a non-empty string that passes `CheckTag`, the call returns
no error, repeats being swallowed, and afterwards `t` is strictly ascending and
holds exactly its old elements and the trimmed items, whatever the order of the
items; otherwise the call returns the empty-string or invalid-character error
of the first offending item, with exactly the items before it merged.  The set
`tag1, tag2, tag3` merged with `tag8`, `tag9`, `tag4` renders as
`"tag1, tag2, tag3, tag4, tag8, tag9"`. -/
theorem C18_mergeFromStringSlice (env : Env) (t : Tags) (items : List GoString)
    (ht : Valid env t) :
    ((∀ x ∈ items, TrimSpace x ≠ [] ∧ CheckTag env (TrimSpace x) = none) →
      (MergeFromStringSlice env t items).2 = none ∧
      StrictAsc (MergeFromStringSlice env t items).1 ∧
      (∀ y, y ∈ (MergeFromStringSlice env t items).1 ↔ y ∈ t ∨ y ∈ items.map TrimSpace) ∧
      ∀ items', List.Perm items' items →
        MergeFromStringSlice env t items' = MergeFromStringSlice env t items) ∧
    (∀ pre x post, items = pre ++ x :: post →
      (∀ y ∈ pre, TrimSpace y ≠ [] ∧ CheckTag env (TrimSpace y) = none) →
      (TrimSpace x = [] ∨ CheckTag env (TrimSpace x) ≠ none) →
      (MergeFromStringSlice env t items).2 =
        (if TrimSpace x = [] then some .emptyString else CheckTag env (TrimSpace x)) ∧
      (MergeFromStringSlice env t items).2 ≠ none ∧
      (MergeFromStringSlice env t items).2 ≠ some .tagExist ∧
      StrictAsc (MergeFromStringSlice env t items).1 ∧
      ∀ y, y ∈ (MergeFromStringSlice env t items).1 ↔ y ∈ t ∨ y ∈ pre.map TrimSpace) ∧
    Valid env (MergeFromStringSlice env t items).1 ∧
    Get (some (MergeFromStringSlice asciiEnv [[0x74, 0x61, 0x67, 0x31], [0x74, 0x61, 0x67, 0x32], [0x74, 0x61, 0x67, 0x33]] [[0x74, 0x61, 0x67, 0x38], [0x74, 0x61, 0x67, 0x39], [0x74, 0x61, 0x67, 0x34]]).1) = [0x74, 0x61, 0x67, 0x31, 0x2C, 0x20, 0x74, 0x61, 0x67, 0x32, 0x2C, 0x20, 0x74, 0x61, 0x67, 0x33, 0x2C, 0x20, 0x74, 0x61, 0x67, 0x34, 0x2C, 0x20, 0x74, 0x61, 0x67, 0x38, 0x2C, 0x20, 0x74, 0x61, 0x67, 0x39] ∧
    MergeFromStringSlice asciiEnv [[0x61]] [[0x62], [0x61, 0x40], [0x63]] = ([[0x61], [0x62]], some (.invalidTagChar 0x40)) := by
  refine ⟨?_, ?_, mergeLoop_valid env items t ht, by decide, by decide⟩
  · intro hall
    obtain ⟨h1, h2, h3⟩ := mergeLoop_ok env items t ht.1 hall
    refine ⟨h1, h2, h3, ?_⟩
    intro items' hp
    have hall' : ∀ x ∈ items', TrimSpace x ≠ [] ∧ CheckTag env (TrimSpace x) = none :=
      fun x hx => hall x (hp.mem_iff.1 hx)
    obtain ⟨g1, g2, g3⟩ := mergeLoop_ok env items' t ht.1 hall'
    apply Prod.ext
    · apply strictAsc_ext _ _ g2 h2
      intro y
      show y ∈ (mergeLoop env items' t).1 ↔ y ∈ (mergeLoop env items t).1
      rw [g3 y, h3 y, (hp.map TrimSpace).mem_iff]
    · show (mergeLoop env items' t).2 = (mergeLoop env items t).2
      rw [g1, h1]
  · intro pre x post hdec hpre hx
    obtain ⟨h1, h2, h3⟩ := mergeLoop_ok env pre t ht.1 hpre
    have hrun : MergeFromStringSlice env t items =
        ((mergeLoop env pre t).1,
          if TrimSpace x = [] then some .emptyString else CheckTag env (TrimSpace x)) := by
      show mergeLoop env items t = _
      rw [hdec, mergeLoop_append env (x :: post) pre t h1, mergeLoop_offending env _ x post hx]
    rw [hrun]
    refine ⟨rfl, ?_, ?_, h2, h3⟩
    · simp only
      by_cases hx0 : TrimSpace x = []
      · rw [if_pos hx0]; simp
      · rw [if_neg hx0]
        rcases hx with hx | hx
        · exact absurd hx hx0
        · exact hx
    · simp only
      by_cases hx0 : TrimSpace x = []
      · rw [if_pos hx0]; simp
      · rw [if_neg hx0]
        intro hc
        obtain ⟨c, hc'⟩ := checkTag_err env _ _ hc
        exact absurd hc' (by simp)

/-- Witness of C18: merging `" b"`, `"a"`, `"b"` into the set `a` under
`asciiEnv`. -/
theorem C18_mergeFromStringSlice_witness :
    Valid asciiEnv (MergeFromStringSlice asciiEnv [[0x61]] [[0x20, 0x62], [0x61], [0x62]]).1 :=
  (C18_mergeFromStringSlice asciiEnv [[0x61]] [[0x20, 0x62], [0x61], [0x62]] (by decide)).2.2.1

/-- C19 at the input `"a€b"` (bytes `61 E2 82 AC 62`): the first code point
outside the white list is `'€'`, `U+20AC`, and both `CheckTag` and `CheckTags`
report the single byte `0xAC`, the low byte of the rune, not the character.  In
general the error carries the low byte of the first rune outside the white
list. -/
theorem C19_truncated_character :
    runes [0x61, 0xE2, 0x82, 0xAC, 0x62] = [0x61, 0x20AC, 0x62] ∧
    inTagWhitelist asciiEnv 0x61 = true ∧ inTagWhitelist asciiEnv 0x20AC = false ∧
    inTagsWhitelist asciiEnv 0x61 = true ∧ inTagsWhitelist asciiEnv 0x20AC = false ∧
    CheckTag asciiEnv [0x61, 0xE2, 0x82, 0xAC, 0x62] = some (.invalidTagChar 0xAC) ∧
    CheckTags asciiEnv [0x61, 0xE2, 0x82, 0xAC, 0x62] = some (.invalidTagChar 0xAC) ∧
    (∀ (env : Env) (s : GoString) (c : Nat), CheckTag env s = some (.invalidTagChar c) ↔
      ∃ pre v post, runes s = pre ++ v :: post ∧ (∀ u ∈ pre, inTagWhitelist env u = true) ∧
        inTagWhitelist env v = false ∧ c = v % 256) := by
  refine ⟨by decide, by decide, by decide, by decide, by decide, by decide, by decide, ?_⟩
  intro env s c
  exact checkTagLoop_some env (runes s) c

/-- C20 (`Compare` is symmetric on strictly ascending sets): `a.Compare(b)` and
`b.Compare(a)` are equal, both being the number of strings that are members of
both sets; `a.Compare(a)` is `a.Len()`, and `a.Compare(b)` is at most the
smaller of `a.Len()` and `b.Len()`. -/
theorem C20_compare_symmetric (a b : Tags) (ha : StrictAsc a) (hb : StrictAsc b) :
    Compare a b = Compare b a ∧
    Compare a b = (a.toFinset ∩ b.toFinset).card ∧
    Compare b a = (a.toFinset ∩ b.toFinset).card ∧
    Compare a a = Len (some a) ∧
    Compare a b ≤ min (Len (some a)) (Len (some b)) := by
  have hab := compare_eq_card a b ha hb
  have hba : Compare b a = (a.toFinset ∩ b.toFinset).card := by
    rw [compare_eq_card b a hb ha, Finset.inter_comm]
  have haa : Compare a a = a.length := by
    rw [compare_eq_card a a ha ha, Finset.inter_self,
      List.toFinset_card_of_nodup (strictAsc_nodup a ha)]
  have hle1 : Compare a b ≤ a.length := by
    rw [hab, ← List.toFinset_card_of_nodup (strictAsc_nodup a ha)]
    exact Finset.card_le_card Finset.inter_subset_left
  have hle2 : Compare a b ≤ b.length := by
    rw [hab, ← List.toFinset_card_of_nodup (strictAsc_nodup b hb)]
    exact Finset.card_le_card Finset.inter_subset_right
  refine ⟨by rw [hab, hba], hab, hba, haa, ?_⟩
  exact Nat.le_min.2 ⟨hle1, hle2⟩

/-- Witness of C20: the sets `a, b` and `b, c`. -/
theorem C20_compare_symmetric_witness :
    Compare [[0x61], [0x62]] [[0x62], [0x63]] = Compare [[0x62], [0x63]] [[0x61], [0x62]] :=
  (C20_compare_symmetric [[0x61], [0x62]] [[0x62], [0x63]] (by decide) (by decide)).1

end GoTags
